import Mathlib

/-! Workload-health node mapper (`internal/catalog/internal/controllers/workloadhealth`)

A shallow embedding of `node_mapper.go`, the in-memory index from node names to the
reconcile requests of the workloads that run on them, of the validators of `types/node.go`
and `types/service_endpoints.go`, and of `randomName` of the gateway tests, with the theorems
that settle the specification's claims about them.

Modelling conventions

* Go's `map[string][]controller.Request` is an association list; `mapGet`, `mapSet` and
  `mapDelete` are the three map primitives the code uses (`m[k]`, `m[k] = v`, `delete(m, k)`).
* Go leaves the iteration order of `range` over a map unspecified.  Every operation that ranges
  over the map therefore takes the visiting order as an explicit argument `order`, and
  reachability lets each call pick any permutation of the keys.
* A slice is the list of its elements.  Within the index no two map entries share a backing
  array (each entry descends from `append(reqs, _)` on its own previous value), so the contents
  of the map are exactly what the list operations compute.  What a caller sees through a slice
  it was handed earlier does depend on the sharing; for that the mapper is embedded a second
  time, `nodeMapperRef`, with slice headers into a memory of backing arrays.
* Functions, constants and message types that the sources use but that are declared in files
  outside them are parameters (`types.Externals`, `GroupName`, `VersionV1Alpha1`) or are
  modelled under a doc comment that says so.
* Pointer arguments are taken to be non-nil; `proto.Equal` on two non-nil identifiers is
  structural equality.
* The mutex is not modelled: operations are state transformers applied one after another.
-/

namespace pbresource

/-- Modelled from the spec: the generated message `pbresource.Type` (group, group-version,
kind) is not among the sources. -/
structure ResourceType where
  Group : String
  GroupVersion : String
  Kind : String
deriving DecidableEq, Repr

/-- Modelled from the spec: the generated message `pbresource.Tenancy` (partition, namespace,
peer) is not among the sources. -/
structure Tenancy where
  Partition : String
  Namespace : String
  PeerName : String
deriving DecidableEq, Repr

/-- Modelled from the spec: the generated message `pbresource.ID`, a resource identifier made of
type, tenancy and name, compared structurally. -/
structure ID where
  Type_ : ResourceType
  Tenancy : Tenancy
  Name : String
deriving DecidableEq, Repr

/-- Modelled from the spec: the message `anypb.Any` that carries a resource's data, a type URL
and the encoded bytes; it is declared outside the sources. -/
structure Any where
  TypeUrl : String
  Value : List Nat
deriving DecidableEq, Repr

/-- Modelled from the spec: the generated message `pbresource.Resource`; the mapper reads only
its `Id`, the validators also decode its `Data`. -/
structure Resource where
  Id : ID
  Version : String
  Generation : String
  Data : Any
deriving DecidableEq, Repr

end pbresource

namespace pbcatalog

/-- Modelled from the spec: the generated message `pbcatalog.WorkloadAddress` is not among the
sources; the fields are those the tests build. -/
structure WorkloadAddress where
  Host : String
  Ports : List String
  External : Bool
deriving DecidableEq, Repr

/-- Modelled from the spec: the generated message `pbcatalog.WorkloadPort` is not among the
sources; `Port` is the physical port read by `validateEndpoint`, an unsigned 32-bit number. -/
structure WorkloadPort where
  Port : Nat
  Protocol : Nat
deriving DecidableEq, Repr

/-- Modelled from the spec: the generated message `pbcatalog.Workload`, the parsed data of a
dependent, is not among the sources; `NodeName` is its owner-name field, and `Ports` is a Go
map. -/
structure Workload where
  Addresses : List WorkloadAddress
  Ports : List (String × WorkloadPort)
  NodeName : String
  Identity : String
deriving DecidableEq, Repr

/-- Modelled from the spec: the generated message `pbcatalog.NodeAddress` is not among the
sources; `Host` is the field `validateNodeAddress` reads. -/
structure NodeAddress where
  Host : String
deriving DecidableEq, Repr

/-- Modelled from the spec: the generated message `pbcatalog.Node` is not among the sources;
`Addresses` is the field `ValidateNode` reads. -/
structure Node where
  Addresses : List NodeAddress
deriving DecidableEq, Repr

/-- Modelled from the spec: the generated message `pbcatalog.Endpoint` is not among the sources;
`TargetRef` is a pointer that may be nil and `Ports` is a Go map. -/
structure Endpoint where
  TargetRef : Option pbresource.ID
  Addresses : List WorkloadAddress
  Ports : List (String × WorkloadPort)
  HealthStatus : Nat
deriving DecidableEq, Repr

/-- Modelled from the spec: the generated message `pbcatalog.ServiceEndpoints` is not among the
sources. -/
structure ServiceEndpoints where
  Endpoints : List Endpoint
deriving DecidableEq, Repr

end pbcatalog

namespace proto

/-- Modelled from the spec: `proto.Equal` on two non-nil identifiers is structural equality
of their fields. -/
def Equal (x y : pbresource.ID) : Bool := decide (x = y)

end proto

namespace controller

/-- The `controller.Request` built by `controller.Request{ID: workloadID}`. -/
structure Request where
  ID : pbresource.ID
deriving DecidableEq, Repr

end controller

namespace workloadhealth

open pbresource controller

/-! ## Go map primitives on association lists -/

/-- Go `m[k]` with the comma-ok form: `none` when the key is absent. -/
def mapGet {V : Type} : List (String × V) → String → Option V
  | [], _ => none
  | (k', v) :: rest, k => if k' = k then some v else mapGet rest k

/-- Go `m[k] = v`: overwrite the entry of `k`, or add one. -/
def mapSet {V : Type} : List (String × V) → String → V → List (String × V)
  | [], k, v => [(k, v)]
  | (k', v') :: rest, k, v => if k' = k then (k, v) :: rest else (k', v') :: mapSet rest k v

/-- Go `delete(m, k)`. -/
def mapDelete {V : Type} (m : List (String × V)) (k : String) : List (String × V) :=
  m.filter (fun e => decide (e.1 ≠ k))

/-- The keys of a Go map. -/
def mapKeys {V : Type} (m : List (String × V)) : List String :=
  m.map Prod.fst

/-! ## The mapper -/

/-- The struct `nodeMapper` (its mutex left out). -/
structure nodeMapper where
  nodesToWorkloads : List (String × List Request)
deriving DecidableEq, Repr

/-- `DefaultNodeMapper`: the empty index. -/
def DefaultNodeMapper : nodeMapper :=
  ⟨[]⟩

/-- The inner loop of `removeWorkloadTrackingLocked` (lines 90-98): the index of the first
request equal to `workloadID`, `none` standing for `foundIdx == -1`. -/
def foundIdx : List Request → ID → Option Nat
  | [], _ => none
  | req :: rest, workloadID =>
    if proto.Equal req.ID workloadID then some 0
    else (foundIdx rest workloadID).map (fun i => i + 1)

/-- The body of `if foundIdx != -1` in `removeWorkloadTrackingLocked` (lines 103-114), where
`workloads` is `m.nodesToWorkloads[existingNodeName]`. -/
def removeFound (m : List (String × List Request)) (existingNodeName : String)
    (workloads : List Request) (idx : Nat) : List (String × List Request) :=
  let l := workloads.length
  if l = 1 then
    mapDelete m existingNodeName
  else if idx = l - 1 then
    mapSet m existingNodeName (workloads.take idx)
  else if idx = 0 then
    mapSet m existingNodeName (workloads.drop 1)
  else
    mapSet m existingNodeName (workloads.take idx ++ workloads.drop (idx + 1))

/-- The outer loop of `removeWorkloadTrackingLocked` over the node names in visiting order:
the first node whose list holds `workloadID` is rewritten and the loop returns. -/
def removeScan (m : List (String × List Request)) (workloadID : ID) :
    List String → List (String × List Request)
  | [] => m
  | existingNodeName :: rest =>
    match mapGet m existingNodeName with
    | none => removeScan m workloadID rest
    | some workloads =>
      match foundIdx workloads workloadID with
      | none => removeScan m workloadID rest
      | some idx => removeFound m existingNodeName workloads idx

/-- `nodeMapper.removeWorkloadTrackingLocked`, with `order` the order in which `range` visits
the node names. -/
def nodeMapper.removeWorkloadTrackingLocked (m : nodeMapper) (order : List String)
    (workloadID : ID) : nodeMapper :=
  ⟨removeScan m.nodesToWorkloads workloadID order⟩

/-- `nodeMapper.RemoveWorkloadTracking`. -/
def nodeMapper.RemoveWorkloadTracking (m : nodeMapper) (order : List String)
    (workloadID : ID) : nodeMapper :=
  m.removeWorkloadTrackingLocked order workloadID

/-- `nodeMapper.TrackWorkload`; `order` is the visiting order of the scan it may run. -/
def nodeMapper.TrackWorkload (m : nodeMapper) (order : List String)
    (workloadID nodeID : ID) : nodeMapper :=
  let found := mapGet m.nodesToWorkloads nodeID.Name
  let reqs := found.getD []
  let ok := found.isSome
  if ok && reqs.any (fun req => proto.Equal req.ID workloadID) then
    m
  else
    let m1 := m.removeWorkloadTrackingLocked order workloadID
    ⟨mapSet m1.nodesToWorkloads nodeID.Name (reqs ++ [⟨workloadID⟩])⟩

/-- `nodeMapper.MapNodeToWorkloads`: the requests stored under the node's name (the nil slice,
of length 0, when there are none) and the error, which is always nil. The context and runtime
arguments are ignored by the code. -/
def nodeMapper.MapNodeToWorkloads (m : nodeMapper) (res : Resource) :
    List Request × Option String :=
  ((mapGet m.nodesToWorkloads res.Id.Name).getD [], none)

/-- The constant `NodeKind` of `types/node.go`. -/
def NodeKind : String := "Node"

/-- The variable `NodeV1Alpha1Type` of `types/node.go`. The constants `GroupName` and
`VersionV1Alpha1` are declared outside the sources and are taken as parameters. -/
def NodeV1Alpha1Type (GroupName VersionV1Alpha1 : String) : ResourceType :=
  ⟨GroupName, VersionV1Alpha1, NodeKind⟩

/-- The variable `NodeType` of `types/node.go`, an alias of `NodeV1Alpha1Type`. -/
def NodeType (GroupName VersionV1Alpha1 : String) : ResourceType :=
  NodeV1Alpha1Type GroupName VersionV1Alpha1

/-- `nodeMapper.NodeIDFromWorkload`; the receiver is an argument like any other. -/
def nodeMapper.NodeIDFromWorkload (_m : nodeMapper) (GroupName VersionV1Alpha1 : String)
    (workload : Resource) (workloadData : pbcatalog.Workload) : ID :=
  ⟨NodeV1Alpha1Type GroupName VersionV1Alpha1, workload.Id.Tenancy, workloadData.NodeName⟩

/-- Rebuilding the index from a listing of dependents: `TrackWorkload` on each
(workload ID, node ID) pair in list order, each pair paired with the visiting order of the scan
that its call may run. -/
def replay (m : nodeMapper) : List (List String × ID × ID) → nodeMapper
  | [] => m
  | (order, workloadID, nodeID) :: rest => replay (m.TrackWorkload order workloadID nodeID) rest

/-- States reachable from the empty index by `TrackWorkload` and `RemoveWorkloadTracking`
calls, each scan visiting the node names of the map in some order. -/
inductive Reachable : nodeMapper → Prop
  | init : Reachable DefaultNodeMapper
  | track (m : nodeMapper) (order : List String) (workloadID nodeID : ID) :
      Reachable m → order.Perm (mapKeys m.nodesToWorkloads) →
      Reachable (m.TrackWorkload order workloadID nodeID)
  | untrack (m : nodeMapper) (order : List String) (workloadID : ID) :
      Reachable m → order.Perm (mapKeys m.nodesToWorkloads) →
      Reachable (m.RemoveWorkloadTracking order workloadID)

/-- Workload `d` is in the request list stored for node name `k`. -/
def Tracked (m : nodeMapper) (k : String) (d : ID) : Prop :=
  ∃ l, mapGet m.nodesToWorkloads k = some l ∧ (⟨d⟩ : Request) ∈ l

/-- The three invariants of the data model, over what the map returns for each node name. -/
structure Inv (m : nodeMapper) : Prop where
  single : ∀ k1 k2 d, Tracked m k1 d → Tracked m k2 d → k1 = k2
  nodup : ∀ k l, mapGet m.nodesToWorkloads k = some l → l.Nodup
  nonempty : ∀ k l, mapGet m.nodesToWorkloads k = some l → l ≠ []

/-- The scan visits every node name of the map. -/
def Covers (order : List String) (m : nodeMapper) : Prop :=
  ∀ k, mapGet m.nodesToWorkloads k ≠ none → k ∈ order

/-! ## Concrete identifiers, after `TestNodeMapper_WorkloadTracking` -/

/-- The tenancy `tenant` of the test. -/
def tenant : Tenancy := ⟨"default", "default", "local"⟩

/-- A second tenancy, for identifiers that differ from the test's only in tenancy. -/
def otherTenant : Tenancy := ⟨"other", "default", "local"⟩

/-- A concrete workload type for the examples (the constant `types.WorkloadType` is declared
outside the sources). -/
def exampleWorkloadType : ResourceType := ⟨"catalog", "v1alpha1", "Workload"⟩

/-- A concrete node type for the examples, with the kind `NodeKind` of `node.go`. -/
def exampleNodeType : ResourceType := ⟨"catalog", "v1alpha1", "Node"⟩

/-- The identifier `workload1` of the test. -/
def workload1 : ID := ⟨exampleWorkloadType, tenant, "workload1"⟩

/-- The identifier `workload2` of the test. -/
def workload2 : ID := ⟨exampleWorkloadType, tenant, "workload2"⟩

/-- The identifier `workload3` of the test. -/
def workload3 : ID := ⟨exampleWorkloadType, tenant, "workload3"⟩

/-- The node resource `node1` of the test. -/
def node1 : Resource := ⟨⟨exampleNodeType, tenant, "node1"⟩, "", "", ⟨"", []⟩⟩

/-- The node resource `node2` of the test. -/
def node2 : Resource := ⟨⟨exampleNodeType, tenant, "node2"⟩, "", "", ⟨"", []⟩⟩

/-- A node resource named `node1` in another tenancy. -/
def node1Other : Resource := ⟨⟨exampleNodeType, otherTenant, "node1"⟩, "", "", ⟨"", []⟩⟩

/-- The index after `TrackWorkload(workload1, node1.Id)`. -/
def index1 : nodeMapper :=
  DefaultNodeMapper.TrackWorkload [] workload1 node1.Id

/-- The index after tracking `workload1` and `workload2` under `node1`. -/
def index2 : nodeMapper :=
  index1.TrackWorkload ["node1"] workload2 node1.Id

/-- The index after also tracking `workload3` under `node1`. -/
def index3 : nodeMapper :=
  index2.TrackWorkload ["node1"] workload3 node1.Id

/-- The identifier `workload4` of the test. -/
def workload4 : ID := ⟨exampleWorkloadType, tenant, "workload4"⟩

/-- A node identifier whose name is empty. -/
def emptyNameNode : Resource := ⟨⟨exampleNodeType, tenant, ""⟩, "", "", ⟨"", []⟩⟩

/-- A workload identifier whose name is empty. -/
def emptyNameWorkload : ID := ⟨exampleWorkloadType, tenant, ""⟩

/-- The test after its first call (line 93), `o1` the visiting order of the scan. -/
def scenario1 (o1 : List String) : nodeMapper :=
  DefaultNodeMapper.TrackWorkload o1 workload1 node1.Id

/-- The test after its second call (line 94). -/
def scenario2 (o1 o2 : List String) : nodeMapper :=
  (scenario1 o1).TrackWorkload o2 workload2 node1.Id

/-- The test after its third call (line 95). -/
def scenario3 (o1 o2 o3 : List String) : nodeMapper :=
  (scenario2 o1 o2).TrackWorkload o3 workload3 node2.Id

/-- The test after its fourth call (line 96). -/
def scenario4 (o1 o2 o3 o4 : List String) : nodeMapper :=
  (scenario3 o1 o2 o3).TrackWorkload o4 workload4 node2.Id

/-- The test after `workload2` is tracked under `node2` (line 113). -/
def scenario5 (o1 o2 o3 o4 o5 : List String) : nodeMapper :=
  (scenario4 o1 o2 o3 o4).TrackWorkload o5 workload2 node2.Id

/-- The test after `workload1` is untracked (line 124). -/
def scenario6 (o1 o2 o3 o4 o5 o6 : List String) : nodeMapper :=
  (scenario5 o1 o2 o3 o4 o5).RemoveWorkloadTracking o6 workload1

/-- A workload resource in the test's tenancy, for `NodeIDFromWorkload`. -/
def exampleWorkload : Resource := ⟨workload1, "v1", "g1", ⟨"", []⟩⟩

/-- Workload data naming the node `test-node`, as in `TestNodeMapper_NodeIDFromWorkload`. -/
def exampleWorkloadData : pbcatalog.Workload := ⟨[], [], "test-node", ""⟩

/-! ## The mapper with slices held by reference

The same code once more, with what a Go slice is: a header (backing array, offset, length,
capacity) into a memory of arrays. The map stores headers, `MapNodeToWorkloads` returns one, and
the rewriting cases of `removeWorkloadTrackingLocked` and `append` work on the shared arrays. An
array is the list of its cells written so far; how much spare capacity `append` gives a new
array is left to the runtime and is the parameter `spare`. -/

/-- A Go slice header: the backing array, the offset of element 0 in it, the length and the
capacity. -/
structure Slice where
  arr : Nat
  off : Nat
  len : Nat
  cap : Nat
deriving DecidableEq, Repr

/-- The nil slice, the zero value that `m[k]` yields for an absent key. -/
def nilSlice : Slice := ⟨0, 0, 0, 0⟩

/-- The elements of a slice, read from memory. -/
def readSlice (mem : List (List Request)) (s : Slice) : List Request :=
  ((mem.getD s.arr []).drop s.off).take s.len

/-- Go `s[:j]`. -/
def sliceTo (s : Slice) (j : Nat) : Slice :=
  ⟨s.arr, s.off, j, s.cap⟩

/-- Go `s[i:]`. -/
def sliceFrom (s : Slice) (i : Nat) : Slice :=
  ⟨s.arr, s.off + i, s.len - i, s.cap - i⟩

/-- Writing `x` into cell `p` of array `a` (the next unwritten cell when `p` is past the cells
written so far). -/
def storeCell (mem : List (List Request)) (a p : Nat) (x : Request) : List (List Request) :=
  mem.set a (if p < (mem.getD a []).length then (mem.getD a []).set p x
    else mem.getD a [] ++ [x])

/-- Writing the requests `xs` into the cells of array `a` from cell `p` on. -/
def storeCells (mem : List (List Request)) (a : Nat) : Nat → List Request → List (List Request)
  | _, [] => mem
  | p, x :: xs => storeCells (storeCell mem a p x) a (p + 1) xs

/-- Go `append(s, xs...)`: within the capacity the elements are written in place after the
last element of `s`; otherwise a new array is allocated, with the elements of `s` and `xs` and
`spare` cells of room. The elements `xs` are read before anything is written. -/
def goAppend (spare : Nat → Nat) (mem : List (List Request)) (s : Slice) (xs : List Request) :
    List (List Request) × Slice :=
  if s.len + xs.length ≤ s.cap then
    (storeCells mem s.arr (s.off + s.len) xs, ⟨s.arr, s.off, s.len + xs.length, s.cap⟩)
  else
    (mem ++ [readSlice mem s ++ xs],
      ⟨mem.length, 0, s.len + xs.length, s.len + xs.length + spare (s.len + xs.length)⟩)

/-- The struct `nodeMapper` with its slices held by reference: the memory of backing arrays and
the map from node names to slice headers. -/
structure nodeMapperRef where
  mem : List (List Request)
  nodesToWorkloads : List (String × Slice)
deriving DecidableEq, Repr

/-- `DefaultNodeMapper`, by reference. -/
def DefaultNodeMapperRef : nodeMapperRef :=
  ⟨[], []⟩

/-- The body of `if foundIdx != -1` (lines 103-114), by reference. -/
def nodeMapperRef.removeFound (spare : Nat → Nat) (m : nodeMapperRef)
    (existingNodeName : String) (workloads : Slice) (idx : Nat) : nodeMapperRef :=
  let l := workloads.len
  if l = 1 then
    ⟨m.mem, mapDelete m.nodesToWorkloads existingNodeName⟩
  else if idx = l - 1 then
    ⟨m.mem, mapSet m.nodesToWorkloads existingNodeName (sliceTo workloads idx)⟩
  else if idx = 0 then
    ⟨m.mem, mapSet m.nodesToWorkloads existingNodeName (sliceFrom workloads 1)⟩
  else
    let r := goAppend spare m.mem (sliceTo workloads idx)
      (readSlice m.mem (sliceFrom workloads (idx + 1)))
    ⟨r.1, mapSet m.nodesToWorkloads existingNodeName r.2⟩

/-- The outer loop of `removeWorkloadTrackingLocked`, by reference. -/
def nodeMapperRef.removeScan (spare : Nat → Nat) (m : nodeMapperRef) (workloadID : ID) :
    List String → nodeMapperRef
  | [] => m
  | existingNodeName :: rest =>
    match mapGet m.nodesToWorkloads existingNodeName with
    | none => nodeMapperRef.removeScan spare m workloadID rest
    | some workloads =>
      match foundIdx (readSlice m.mem workloads) workloadID with
      | none => nodeMapperRef.removeScan spare m workloadID rest
      | some idx => m.removeFound spare existingNodeName workloads idx

/-- `nodeMapper.RemoveWorkloadTracking`, by reference. -/
def nodeMapperRef.RemoveWorkloadTracking (spare : Nat → Nat) (m : nodeMapperRef)
    (order : List String) (workloadID : ID) : nodeMapperRef :=
  m.removeScan spare workloadID order

/-- `nodeMapper.TrackWorkload`, by reference. -/
def nodeMapperRef.TrackWorkload (spare : Nat → Nat) (m : nodeMapperRef) (order : List String)
    (workloadID nodeID : ID) : nodeMapperRef :=
  let found := mapGet m.nodesToWorkloads nodeID.Name
  let reqs := found.getD nilSlice
  let ok := found.isSome
  if ok && (readSlice m.mem reqs).any (fun req => proto.Equal req.ID workloadID) then
    m
  else
    let m1 := m.removeScan spare workloadID order
    let r := goAppend spare m1.mem reqs [⟨workloadID⟩]
    ⟨r.1, mapSet m1.nodesToWorkloads nodeID.Name r.2⟩

/-- `nodeMapper.MapNodeToWorkloads`, by reference: the slice header stored under the node's name
is returned as it is. -/
def nodeMapperRef.MapNodeToWorkloads (m : nodeMapperRef) (res : Resource) :
    Slice × Option String :=
  ((mapGet m.nodesToWorkloads res.Id.Name).getD nilSlice, none)

/-- A caller's assignment `reqs[i] = x` to a slice it holds; out of range it panics and writes
nothing. -/
def nodeMapperRef.callerWrite (m : nodeMapperRef) (reqs : Slice) (i : Nat) (x : Request) :
    nodeMapperRef :=
  if i < reqs.len then ⟨storeCell m.mem reqs.arr (reqs.off + i) x, m.nodesToWorkloads⟩ else m

/-- The list the index holds for a node name: the elements of the stored slice. -/
def nodeMapperRef.contents (m : nodeMapperRef) (name : String) : List Request :=
  readSlice m.mem ((mapGet m.nodesToWorkloads name).getD nilSlice)

/-- Well-formed memory: no node name is a key twice, every stored slice lies within its
capacity and within the written cells of an allocated array, and the slices of different
entries have different backing arrays. -/
def WFRef (m : nodeMapperRef) : Prop :=
  (mapKeys m.nodesToWorkloads).Nodup ∧
  (∀ e ∈ m.nodesToWorkloads, e.2.len ≤ e.2.cap ∧ e.2.arr < m.mem.length ∧
    e.2.off + e.2.len ≤ (m.mem.getD e.2.arr []).length) ∧
  m.nodesToWorkloads.Pairwise (fun e1 e2 => e1.2.arr ≠ e2.2.arr)

/-- States of the mapper by reference that are reachable from the empty index by `TrackWorkload`
and `RemoveWorkloadTracking` calls, each scan visiting the node names of the map in some
order. -/
inductive ReachableRef (spare : Nat → Nat) : nodeMapperRef → Prop
  | init : ReachableRef spare DefaultNodeMapperRef
  | track (m : nodeMapperRef) (order : List String) (workloadID nodeID : ID) :
      ReachableRef spare m → order.Perm (mapKeys m.nodesToWorkloads) →
      ReachableRef spare (m.TrackWorkload spare order workloadID nodeID)
  | untrack (m : nodeMapperRef) (order : List String) (workloadID : ID) :
      ReachableRef spare m → order.Perm (mapKeys m.nodesToWorkloads) →
      ReachableRef spare (m.RemoveWorkloadTracking spare order workloadID)

/-- The growth of the Go runtime for small slices: a new array has double the old capacity. -/
def doublingSpare (n : Nat) : Nat := n - 2

/-- The index by reference after `workload1`, `workload2` and `workload3` are tracked under
`node1`. -/
def indexRef3 : nodeMapperRef :=
  ((DefaultNodeMapperRef.TrackWorkload doublingSpare [] workload1 node1.Id).TrackWorkload
    doublingSpare ["node1"] workload2 node1.Id).TrackWorkload doublingSpare ["node1"] workload3
    node1.Id

/-! ## Sequences of calls and the reference map -/

/-- A call of one of the two mutating operations of the index, with the visiting order of the
scan it may run. -/
inductive Call where
  | TrackWorkload (order : List String) (workloadID nodeID : ID)
  | RemoveWorkloadTracking (order : List String) (workloadID : ID)
deriving DecidableEq, Repr

/-- The visiting order carried by a call. -/
def Call.order : Call → List String
  | Call.TrackWorkload order _ _ => order
  | Call.RemoveWorkloadTracking order _ => order

/-- The workload a call mentions. -/
def Call.workloadID : Call → ID
  | Call.TrackWorkload _ workloadID _ => workloadID
  | Call.RemoveWorkloadTracking _ workloadID => workloadID

/-- Performing a call on the index. -/
def Call.apply (c : Call) (m : nodeMapper) : nodeMapper :=
  match c with
  | Call.TrackWorkload order workloadID nodeID => m.TrackWorkload order workloadID nodeID
  | Call.RemoveWorkloadTracking order workloadID => m.RemoveWorkloadTracking order workloadID

/-- Performing a sequence of calls, first call first. -/
def runCalls (m : nodeMapper) : List Call → nodeMapper
  | [] => m
  | c :: rest => runCalls (c.apply m) rest

/-- Every call of the sequence scans the node names that the map has when the call is made, in
some order. -/
def ValidCalls (m : nodeMapper) : List Call → Prop
  | [] => True
  | c :: rest => c.order.Perm (mapKeys m.nodesToWorkloads) ∧ ValidCalls (c.apply m) rest

/-- The last call of the sequence that mentions workload `d`, if any. -/
def lastCallFor (calls : List Call) (d : ID) : Option Call :=
  calls.reverse.find? (fun c => decide (c.workloadID = d))

/-- The reference map of the specification, from dependent to owner name with the last writer
winning: `d` has the owner name `o.Name` when the last call that mentions `d` is
`TrackWorkload(d, o)`, and no owner when that call is `RemoveWorkloadTracking(d)` or when no call
mentions `d`. -/
def referenceOwner (calls : List Call) (d : ID) : Option String :=
  match lastCallFor calls d with
  | some (Call.TrackWorkload _ _ nodeID) => some nodeID.Name
  | some (Call.RemoveWorkloadTracking _ _) => none
  | none => none

/-- A sequence of calls for the examples: track `workload1` and `workload2` under `node1`, move
`workload2` to `node2`, untrack `workload1`. -/
def exampleCalls : List Call :=
  [Call.TrackWorkload [] workload1 node1.Id, Call.TrackWorkload ["node1"] workload2 node1.Id,
    Call.TrackWorkload ["node1"] workload2 node2.Id,
    Call.RemoveWorkloadTracking ["node2", "node1"] workload1]

/-- An index state outside the reachable ones, in which `workload1` is in two lists. -/
def doubleOwnerIndex : nodeMapper :=
  ⟨[("node1", [⟨workload1⟩, ⟨workload2⟩]), ("node2", [⟨workload1⟩])]⟩

/-! ## Later calls and a slice handed out earlier -/

/-- Performing a call on the mapper by reference. -/
def Call.applyRef (spare : Nat → Nat) (c : Call) (m : nodeMapperRef) : nodeMapperRef :=
  match c with
  | Call.TrackWorkload order workloadID nodeID =>
    m.TrackWorkload spare order workloadID nodeID
  | Call.RemoveWorkloadTracking order workloadID =>
    m.RemoveWorkloadTracking spare order workloadID

/-- Performing a sequence of calls on the mapper by reference, first call first. -/
def runCallsRef (spare : Nat → Nat) (m : nodeMapperRef) : List Call → nodeMapperRef
  | [] => m
  | c :: rest => runCallsRef spare (c.applyRef spare m) rest

/-- Taking `d` out of the list `t` is the interior case of lines 112-113 and the entries it
shifts down start ahead of the end of the slice `s`. -/
def shiftsInto (mem : List (List Request)) (t s : Slice) (d : ID) : Bool :=
  match foundIdx (readSlice mem t) d with
  | some idx => decide (0 < idx ∧ idx + 1 < t.len ∧ t.off + idx < s.off + s.len)
  | none => false

/-- The call writes into the cells of the slice `s`, handed out earlier for the node name
`name`, through the list `t` that the index now holds for that name in the same backing array.
Two paths do so: a removal of `d` (by `RemoveWorkloadTracking`, or by a `TrackWorkload` that
moves `d` to another node name) from an interior position of `t` ahead of the end of `s`, and a
`TrackWorkload` for that same node name that appends `d` within the capacity of `t` when `t`
ends ahead of the end of `s`. -/
def WritesInto (m : nodeMapperRef) (name : String) (s : Slice) (c : Call) : Bool :=
  match mapGet m.nodesToWorkloads name with
  | none => false
  | some t =>
    decide (t.arr = s.arr) &&
      match c with
      | Call.RemoveWorkloadTracking _ d => shiftsInto m.mem t s d
      | Call.TrackWorkload _ d o =>
        if o.Name = name then
          !(readSlice m.mem t).any (fun req => proto.Equal req.ID d) &&
            decide (t.len + 1 ≤ t.cap ∧ t.off + t.len < s.off + s.len)
        else shiftsInto m.mem t s d

/-- None of the calls of the sequence, made one after another from the state `m`, writes into
the cells of the slice `s`. -/
def NeverWritesInto (spare : Nat → Nat) (m : nodeMapperRef) (name : String) (s : Slice) :
    List Call → Prop
  | [] => True
  | c :: rest =>
    WritesInto m name s c = false ∧ NeverWritesInto spare (c.applyRef spare m) name s rest

/-- The slice `s` was handed out for the node name `name`: only the entry of that name may
share its backing array, which is allocated, and its cells are written. -/
def SnapshotOf (m : nodeMapperRef) (name : String) (s : Slice) : Prop :=
  (∀ e ∈ m.nodesToWorkloads, e.2.arr = s.arr → e.1 = name) ∧ s.arr < m.mem.length ∧
    s.off + s.len ≤ (m.mem.getD s.arr []).length

end workloadhealth

/-! ## Package `types`: validation of nodes and service endpoints -/

namespace types

/-- Modelled from the spec: the error values of package `types`, declared in a file that is not
among the sources and listed after `TestErrorStrings`. `foreign` stands for an error built
outside the package and `multi` for a `*multierror.Error` with its list of errors. -/
inductive Error where
  | errMissing
  | errEmpty
  | errNotDNSLabel
  | errNotIPAddress
  | errUnixSocketMultiport
  | errInvalidPhysicalPort
  | errInvalidVirtualPort
  | errDNSWarningWeightOutOfRange
  | errDNSPassingWeightOutOfRange
  | errLocalityZoneNoRegion
  | errReferenceTenancyNotEqual
  | ErrDataParse (TypeName : String) (Wrapped : Error)
  | ErrInvalidField (Name : String) (Wrapped : Error)
  | ErrInvalidListElement (Name : String) (Index : Nat) (Wrapped : Error)
  | ErrInvalidMapKey (Map : String) (Key : String) (Wrapped : Error)
  | ErrInvalidMapValue (Map : String) (Key : String) (Wrapped : Error)
  | ErrInvalidWorkloadHostFormat (Host : String)
  | ErrInvalidNodeHostFormat (Host : String)
  | ErrOwnerInvalid (ResourceType : pbresource.ResourceType) (OwnerType : pbresource.ResourceType)
  | ErrInvalidPortReference (Name : String)
  | ErrInvalidReferenceType (AllowedType : pbresource.ResourceType)
  | ErrVirtualPortReused (Index : Nat) (Value : Nat)
  | foreign (msg : String)
  | multi (Errors : List Error)

end types

namespace multierror

/-- Modelled from the spec: `multierror.Append(err, e)` of the library go-multierror for one
appended error. A nil `err` starts a new list, a `*multierror.Error` is extended, any other
error becomes the first element; an appended `*multierror.Error` is flattened. The result is
never nil. -/
def Append (err : Option types.Error) (e : types.Error) : Option types.Error :=
  let base : List types.Error :=
    match err with
    | none => []
    | some (types.Error.multi errs) => errs
    | some other => [other]
  let added : List types.Error :=
    match e with
    | types.Error.multi errs => errs
    | other => [other]
  some (types.Error.multi (base ++ added))

end multierror

namespace types

open pbresource

/-- The functions and constants of package `types` that the sources call but that are declared
in files outside the sources; they are parameters of the model. The two `Unmarshal` fields stand
for `res.Data.UnmarshalTo` at the two message types, `newErrDataParse` for the helper of that
name applied to the message decoded into. -/
structure Externals where
  UnmarshalNode : Any → Except Error pbcatalog.Node
  UnmarshalServiceEndpoints : Any → Except Error pbcatalog.ServiceEndpoints
  newErrDataParseNode : Error → Error
  newErrDataParseServiceEndpoints : Error → Error
  isValidIPAddress : String → Bool
  isValidDNSName : String → Bool
  WorkloadType : ResourceType
  validateReference : ResourceType → Tenancy → ID → Option Error
  validateWorkloadAddress :
    pbcatalog.WorkloadAddress → List (String × pbcatalog.WorkloadPort) → Option Error
  validatePortName : String → Option Error

/-- `validateNodeAddress` of `node.go`. -/
def validateNodeAddress (x : Externals) (addr : pbcatalog.NodeAddress) : Option Error :=
  if addr.Host = "" then
    some (Error.ErrInvalidField "host" Error.errMissing)
  else if !x.isValidIPAddress addr.Host && !x.isValidDNSName addr.Host then
    some (Error.ErrInvalidField "host" (Error.ErrInvalidNodeHostFormat addr.Host))
  else
    none

/-- The loop of `ValidateNode` over the addresses (lines 52-60), `idx` the index of the first
address of the list and `err` the error accumulated so far. -/
def validateNodeAddresses (x : Externals) :
    List pbcatalog.NodeAddress → Nat → Option Error → Option Error
  | [], _, err => err
  | addr :: rest, idx, err =>
    match validateNodeAddress x addr with
    | some addrErr =>
      validateNodeAddresses x rest (idx + 1)
        (multierror.Append err (Error.ErrInvalidListElement "addresses" idx addrErr))
    | none => validateNodeAddresses x rest (idx + 1) err

/-- `ValidateNode` of `node.go`. -/
def ValidateNode (x : Externals) (res : Resource) : Option Error :=
  match x.UnmarshalNode res.Data with
  | Except.error err => some (x.newErrDataParseNode err)
  | Except.ok node =>
    let err : Option Error :=
      if node.Addresses.length < 1 then
        multierror.Append none (Error.ErrInvalidField "addresses" Error.errEmpty)
      else none
    validateNodeAddresses x node.Addresses 0 err

/-- The loop of `validateEndpoint` over the addresses (lines 72-80). -/
def validateEndpointAddresses (x : Externals) (ports : List (String × pbcatalog.WorkloadPort)) :
    List pbcatalog.WorkloadAddress → Nat → Option Error → Option Error
  | [], _, err => err
  | addr :: rest, addrIdx, err =>
    match x.validateWorkloadAddress addr ports with
    | some addrErr =>
      validateEndpointAddresses x ports rest (addrIdx + 1)
        (multierror.Append err (Error.ErrInvalidListElement "addresses" addrIdx addrErr))
    | none => validateEndpointAddresses x ports rest (addrIdx + 1) err

/-- The loop of `validateEndpoint` over the map of ports (lines 91-114), the port names visited
in the order given. -/
def validateEndpointPorts (x : Externals) (ports : List (String × pbcatalog.WorkloadPort)) :
    List String → Option Error → Option Error
  | [], err => err
  | portName :: rest, err =>
    match workloadhealth.mapGet ports portName with
    | none => validateEndpointPorts x ports rest err
    | some port =>
      let err1 : Option Error :=
        match x.validatePortName portName with
        | some portNameErr =>
          multierror.Append err (Error.ErrInvalidMapKey "ports" portName portNameErr)
        | none => err
      let err2 : Option Error :=
        if port.Port < 1 ∨ port.Port > 65535 then
          multierror.Append err1 (Error.ErrInvalidMapValue "ports" portName
            (Error.ErrInvalidField "phsical_port" Error.errInvalidPhysicalPort))
        else err1
      validateEndpointPorts x ports rest err2

/-- `validateEndpoint` of `service_endpoints.go`, with `portOrder` the order in which `range`
visits the names of the map of ports. -/
def validateEndpoint (x : Externals) (portOrder : List String) (endpoint : pbcatalog.Endpoint)
    (res : Resource) : Option Error :=
  let err0 : Option Error :=
    match endpoint.TargetRef with
    | some targetRef =>
      match x.validateReference x.WorkloadType res.Id.Tenancy targetRef with
      | some refErr => multierror.Append none (Error.ErrInvalidField "target_ref" refErr)
      | none => none
    | none => none
  let err1 := validateEndpointAddresses x endpoint.Ports endpoint.Addresses 0 err0
  let err2 : Option Error :=
    if endpoint.Ports.length < 1 then
      multierror.Append err1 (Error.ErrInvalidField "ports" Error.errEmpty)
    else err1
  validateEndpointPorts x endpoint.Ports portOrder err2

/-- A set of helpers for the examples: hosts `198.18.0.1` and `foo.com` are the valid IP
address and DNS name, the decoders read the number of addresses from the first byte, and the
other validators accept the port name `http` and every reference and address. -/
def exampleExternals : Externals where
  UnmarshalNode := fun data =>
    match data.Value with
    | [] => Except.error (Error.foreign "proto: cannot parse")
    | n :: _ => Except.ok ⟨List.replicate n ⟨"198.18.0.1"⟩⟩
  UnmarshalServiceEndpoints := fun _ => Except.ok ⟨[]⟩
  newErrDataParseNode := fun err =>
    Error.ErrDataParse "hashicorp.consul.catalog.v1alpha1.Node" err
  newErrDataParseServiceEndpoints := fun err =>
    Error.ErrDataParse "hashicorp.consul.catalog.v1alpha1.ServiceEndpoints" err
  isValidIPAddress := fun host => decide (host = "198.18.0.1")
  isValidDNSName := fun host => decide (host = "foo.com")
  WorkloadType := ⟨"catalog", "v1alpha1", "Workload"⟩
  validateReference := fun _ _ _ => none
  validateWorkloadAddress := fun _ _ => none
  validatePortName := fun name => if name = "http" then none else some Error.errNotDNSLabel

/-- A node resource whose data decodes, with `exampleExternals`, to one address. -/
def exampleNodeResource : Resource :=
  ⟨⟨⟨"catalog", "v1alpha1", "Node"⟩, ⟨"default", "default", "local"⟩, "node1"⟩, "", "",
    ⟨"", [1]⟩⟩

/-- An endpoint with one address and the port `http` on 8080. -/
def exampleEndpoint : pbcatalog.Endpoint :=
  ⟨none, [⟨"198.18.0.1", ["http"], false⟩], [("http", ⟨8080, 1⟩)], 0⟩

/-- The loop of `ValidateServiceEndpoints` over the endpoints (lines 43-51), `idx` the index of
the first endpoint of the list, `err` the error accumulated so far and `portOrder i` the order
in which the ports of endpoint `i` are visited. -/
def validateEndpoints (x : Externals) (portOrder : Nat → List String) (res : Resource) :
    List pbcatalog.Endpoint → Nat → Option Error → Option Error
  | [], _, err => err
  | endpoint :: rest, idx, err =>
    match validateEndpoint x (portOrder idx) endpoint res with
    | some endpointErr =>
      validateEndpoints x portOrder res rest (idx + 1)
        (multierror.Append err (Error.ErrInvalidListElement "endpoints" idx endpointErr))
    | none => validateEndpoints x portOrder res rest (idx + 1) err

/-- `ValidateServiceEndpoints` of `service_endpoints.go`. -/
def ValidateServiceEndpoints (x : Externals) (portOrder : Nat → List String) (res : Resource) :
    Option Error :=
  match x.UnmarshalServiceEndpoints res.Data with
  | Except.error err => some (x.newErrDataParseServiceEndpoints err)
  | Except.ok svcEndpoints => validateEndpoints x portOrder res svcEndpoints.Endpoints 0 none

/-- Modelled from the spec: `isValidUnixSocketPath`, declared in a file outside the sources,
after `TestIsValidUnixSocketPath`: the host starts with `unix://` and holds no NUL
character. -/
def isValidUnixSocketPath (host : String) : Bool :=
  "unix://".toList.isPrefixOf host.toList && host.toList.all (fun c => decide (c.toNat ≠ 0))

/-- The unix socket host of `TestIsValidUnixSocketPath`, as a node address. -/
def unixSocketAddress : pbcatalog.NodeAddress := ⟨"unix:///foo/bar.sock"⟩

/-- Helpers for the examples whose decoder yields two endpoints, the first without ports. -/
def exampleEndpointsExternals : Externals :=
  Externals.mk exampleExternals.UnmarshalNode
    (fun _ => Except.ok ⟨[⟨none, [], [], 0⟩, exampleEndpoint]⟩)
    exampleExternals.newErrDataParseNode exampleExternals.newErrDataParseServiceEndpoints
    exampleExternals.isValidIPAddress exampleExternals.isValidDNSName
    exampleExternals.WorkloadType exampleExternals.validateReference
    exampleExternals.validateWorkloadAddress exampleExternals.validatePortName

/-- A node resource whose data decodes, with `exampleExternals`, to no address. -/
def emptyNodeResource : Resource :=
  ⟨⟨⟨"catalog", "v1alpha1", "Node"⟩, ⟨"default", "default", "local"⟩, "node0"⟩, "", "",
    ⟨"", [0]⟩⟩

end types

/-! ## The gateway tests: `randomName` -/

namespace gateways

/-- A lowercase hexadecimal digit, as the byte of its character. -/
def hexDigit (v : Nat) : Nat :=
  if v < 10 then 48 + v else 87 + v

/-- Modelled from the spec: `hex.EncodeToString` of the Go library, two hexadecimal digits for
each byte. -/
def hexEncodeToString (p : List Nat) : List Nat :=
  p.flatMap (fun b => [hexDigit (b / 16 % 16), hexDigit (b % 16)])

/-- `randomName` of `http_route_test.go`. A Go string is the sequence of its bytes; the
parameter `pfx` is the one the source calls `prefix`, `n` is a Go `int`, and `rand i` is the
`i`-th byte that `rand.Read` draws into `p`. The byte 45 is the hyphen of the format string. -/
def randomName (pfx : List Nat) (n : Int) (rand : Nat → Nat) : List Nat :=
  let n1 : Int := if n = 0 then 32 else n
  if (pfx.length : Int) ≥ n1 then
    pfx
  else
    let p := (List.range n1.toNat).map rand
    (pfx ++ [45] ++ hexEncodeToString p).take n1.toNat

/-- The bytes of the string `abcdef`. -/
def abcdef : List Nat := [97, 98, 99, 100, 101, 102]

/-- The bytes of the string `gw`. -/
def gw : List Nat := [103, 119]

/-- A source of random bytes for the examples. -/
def exampleRand (i : Nat) : Nat := (37 * i + 11) % 256

end gateways

namespace workloadhealth

open pbresource controller

/-! ## Map primitives: lookup laws -/

theorem mapGet_mapSet {V : Type} (m : List (String × V)) (k k' : String) (v : V) :
    mapGet (mapSet m k v) k' = if k' = k then some v else mapGet m k' := by
  induction m with
  | nil =>
    by_cases h : k = k'
    · subst h; simp [mapSet, mapGet]
    · have h' : ¬ k' = k := fun e => h e.symm
      simp [mapSet, mapGet, h, h']
  | cons e rest ih =>
    obtain ⟨a, b⟩ := e
    by_cases hak : a = k
    · subst hak
      by_cases h : a = k'
      · subst h; simp [mapSet, mapGet]
      · have h' : ¬ k' = a := fun e => h e.symm
        simp [mapSet, mapGet, h, h']
    · by_cases h : a = k'
      · subst h
        simp [mapSet, mapGet, hak]
      · simp [mapSet, mapGet, hak, h, ih]

theorem mapGet_mapDelete {V : Type} (m : List (String × V)) (k k' : String) :
    mapGet (mapDelete m k) k' = if k' = k then none else mapGet m k' := by
  induction m with
  | nil => simp [mapDelete, mapGet]
  | cons e rest ih =>
    obtain ⟨a, b⟩ := e
    have hcons : mapDelete ((a, b) :: rest) k =
        if a = k then mapDelete rest k else (a, b) :: mapDelete rest k := by
      by_cases hak : a = k <;> simp [mapDelete, List.filter_cons, hak]
    rw [hcons]
    by_cases hak : a = k
    · subst hak
      by_cases h : a = k'
      · subst h; simpa [mapGet] using ih
      · have h' : ¬ k' = a := fun e => h e.symm
        simpa [mapGet, h, h'] using ih
    · by_cases h : a = k'
      · subst h
        simp [mapGet, hak]
      · simp [mapGet, hak, h, ih]

theorem mapGet_ne_none_iff {V : Type} (m : List (String × V)) (k : String) :
    mapGet m k ≠ none ↔ k ∈ mapKeys m := by
  induction m with
  | nil => simp [mapGet, mapKeys]
  | cons e rest ih =>
    obtain ⟨a, b⟩ := e
    by_cases h : a = k
    · subst h; simp [mapGet, mapKeys]
    · have h' : ¬ k = a := fun e => h e.symm
      simpa [mapGet, mapKeys, h, h'] using ih

/-! ## The inner loop and the four rewriting cases -/

theorem foundIdx_eq_none (l : List Request) (d : ID) :
    foundIdx l d = none ↔ (⟨d⟩ : Request) ∉ l := by
  induction l with
  | nil => simp [foundIdx]
  | cons r rest ih =>
    obtain ⟨x⟩ := r
    by_cases h : x = d
    · subst h; simp [foundIdx, proto.Equal]
    · have h' : ¬ d = x := fun e => h e.symm
      simp [foundIdx, proto.Equal, h, h', ih]

theorem foundIdx_eq_some (l : List Request) (d : ID) (i : Nat) (h : foundIdx l d = some i) :
    i < l.length ∧ l.eraseIdx i = l.erase ⟨d⟩ := by
  induction l generalizing i with
  | nil => simp [foundIdx] at h
  | cons r rest ih =>
    obtain ⟨x⟩ := r
    by_cases hx : x = d
    · subst hx
      simp [foundIdx, proto.Equal] at h
      subst h
      simp
    · have hx' : (⟨x⟩ : Request) ≠ ⟨d⟩ := by
        intro e; exact hx (congrArg Request.ID e)
      simp only [foundIdx, proto.Equal, hx, decide_False, Bool.false_eq_true, if_false,
        Option.map_eq_some'] at h
      obtain ⟨j, hj, rfl⟩ := h
      obtain ⟨h1, h2⟩ := ih j hj
      refine ⟨by simpa using h1, ?_⟩
      rw [List.eraseIdx_cons_succ, h2, List.erase_cons_tail]
      simpa using hx'

theorem removeFound_eq (m : List (String × List Request)) (k : String) (l : List Request)
    (i : Nat) (hi : i < l.length) :
    removeFound m k l i =
      if l.length = 1 then mapDelete m k else mapSet m k (l.eraseIdx i) := by
  unfold removeFound
  by_cases h1 : l.length = 1
  · simp [h1]
  · simp only [h1, if_false]
    by_cases h2 : i = l.length - 1
    · have : l.eraseIdx i = l.take i := by
        rw [List.eraseIdx_eq_take_drop_succ]
        have : l.drop (i + 1) = [] := List.drop_eq_nil_of_le (by omega)
        simp [this]
      rw [if_pos h2, this]
    · simp only [h2, if_false]
      by_cases h3 : i = 0
      · subst h3
        cases l <;> simp
      · simp [h3, List.eraseIdx_eq_take_drop_succ]

/-! ## The scan -/

theorem removeScan_not_found (m : List (String × List Request)) (d : ID) (order : List String)
    (h : ∀ k ∈ order, ∀ l, mapGet m k = some l → (⟨d⟩ : Request) ∉ l) :
    removeScan m d order = m := by
  induction order with
  | nil => rfl
  | cons k rest ih =>
    have ih' := ih (fun k' hk' => h k' (List.mem_cons_of_mem _ hk'))
    unfold removeScan
    cases hg : mapGet m k with
    | none => simpa using ih'
    | some l =>
      have hn : foundIdx l d = none :=
        (foundIdx_eq_none l d).mpr (h k (List.mem_cons_self _ _) l hg)
      simpa [hn] using ih'

theorem removeScan_found (m : List (String × List Request)) (d : ID) (order : List String)
    (k : String) (l : List Request) (hk : k ∈ order) (hl : mapGet m k = some l)
    (hd : (⟨d⟩ : Request) ∈ l)
    (huniq : ∀ k' ∈ order, ∀ l', mapGet m k' = some l' → (⟨d⟩ : Request) ∈ l' → k' = k) :
    removeScan m d order =
      if l.length = 1 then mapDelete m k else mapSet m k (l.erase ⟨d⟩) := by
  induction order with
  | nil => simp at hk
  | cons k0 rest ih =>
    unfold removeScan
    cases hg : mapGet m k0 with
    | none =>
      have hne : k ≠ k0 := by
        intro e; subst e; rw [hl] at hg; cases hg
      have hk' : k ∈ rest := by
        rcases List.mem_cons.mp hk with e | e
        · exact absurd e hne
        · exact e
      simpa using ih hk' (fun k' h' => huniq k' (List.mem_cons_of_mem _ h'))
    | some l0 =>
      cases hf : foundIdx l0 d with
      | none =>
        have hnot : (⟨d⟩ : Request) ∉ l0 := (foundIdx_eq_none l0 d).mp hf
        have hne : k ≠ k0 := by
          intro e; subst e; rw [hl] at hg; cases hg; exact hnot hd
        have hk' : k ∈ rest := by
          rcases List.mem_cons.mp hk with e | e
          · exact absurd e hne
          · exact e
        simpa [hf] using ih hk' (fun k' h' => huniq k' (List.mem_cons_of_mem _ h'))
      | some idx =>
        have hin : (⟨d⟩ : Request) ∈ l0 := by
          by_contra hc
          rw [(foundIdx_eq_none l0 d).mpr hc] at hf
          cases hf
        have hkk : k0 = k := huniq k0 (List.mem_cons_self _ _) l0 hg hin
        subst hkk
        rw [hl] at hg
        cases hg
        obtain ⟨h1, h2⟩ := foundIdx_eq_some l d idx hf
        simp only [hf, removeFound_eq m k0 l idx h1, h2]

/-! ## The invariant of the index -/

theorem covers_of_perm (m : nodeMapper) (order : List String)
    (h : order.Perm (mapKeys m.nodesToWorkloads)) : Covers order m := by
  intro k hk
  exact h.symm.subset ((mapGet_ne_none_iff _ _).mp hk)

theorem remove_untracked (m : nodeMapper) (order : List String) (d : ID)
    (h : ∀ k, ¬ Tracked m k d) : m.RemoveWorkloadTracking order d = m := by
  have := removeScan_not_found m.nodesToWorkloads d order
    (fun k _ l hl hd => h k ⟨l, hl, hd⟩)
  cases m
  simpa [nodeMapper.RemoveWorkloadTracking, nodeMapper.removeWorkloadTrackingLocked] using this

theorem get_remove_tracked (m : nodeMapper) (order : List String) (d : ID) (k : String)
    (l : List Request) (hinv : Inv m) (hcov : Covers order m)
    (hl : mapGet m.nodesToWorkloads k = some l) (hd : (⟨d⟩ : Request) ∈ l) (k' : String) :
    mapGet (m.RemoveWorkloadTracking order d).nodesToWorkloads k' =
      if k' = k then (if l.length = 1 then none else some (l.erase ⟨d⟩))
      else mapGet m.nodesToWorkloads k' := by
  have hk : k ∈ order := hcov k (by rw [hl]; simp)
  have hs := removeScan_found m.nodesToWorkloads d order k l hk hl hd
    (fun k' _ l' hl' hd' => hinv.single k' k d ⟨l', hl', hd'⟩ ⟨l, hl, hd⟩)
  simp only [nodeMapper.RemoveWorkloadTracking, nodeMapper.removeWorkloadTrackingLocked, hs]
  by_cases h1 : l.length = 1
  · simp only [h1, if_true, mapGet_mapDelete]
  · simp only [h1, if_false, mapGet_mapSet]

theorem tracked_or_not (m : nodeMapper) (d : ID) :
    (∀ k, ¬ Tracked m k d) ∨ ∃ k l, mapGet m.nodesToWorkloads k = some l ∧ (⟨d⟩ : Request) ∈ l := by
  by_cases h : ∃ k, Tracked m k d
  · obtain ⟨k, l, hl, hd⟩ := h
    exact Or.inr ⟨k, l, hl, hd⟩
  · exact Or.inl (fun k hk => h ⟨k, hk⟩)

theorem not_tracked_remove (m : nodeMapper) (order : List String) (d : ID)
    (hinv : Inv m) (hcov : Covers order m) (k' : String) :
    ¬ Tracked (m.RemoveWorkloadTracking order d) k' d := by
  rcases tracked_or_not m d with h | ⟨k, l, hl, hd⟩
  · rw [remove_untracked m order d h]; exact h k'
  · rintro ⟨l', hl', hd'⟩
    rw [get_remove_tracked m order d k l hinv hcov hl hd k'] at hl'
    by_cases hk : k' = k
    · simp only [hk, if_true] at hl'
      by_cases h1 : l.length = 1
      · simp [h1] at hl'
      · simp only [h1, if_false, Option.some.injEq] at hl'
        subst hl'
        exact ((hinv.nodup k l hl).mem_erase_iff.mp hd').1 rfl
    · simp only [hk, if_false] at hl'
      exact hk (hinv.single k' k d ⟨l', hl', hd'⟩ ⟨l, hl, hd⟩)

theorem tracked_remove_imp (m : nodeMapper) (order : List String) (d : ID)
    (hinv : Inv m) (hcov : Covers order m) (k' : String) (d' : ID)
    (h : Tracked (m.RemoveWorkloadTracking order d) k' d') : Tracked m k' d' := by
  rcases tracked_or_not m d with hn | ⟨k, l, hl, hd⟩
  · rwa [remove_untracked m order d hn] at h
  · obtain ⟨l', hl', hd'⟩ := h
    rw [get_remove_tracked m order d k l hinv hcov hl hd k'] at hl'
    by_cases hk : k' = k
    · simp only [hk, if_true] at hl'
      by_cases h1 : l.length = 1
      · simp [h1] at hl'
      · simp only [h1, if_false, Option.some.injEq] at hl'
        subst hl'
        exact ⟨l, hk ▸ hl, List.mem_of_mem_erase hd'⟩
    · simp only [hk, if_false] at hl'
      exact ⟨l', hl', hd'⟩

theorem inv_remove (m : nodeMapper) (order : List String) (d : ID)
    (hinv : Inv m) (hcov : Covers order m) : Inv (m.RemoveWorkloadTracking order d) := by
  rcases tracked_or_not m d with hn | ⟨k, l, hl, hd⟩
  · rwa [remove_untracked m order d hn]
  · refine ⟨?_, ?_, ?_⟩
    · intro k1 k2 d' h1 h2
      exact hinv.single k1 k2 d' (tracked_remove_imp m order d hinv hcov k1 d' h1)
        (tracked_remove_imp m order d hinv hcov k2 d' h2)
    · intro k' l' hl'
      rw [get_remove_tracked m order d k l hinv hcov hl hd k'] at hl'
      by_cases hk : k' = k
      · simp only [hk, if_true] at hl'
        by_cases h1 : l.length = 1
        · simp [h1] at hl'
        · simp only [h1, if_false, Option.some.injEq] at hl'
          subst hl'
          exact (hinv.nodup k l hl).erase _
      · simp only [hk, if_false] at hl'
        exact hinv.nodup k' l' hl'
    · intro k' l' hl'
      rw [get_remove_tracked m order d k l hinv hcov hl hd k'] at hl'
      by_cases hk : k' = k
      · simp only [hk, if_true] at hl'
        by_cases h1 : l.length = 1
        · simp [h1] at hl'
        · simp only [h1, if_false, Option.some.injEq] at hl'
          subst hl'
          intro he
          have hlen := List.length_erase_of_mem hd
          rw [he] at hlen
          have hpos : 0 < l.length := List.length_pos_of_mem hd
          simp at hlen
          omega
      · simp only [hk, if_false] at hl'
        exact hinv.nonempty k' l' hl'

theorem get_remove_other (m : nodeMapper) (order : List String) (d : ID)
    (hinv : Inv m) (hcov : Covers order m) (k' : String) (h : ¬ Tracked m k' d) :
    mapGet (m.RemoveWorkloadTracking order d).nodesToWorkloads k' =
      mapGet m.nodesToWorkloads k' := by
  rcases tracked_or_not m d with hn | ⟨k, l, hl, hd⟩
  · rw [remove_untracked m order d hn]
  · rw [get_remove_tracked m order d k l hinv hcov hl hd k']
    have hk : k' ≠ k := by
      intro e; subst e; exact h ⟨l, hl, hd⟩
    simp [hk]

/-! ## TrackWorkload -/

theorem track_cond_iff (m : nodeMapper) (d o : ID) :
    ((mapGet m.nodesToWorkloads o.Name).isSome &&
      ((mapGet m.nodesToWorkloads o.Name).getD []).any
        (fun req => proto.Equal req.ID d)) = true ↔ Tracked m o.Name d := by
  unfold Tracked
  cases hg : mapGet m.nodesToWorkloads o.Name with
  | none => simp
  | some l =>
    simp only [Option.isSome_some, Option.getD_some, Bool.true_and, List.any_eq_true,
      proto.Equal, decide_eq_true_eq, Option.some.injEq, exists_eq_left']
    constructor
    · rintro ⟨req, hreq, rfl⟩
      exact hreq
    · intro h
      exact ⟨⟨d⟩, h, rfl⟩

theorem track_tracked (m : nodeMapper) (order : List String) (d o : ID)
    (h : Tracked m o.Name d) : m.TrackWorkload order d o = m := by
  unfold nodeMapper.TrackWorkload
  simp only [(track_cond_iff m d o).mpr h, if_true]

theorem track_untracked (m : nodeMapper) (order : List String) (d o : ID)
    (h : ¬ Tracked m o.Name d) :
    m.TrackWorkload order d o =
      ⟨mapSet (m.RemoveWorkloadTracking order d).nodesToWorkloads o.Name
        ((mapGet m.nodesToWorkloads o.Name).getD [] ++ [⟨d⟩])⟩ := by
  have hc : ¬ ((mapGet m.nodesToWorkloads o.Name).isSome &&
      ((mapGet m.nodesToWorkloads o.Name).getD []).any
        (fun req => proto.Equal req.ID d)) = true := fun hc => h ((track_cond_iff m d o).mp hc)
  unfold nodeMapper.TrackWorkload
  simp [hc, nodeMapper.RemoveWorkloadTracking]

theorem tracked_track_self (m : nodeMapper) (order : List String) (d o : ID) :
    Tracked (m.TrackWorkload order d o) o.Name d := by
  by_cases h : Tracked m o.Name d
  · rwa [track_tracked m order d o h]
  · rw [track_untracked m order d o h]
    refine ⟨(mapGet m.nodesToWorkloads o.Name).getD [] ++ [⟨d⟩], ?_, by simp⟩
    simp only [mapGet_mapSet, if_true]

theorem tracked_track_iff (m : nodeMapper) (order : List String) (d o : ID)
    (hinv : Inv m) (hcov : Covers order m) (h : ¬ Tracked m o.Name d) (k' : String) (d' : ID) :
    Tracked (m.TrackWorkload order d o) k' d' ↔
      (k' = o.Name ∧ d' = d) ∨ Tracked (m.RemoveWorkloadTracking order d) k' d' := by
  rw [track_untracked m order d o h]
  have hsame := get_remove_other m order d hinv hcov o.Name h
  unfold Tracked
  simp only [mapGet_mapSet]
  by_cases hk : k' = o.Name
  · subst hk
    simp only [if_true, Option.some.injEq, exists_eq_left', true_and, hsame]
    cases hg : mapGet m.nodesToWorkloads o.Name with
    | none =>
      simp only [Option.getD_none, List.nil_append, List.mem_singleton, Request.mk.injEq]
      simp
    | some l =>
      simp only [Option.getD_some, List.mem_append, List.mem_singleton, Request.mk.injEq,
        Option.some.injEq, exists_eq_left']
      tauto
  · simp [hk]

theorem inv_track (m : nodeMapper) (order : List String) (d o : ID)
    (hinv : Inv m) (hcov : Covers order m) : Inv (m.TrackWorkload order d o) := by
  by_cases h : Tracked m o.Name d
  · rwa [track_tracked m order d o h]
  · have hinv1 := inv_remove m order d hinv hcov
    have hnot := not_tracked_remove m order d hinv hcov
    have hiff := tracked_track_iff m order d o hinv hcov h
    have hsame := get_remove_other m order d hinv hcov o.Name h
    refine ⟨?_, ?_, ?_⟩
    · intro k1 k2 d' h1 h2
      rcases (hiff k1 d').mp h1 with ⟨e1, e1'⟩ | t1
      · rcases (hiff k2 d').mp h2 with ⟨e2, _⟩ | t2
        · rw [e1, e2]
        · subst e1'; exact absurd t2 (hnot k2)
      · rcases (hiff k2 d').mp h2 with ⟨_, e2'⟩ | t2
        · subst e2'; exact absurd t1 (hnot k1)
        · exact hinv1.single k1 k2 d' t1 t2
    · intro k' l' hl'
      rw [track_untracked m order d o h] at hl'
      simp only [mapGet_mapSet] at hl'
      by_cases hk : k' = o.Name
      · simp only [hk, if_true, Option.some.injEq] at hl'
        subst hl'
        cases hg : mapGet m.nodesToWorkloads o.Name with
        | none => simp
        | some l =>
          have hnd := hinv.nodup o.Name l hg
          have hdl : (⟨d⟩ : Request) ∉ l := fun hd => h ⟨l, hg, hd⟩
          simp only [Option.getD_some]
          exact List.Nodup.append hnd (List.nodup_singleton _) (by simpa using hdl)
      · simp only [hk, if_false] at hl'
        exact hinv1.nodup k' l' hl'
    · intro k' l' hl'
      rw [track_untracked m order d o h] at hl'
      simp only [mapGet_mapSet] at hl'
      by_cases hk : k' = o.Name
      · simp only [hk, if_true, Option.some.injEq] at hl'
        subst hl'
        simp
      · simp only [hk, if_false] at hl'
        exact hinv1.nonempty k' l' hl'

theorem inv_default : Inv DefaultNodeMapper := by
  refine ⟨?_, ?_, ?_⟩
  · rintro k1 k2 d ⟨l, hl, _⟩
    simp [DefaultNodeMapper, mapGet] at hl
  · intro k l hl
    simp [DefaultNodeMapper, mapGet] at hl
  · intro k l hl
    simp [DefaultNodeMapper, mapGet] at hl

theorem inv_of_reachable (m : nodeMapper) (h : Reachable m) : Inv m := by
  induction h with
  | init => exact inv_default
  | track m order d o _ hp ih => exact inv_track m order d o ih (covers_of_perm m order hp)
  | untrack m order d _ hp ih => exact inv_remove m order d ih (covers_of_perm m order hp)

/-! ## Keys are never duplicated -/

theorem mapGet_of_mem {V : Type} (m : List (String × V)) (hk : (mapKeys m).Nodup)
    (k : String) (v : V) (h : (k, v) ∈ m) : mapGet m k = some v := by
  induction m with
  | nil => simp at h
  | cons e rest ih =>
    obtain ⟨a, b⟩ := e
    simp only [mapKeys, List.map_cons, List.nodup_cons] at hk
    rcases List.mem_cons.mp h with e | e
    · cases e
      simp [mapGet]
    · have hne : a ≠ k := by
        intro e'; subst e'
        exact hk.1 (List.mem_map.mpr ⟨(a, v), e, rfl⟩)
      simpa [mapGet, hne] using ih hk.2 e

theorem mapKeys_mapSet {V : Type} (m : List (String × V)) (k : String) (v : V) :
    mapKeys (mapSet m k v) = if k ∈ mapKeys m then mapKeys m else mapKeys m ++ [k] := by
  induction m with
  | nil => simp [mapSet, mapKeys]
  | cons e rest ih =>
    obtain ⟨a, b⟩ := e
    unfold mapKeys at ih ⊢
    by_cases hak : a = k
    · subst hak; simp [mapSet]
    · have hka : ¬ k = a := fun e => hak e.symm
      simp only [mapSet, hak, if_false, List.map_cons, ih, List.mem_cons, hka, false_or]
      split <;> simp

theorem nodup_mapKeys_mapSet {V : Type} (m : List (String × V)) (k : String) (v : V)
    (h : (mapKeys m).Nodup) : (mapKeys (mapSet m k v)).Nodup := by
  rw [mapKeys_mapSet]
  split
  · exact h
  · rename_i hk
    exact List.Nodup.append h (List.nodup_singleton _) (by simpa using hk)

theorem nodup_mapKeys_mapDelete {V : Type} (m : List (String × V)) (k : String)
    (h : (mapKeys m).Nodup) : (mapKeys (mapDelete m k)).Nodup :=
  List.Nodup.sublist ((List.filter_sublist m).map Prod.fst) h

theorem nodup_mapKeys_removeFound (m : List (String × List Request)) (k : String)
    (l : List Request) (i : Nat) (h : (mapKeys m).Nodup) :
    (mapKeys (removeFound m k l i)).Nodup := by
  unfold removeFound
  simp only
  split
  · exact nodup_mapKeys_mapDelete m k h
  · split
    · exact nodup_mapKeys_mapSet m k _ h
    · split
      · exact nodup_mapKeys_mapSet m k _ h
      · exact nodup_mapKeys_mapSet m k _ h

theorem nodup_mapKeys_removeScan (m : List (String × List Request)) (d : ID)
    (order : List String) (h : (mapKeys m).Nodup) :
    (mapKeys (removeScan m d order)).Nodup := by
  induction order with
  | nil => exact h
  | cons k rest ih =>
    unfold removeScan
    cases hg : mapGet m k with
    | none => simpa using ih
    | some l =>
      cases hf : foundIdx l d with
      | none => simpa [hf] using ih
      | some idx => simpa [hf] using nodup_mapKeys_removeFound m k l idx h

theorem nodup_mapKeys_of_reachable (m : nodeMapper) (h : Reachable m) :
    (mapKeys m.nodesToWorkloads).Nodup := by
  induction h with
  | init => simp [DefaultNodeMapper, mapKeys]
  | track m order d o _ _ ih =>
    unfold nodeMapper.TrackWorkload
    simp only
    split
    · exact ih
    · exact nodup_mapKeys_mapSet _ _ _ (nodup_mapKeys_removeScan _ d order ih)
  | untrack m order d _ _ ih =>
    exact nodup_mapKeys_removeScan _ d order ih

/-! ## Queries -/

theorem query_mem_iff (m : nodeMapper) (res : Resource) (d : ID) :
    (⟨d⟩ : Request) ∈ (m.MapNodeToWorkloads res).1 ↔ Tracked m res.Id.Name d := by
  unfold nodeMapper.MapNodeToWorkloads Tracked
  cases hg : mapGet m.nodesToWorkloads res.Id.Name with
  | none => simp
  | some l => simp

theorem query_after_track (m : nodeMapper) (order : List String) (d o : ID)
    (hinv : Inv m) (hcov : Covers order m) :
    (∀ res : Resource, res.Id.Name = o.Name →
      ((m.TrackWorkload order d o).MapNodeToWorkloads res).1.count ⟨d⟩ = 1) ∧
    (∀ res : Resource, res.Id.Name ≠ o.Name →
      (⟨d⟩ : Request) ∉ ((m.TrackWorkload order d o).MapNodeToWorkloads res).1) := by
  have hinv2 := inv_track m order d o hinv hcov
  have hself := tracked_track_self m order d o
  constructor
  · intro res hres
    obtain ⟨l, hl, hd⟩ := hself
    have hnd := hinv2.nodup o.Name l hl
    simp only [nodeMapper.MapNodeToWorkloads, hres, hl, Option.getD_some]
    exact List.count_eq_one_of_mem hnd hd
  · intro res hres hmem
    exact hres (hinv2.single _ _ d ((query_mem_iff _ res d).mp hmem) hself)

/-! ## Concrete reachable states -/

theorem index1_eq : index1 = ⟨[("node1", [⟨workload1⟩])]⟩ := by
  decide

theorem index2_eq : index2 = ⟨[("node1", [⟨workload1⟩, ⟨workload2⟩])]⟩ := by
  decide

theorem index3_eq : index3 = ⟨[("node1", [⟨workload1⟩, ⟨workload2⟩, ⟨workload3⟩])]⟩ := by
  decide

theorem reachable_index1 : Reachable index1 :=
  Reachable.track _ [] workload1 node1.Id Reachable.init (by decide)

theorem reachable_index2 : Reachable index2 :=
  Reachable.track _ ["node1"] workload2 node1.Id reachable_index1 (by decide)

theorem reachable_index3 : Reachable index3 :=
  Reachable.track _ ["node1"] workload3 node1.Id reachable_index2 (by decide)

/-! ## The claims -/

/-- C1, the single-owner invariant: in every state reachable from the empty index by
`TrackWorkload` and `RemoveWorkloadTracking` calls, no node name is a key twice, and a workload
ID found in the request lists of two entries is found under one and the same node name. -/
theorem single_owner_of_reachable (m : nodeMapper) (hm : Reachable m) :
    (mapKeys m.nodesToWorkloads).Nodup ∧
    ∀ (d : ID) (e1 e2 : String × List Request),
      e1 ∈ m.nodesToWorkloads → e2 ∈ m.nodesToWorkloads →
      (⟨d⟩ : Request) ∈ e1.2 → (⟨d⟩ : Request) ∈ e2.2 → e1.1 = e2.1 := by
  have hk := nodup_mapKeys_of_reachable m hm
  refine ⟨hk, ?_⟩
  intro d e1 e2 h1 h2 hd1 hd2
  exact (inv_of_reachable m hm).single e1.1 e2.1 d
    ⟨e1.2, mapGet_of_mem _ hk e1.1 e1.2 h1, hd1⟩ ⟨e2.2, mapGet_of_mem _ hk e2.1 e2.2 h2, hd2⟩

theorem single_owner_of_reachable_witness :
    Reachable index2 ∧
    ((mapKeys index2.nodesToWorkloads).Nodup ∧
    ∀ (d : ID) (e1 e2 : String × List Request),
      e1 ∈ index2.nodesToWorkloads → e2 ∈ index2.nodesToWorkloads →
      (⟨d⟩ : Request) ∈ e1.2 → (⟨d⟩ : Request) ∈ e2.2 → e1.1 = e2.1) :=
  ⟨reachable_index2, single_owner_of_reachable index2 reachable_index2⟩

/-- C2, the no-duplicates invariant: in every state reachable from the empty index, the request
list stored for a node name holds no request twice, and so no workload ID twice. -/
theorem no_duplicates_of_reachable (m : nodeMapper) (hm : Reachable m)
    (e : String × List Request) (he : e ∈ m.nodesToWorkloads) :
    e.2.Nodup ∧ (e.2.map Request.ID).Nodup := by
  have hk := nodup_mapKeys_of_reachable m hm
  have hn := (inv_of_reachable m hm).nodup e.1 e.2 (mapGet_of_mem _ hk e.1 e.2 he)
  refine ⟨hn, List.Nodup.map ?_ hn⟩
  intro a b hab
  cases a; cases b; simpa using hab

theorem no_duplicates_of_reachable_witness :
    Reachable index2 ∧
    ("node1", [(⟨workload1⟩ : Request), ⟨workload2⟩]) ∈ index2.nodesToWorkloads ∧
    ([(⟨workload1⟩ : Request), ⟨workload2⟩].Nodup ∧
      ([(⟨workload1⟩ : Request), ⟨workload2⟩].map Request.ID).Nodup) :=
  ⟨reachable_index2, by decide,
    no_duplicates_of_reachable index2 reachable_index2
      ("node1", [⟨workload1⟩, ⟨workload2⟩]) (by decide)⟩

/-- C3, the no-empty-entry invariant: in every state reachable from the empty index, no key of
`nodesToWorkloads` maps to an empty request list. -/
theorem no_empty_entry_of_reachable (m : nodeMapper) (hm : Reachable m)
    (e : String × List Request) (he : e ∈ m.nodesToWorkloads) : e.2 ≠ [] := by
  have hk := nodup_mapKeys_of_reachable m hm
  exact (inv_of_reachable m hm).nonempty e.1 e.2 (mapGet_of_mem _ hk e.1 e.2 he)

theorem no_empty_entry_of_reachable_witness :
    Reachable index1 ∧ ("node1", [(⟨workload1⟩ : Request)]) ∈ index1.nodesToWorkloads ∧
    [(⟨workload1⟩ : Request)] ≠ [] :=
  ⟨reachable_index1, by decide,
    no_empty_entry_of_reachable index1 reachable_index1 ("node1", [⟨workload1⟩]) (by decide)⟩

/-- C4, idempotence of `TrackWorkload`: in any index state and for any visiting orders, tracking
workload `d` under node `o` twice in a row gives exactly the state that tracking it once gives;
and when `d` is already in the list stored for the name of `o`, tracking changes nothing. -/
theorem track_idempotent (m : nodeMapper) (order1 order2 : List String) (d o : ID) :
    (m.TrackWorkload order1 d o).TrackWorkload order2 d o = m.TrackWorkload order1 d o ∧
    (∀ l, mapGet m.nodesToWorkloads o.Name = some l → (⟨d⟩ : Request) ∈ l →
      m.TrackWorkload order1 d o = m) :=
  ⟨track_tracked _ order2 d o (tracked_track_self m order1 d o),
    fun l hl hd => track_tracked m order1 d o ⟨l, hl, hd⟩⟩

theorem track_idempotent_witness :
    (index2.TrackWorkload ["node1"] workload3 node2.Id).TrackWorkload ["node2", "node1"]
        workload3 node2.Id = index2.TrackWorkload ["node1"] workload3 node2.Id ∧
    mapGet index2.nodesToWorkloads node1.Id.Name = some [⟨workload1⟩, ⟨workload2⟩] ∧
    (⟨workload2⟩ : Request) ∈ [(⟨workload1⟩ : Request), ⟨workload2⟩] ∧
    index2.TrackWorkload ["node1"] workload2 node1.Id = index2 :=
  ⟨(track_idempotent index2 ["node1"] ["node2", "node1"] workload3 node2.Id).1,
    by decide, by decide,
    (track_idempotent index2 ["node1"] [] workload2 node1.Id).2
      [⟨workload1⟩, ⟨workload2⟩] (by decide) (by decide)⟩

/-- C5, the postcondition of `TrackWorkload`: from a state reachable from the empty index, after
`TrackWorkload(d, o)` the list that `MapNodeToWorkloads` returns for `o` holds the request for
`d` exactly once, and the list returned for any node with a different name does not hold it. -/
theorem track_postcondition (m : nodeMapper) (hm : Reachable m) (order : List String)
    (hp : order.Perm (mapKeys m.nodesToWorkloads)) (d o : ID) :
    (∀ res : Resource, res.Id = o →
      ((m.TrackWorkload order d o).MapNodeToWorkloads res).1.count ⟨d⟩ = 1) ∧
    (∀ res : Resource, res.Id.Name ≠ o.Name →
      (⟨d⟩ : Request) ∉ ((m.TrackWorkload order d o).MapNodeToWorkloads res).1) := by
  have h := query_after_track m order d o (inv_of_reachable m hm) (covers_of_perm m order hp)
  exact ⟨fun res hres => h.1 res (by rw [hres]), h.2⟩

theorem track_postcondition_witness :
    Reachable index2 ∧ ["node1"].Perm (mapKeys index2.nodesToWorkloads) ∧
    ((∀ res : Resource, res.Id = node2.Id →
      ((index2.TrackWorkload ["node1"] workload2 node2.Id).MapNodeToWorkloads res).1.count
        ⟨workload2⟩ = 1) ∧
    (∀ res : Resource, res.Id.Name ≠ node2.Id.Name →
      (⟨workload2⟩ : Request) ∉
        ((index2.TrackWorkload ["node1"] workload2 node2.Id).MapNodeToWorkloads res).1)) :=
  ⟨reachable_index2, by decide,
    track_postcondition index2 reachable_index2 ["node1"] (by decide) workload2 node2.Id⟩

/-- C6 as stated fails: for the two distinct node identifiers `node1.Id` and `node1Other.Id`,
which share the name `node1`, tracking `workload1` under the first and then under the second
from the empty index leaves `workload1` in the list returned for the first. -/
theorem move_semantics_same_name_counterexample :
    Reachable DefaultNodeMapper ∧
    [].Perm (mapKeys DefaultNodeMapper.nodesToWorkloads) ∧
    ["node1"].Perm
      (mapKeys (DefaultNodeMapper.TrackWorkload [] workload1 node1.Id).nodesToWorkloads) ∧
    node1.Id ≠ node1Other.Id ∧
    (⟨workload1⟩ : Request) ∈
      (((DefaultNodeMapper.TrackWorkload [] workload1 node1.Id).TrackWorkload ["node1"]
        workload1 node1Other.Id).MapNodeToWorkloads node1).1 :=
  ⟨Reachable.init, by decide, by decide, by decide, by decide⟩

/-- C6 amended, move semantics for owners with different names: from a state reachable from the
empty index, after `TrackWorkload(d, o1)` followed by `TrackWorkload(d, o2)` with the name of
`o1` different from the name of `o2`, the list returned for `o1` does not hold `d` and the list
returned for `o2` holds it exactly once. -/
theorem move_semantics_distinct_names (m : nodeMapper) (hm : Reachable m) (order1 order2 : List String)
    (d o1 o2 : ID) (hp1 : order1.Perm (mapKeys m.nodesToWorkloads))
    (hp2 : order2.Perm (mapKeys (m.TrackWorkload order1 d o1).nodesToWorkloads))
    (hne : o1.Name ≠ o2.Name) (res1 res2 : Resource) (h1 : res1.Id = o1) (h2 : res2.Id = o2) :
    (⟨d⟩ : Request) ∉
      (((m.TrackWorkload order1 d o1).TrackWorkload order2 d o2).MapNodeToWorkloads res1).1 ∧
    (((m.TrackWorkload order1 d o1).TrackWorkload order2 d o2).MapNodeToWorkloads
      res2).1.count ⟨d⟩ = 1 := by
  have hinv1 := inv_track m order1 d o1 (inv_of_reachable m hm) (covers_of_perm m order1 hp1)
  have h := query_after_track (m.TrackWorkload order1 d o1) order2 d o2 hinv1
    (covers_of_perm _ order2 hp2)
  exact ⟨h.2 res1 (by rw [h1]; exact hne), h.1 res2 (by rw [h2])⟩

theorem move_semantics_distinct_names_witness :
    Reachable index1 ∧ ["node1"].Perm (mapKeys index1.nodesToWorkloads) ∧
    ["node1"].Perm
      (mapKeys (index1.TrackWorkload ["node1"] workload2 node1.Id).nodesToWorkloads) ∧
    node1.Id.Name ≠ node2.Id.Name ∧
    ((⟨workload2⟩ : Request) ∉
      (((index1.TrackWorkload ["node1"] workload2 node1.Id).TrackWorkload ["node1"]
        workload2 node2.Id).MapNodeToWorkloads node1).1 ∧
    (((index1.TrackWorkload ["node1"] workload2 node1.Id).TrackWorkload ["node1"]
        workload2 node2.Id).MapNodeToWorkloads node2).1.count ⟨workload2⟩ = 1) :=
  ⟨reachable_index1, by decide, by decide, by decide,
    move_semantics_distinct_names index1 reachable_index1 ["node1"] ["node1"] workload2 node1.Id node2.Id
      (by decide) (by decide) (by decide) node1 node2 rfl rfl⟩

/-- C7, `RemoveWorkloadTracking` removes the association: from a state reachable from the empty
index, after `RemoveWorkloadTracking(d)` the list that `MapNodeToWorkloads` returns for any node
resource does not hold `d`, under whichever node it was tracked. -/
theorem untrack_removes (m : nodeMapper) (hm : Reachable m) (order : List String)
    (hp : order.Perm (mapKeys m.nodesToWorkloads)) (d : ID) (res : Resource) :
    (⟨d⟩ : Request) ∉ ((m.RemoveWorkloadTracking order d).MapNodeToWorkloads res).1 := by
  intro hmem
  exact not_tracked_remove m order d (inv_of_reachable m hm) (covers_of_perm m order hp)
    res.Id.Name ((query_mem_iff _ res d).mp hmem)

theorem untrack_removes_witness :
    Reachable index3 ∧ ["node1"].Perm (mapKeys index3.nodesToWorkloads) ∧
    (⟨workload2⟩ : Request) ∈ (index3.MapNodeToWorkloads node1).1 ∧
    (⟨workload2⟩ : Request) ∉
      ((index3.RemoveWorkloadTracking ["node1"] workload2).MapNodeToWorkloads node1).1 :=
  ⟨reachable_index3, by decide, by decide,
    untrack_removes index3 reachable_index3 ["node1"] (by decide) workload2 node1⟩

/-- C8, `RemoveWorkloadTracking` of an untracked workload is a no-op: in any index state and for
any visiting order, when `d` is in the list of no node name, `RemoveWorkloadTracking(d)` returns
the mapping unchanged. -/
theorem untrack_untracked_noop (m : nodeMapper) (order : List String) (d : ID)
    (h : ∀ k l, mapGet m.nodesToWorkloads k = some l → (⟨d⟩ : Request) ∉ l) :
    m.RemoveWorkloadTracking order d = m :=
  remove_untracked m order d (fun k ⟨l, hl, hd⟩ => h k l hl hd)

theorem untrack_untracked_noop_witness :
    (∀ k l, mapGet index2.nodesToWorkloads k = some l → (⟨workload3⟩ : Request) ∉ l) ∧
    index2.RemoveWorkloadTracking ["node1"] workload3 = index2 := by
  have h : ∀ k l, mapGet index2.nodesToWorkloads k = some l → (⟨workload3⟩ : Request) ∉ l := by
    intro k l hl
    rw [index2_eq] at hl
    by_cases hk : "node1" = k
    · simp only [mapGet, hk, if_true, Option.some.injEq] at hl
      subst hl
      decide
    · simp [mapGet, hk] at hl
  exact ⟨h, untrack_untracked_noop index2 ["node1"] workload3 h⟩

/-- C9, removal keeps the others in order: from a state reachable from the empty index in which
the list of node `o` has at least two entries and holds `d` (first when `pre` is empty, last when
`post` is empty, interior otherwise), after `RemoveWorkloadTracking(d)` the list of `o` is the
old list with the entry for `d` taken out, the other entries in their previous order. -/
theorem untrack_preserves_order (m : nodeMapper) (hm : Reachable m) (order : List String)
    (hp : order.Perm (mapKeys m.nodesToWorkloads)) (d : ID) (o : Resource)
    (pre post : List Request)
    (hl : mapGet m.nodesToWorkloads o.Id.Name = some (pre ++ ⟨d⟩ :: post))
    (h2 : 2 ≤ (pre ++ (⟨d⟩ : Request) :: post).length) :
    mapGet (m.RemoveWorkloadTracking order d).nodesToWorkloads o.Id.Name = some (pre ++ post) ∧
    ((m.RemoveWorkloadTracking order d).MapNodeToWorkloads o).1 = pre ++ post := by
  have hinv := inv_of_reachable m hm
  have hnd := hinv.nodup _ _ hl
  have hpre : (⟨d⟩ : Request) ∉ pre := by
    intro hmem
    have := (List.nodup_append.mp hnd).2.2
    exact this hmem (List.mem_cons_self _ _) 
  have hget := get_remove_tracked m order d o.Id.Name _ hinv (covers_of_perm m order hp) hl
    (by simp) o.Id.Name
  have hlen : ¬ (pre ++ (⟨d⟩ : Request) :: post).length = 1 := by omega
  rw [if_pos rfl, if_neg hlen, List.erase_append_right _ hpre, List.erase_cons_head] at hget
  exact ⟨hget, by simp only [nodeMapper.MapNodeToWorkloads, hget, Option.getD_some]⟩

theorem untrack_preserves_order_witness :
    Reachable index3 ∧ ["node1"].Perm (mapKeys index3.nodesToWorkloads) ∧
    mapGet index3.nodesToWorkloads node1.Id.Name =
      some ([Request.mk workload1] ++ Request.mk workload2 :: [Request.mk workload3]) ∧
    2 ≤ ([Request.mk workload1] ++ Request.mk workload2 :: [Request.mk workload3]).length ∧
    (mapGet (index3.RemoveWorkloadTracking ["node1"] workload2).nodesToWorkloads node1.Id.Name =
      some ([Request.mk workload1] ++ [Request.mk workload3]) ∧
    ((index3.RemoveWorkloadTracking ["node1"] workload2).MapNodeToWorkloads node1).1 =
      [Request.mk workload1] ++ [Request.mk workload3]) :=
  ⟨reachable_index3, by decide, by decide, by decide,
    untrack_preserves_order index3 reachable_index3 ["node1"] (by decide) workload2 node1
      [Request.mk workload1] [Request.mk workload3] (by decide) (by decide)⟩

/-- C10, no dangling owners: from a state reachable from the empty index in which `d` is the only
entry of node `o`, after `RemoveWorkloadTracking(d)`, and likewise after `TrackWorkload(d, o2)`
for a node `o2` with a different name, `MapNodeToWorkloads(o)` returns the empty list and the
name of `o` is no longer a key of the mapping. -/
theorem no_dangling_owner (m : nodeMapper) (hm : Reachable m) (order : List String)
    (hp : order.Perm (mapKeys m.nodesToWorkloads)) (d : ID) (o : Resource)
    (hl : mapGet m.nodesToWorkloads o.Id.Name = some [⟨d⟩]) :
    (((m.RemoveWorkloadTracking order d).MapNodeToWorkloads o).1 = [] ∧
      o.Id.Name ∉ mapKeys (m.RemoveWorkloadTracking order d).nodesToWorkloads) ∧
    (∀ o2 : ID, o2.Name ≠ o.Id.Name →
      ((m.TrackWorkload order d o2).MapNodeToWorkloads o).1 = [] ∧
      o.Id.Name ∉ mapKeys (m.TrackWorkload order d o2).nodesToWorkloads) := by
  have hinv := inv_of_reachable m hm
  have hcov := covers_of_perm m order hp
  have hget := get_remove_tracked m order d o.Id.Name _ hinv hcov hl (by simp) o.Id.Name
  simp only [if_true, List.length_singleton] at hget
  constructor
  · refine ⟨by simp only [nodeMapper.MapNodeToWorkloads, hget, Option.getD_none], ?_⟩
    intro hk
    exact (mapGet_ne_none_iff _ _).mpr hk hget
  · intro o2 hne
    have hnot : ¬ Tracked m o2.Name d := by
      intro ht
      exact hne (hinv.single _ _ d ht ⟨_, hl, by simp⟩)
    have hget2 : mapGet (m.TrackWorkload order d o2).nodesToWorkloads o.Id.Name = none := by
      rw [track_untracked m order d o2 hnot]
      simp only [mapGet_mapSet, if_neg (Ne.symm hne), hget]
    refine ⟨by simp only [nodeMapper.MapNodeToWorkloads, hget2, Option.getD_none], ?_⟩
    intro hk
    exact (mapGet_ne_none_iff _ _).mpr hk hget2

theorem no_dangling_owner_witness :
    Reachable index1 ∧ ["node1"].Perm (mapKeys index1.nodesToWorkloads) ∧
    mapGet index1.nodesToWorkloads node1.Id.Name = some [⟨workload1⟩] ∧
    ((((index1.RemoveWorkloadTracking ["node1"] workload1).MapNodeToWorkloads node1).1 = [] ∧
      node1.Id.Name ∉ mapKeys (index1.RemoveWorkloadTracking ["node1"] workload1).nodesToWorkloads) ∧
    (∀ o2 : ID, o2.Name ≠ node1.Id.Name →
      ((index1.TrackWorkload ["node1"] workload1 o2).MapNodeToWorkloads node1).1 = [] ∧
      node1.Id.Name ∉ mapKeys (index1.TrackWorkload ["node1"] workload1 o2).nodesToWorkloads)) :=
  ⟨reachable_index1, by decide, by decide,
    no_dangling_owner index1 reachable_index1 ["node1"] (by decide) workload1 node1 (by decide)⟩

/-! ## Further lemmas: fresh workloads and the visiting order -/

theorem mem_of_mapGet {V : Type} (m : List (String × V)) (k : String) (v : V)
    (h : mapGet m k = some v) : (k, v) ∈ m := by
  induction m with
  | nil => simp [mapGet] at h
  | cons e rest ih =>
    obtain ⟨a, b⟩ := e
    by_cases hak : a = k
    · subst hak
      simp only [mapGet, if_true, Option.some.injEq] at h
      subst h
      exact List.mem_cons_self _ _
    · simp only [mapGet, hak, if_false] at h
      exact List.mem_cons_of_mem _ (ih h)

theorem not_tracked_of_forall_mem (m : nodeMapper) (d : ID)
    (h : ∀ e ∈ m.nodesToWorkloads, (⟨d⟩ : Request) ∉ e.2) (k : String) : ¬ Tracked m k d := by
  rintro ⟨l, hl, hd⟩
  exact h (k, l) (mem_of_mapGet _ k l hl) hd

theorem track_fresh (m : nodeMapper) (order : List String) (d o : ID)
    (h : ∀ k, ¬ Tracked m k d) :
    m.TrackWorkload order d o =
      ⟨mapSet m.nodesToWorkloads o.Name
        ((mapGet m.nodesToWorkloads o.Name).getD [] ++ [⟨d⟩])⟩ := by
  rw [track_untracked m order d o (h o.Name), remove_untracked m order d h]

theorem remove_order_irrelevant (m : nodeMapper) (order order' : List String) (d : ID)
    (hinv : Inv m) (hc : Covers order m) (hc' : Covers order' m) :
    m.RemoveWorkloadTracking order d = m.RemoveWorkloadTracking order' d := by
  rcases tracked_or_not m d with hn | ⟨k, l, hl, hd⟩
  · rw [remove_untracked m order d hn, remove_untracked m order' d hn]
  · have hu : ∀ (ord : List String), ∀ k' ∈ ord, ∀ l', mapGet m.nodesToWorkloads k' = some l' →
        (⟨d⟩ : Request) ∈ l' → k' = k :=
      fun _ k' _ l' hl' hd' => hinv.single k' k d ⟨l', hl', hd'⟩ ⟨l, hl, hd⟩
    have hne : mapGet m.nodesToWorkloads k ≠ none := by rw [hl]; simp
    simp only [nodeMapper.RemoveWorkloadTracking, nodeMapper.removeWorkloadTrackingLocked,
      removeScan_found m.nodesToWorkloads d order k l (hc k hne) hl hd (hu order),
      removeScan_found m.nodesToWorkloads d order' k l (hc' k hne) hl hd (hu order')]

theorem track_order_irrelevant (m : nodeMapper) (order order' : List String) (d o : ID)
    (hinv : Inv m) (hc : Covers order m) (hc' : Covers order' m) :
    m.TrackWorkload order d o = m.TrackWorkload order' d o := by
  by_cases h : Tracked m o.Name d
  · rw [track_tracked m order d o h, track_tracked m order' d o h]
  · rw [track_untracked m order d o h, track_untracked m order' d o h,
      remove_order_irrelevant m order order' d hinv hc hc']

/-! ## The claims, continued -/

/-- C11, a query for an unknown owner is empty and never fails: in any index state and for any
node resource `MapNodeToWorkloads` returns a nil error; when no workload is tracked under the
node's name the returned list has length 0, and so it has on the freshly constructed index. -/
theorem query_unknown_owner_empty (m : nodeMapper) (res : Resource) :
    (m.MapNodeToWorkloads res).2 = none ∧
    ((∀ d, ¬ Tracked m res.Id.Name d) → (m.MapNodeToWorkloads res).1.length = 0) ∧
    (mapGet m.nodesToWorkloads res.Id.Name = none → (m.MapNodeToWorkloads res).1.length = 0) ∧
    (DefaultNodeMapper.MapNodeToWorkloads res).1.length = 0 := by
  refine ⟨rfl, ?_, ?_, rfl⟩
  · intro h
    unfold nodeMapper.MapNodeToWorkloads
    cases hg : mapGet m.nodesToWorkloads res.Id.Name with
    | none => rfl
    | some l =>
      cases l with
      | nil => rfl
      | cons r rest =>
        obtain ⟨x⟩ := r
        exact absurd ⟨_, hg, List.mem_cons_self _ _⟩ (h x)
  · intro h
    simp [nodeMapper.MapNodeToWorkloads, h]

theorem query_unknown_owner_empty_witness :
    (index2.MapNodeToWorkloads node2).2 = none ∧
    (∀ d, ¬ Tracked index2 node2.Id.Name d) ∧
    (index2.MapNodeToWorkloads node2).1.length = 0 ∧
    mapGet index2.nodesToWorkloads node2.Id.Name = none ∧
    (DefaultNodeMapper.MapNodeToWorkloads node2).1.length = 0 := by
  have hn : mapGet index2.nodesToWorkloads node2.Id.Name = none := by decide
  have ht : ∀ d, ¬ Tracked index2 node2.Id.Name d := by
    rintro d ⟨l, hl, _⟩
    rw [hn] at hl
    cases hl
  exact ⟨(query_unknown_owner_empty index2 node2).1,
    ht, (query_unknown_owner_empty index2 node2).2.1 ht, hn,
    (query_unknown_owner_empty index2 node2).2.2.2⟩

/-- C12, `TrackWorkload` appends: in any index state and for any visiting order, when `d` is in
the list of no node name, after `TrackWorkload(d, o)` the list stored for the name of `o` is its
previous list (the empty list if the name had no entry) followed by the single request for
`d`. -/
theorem track_appends (m : nodeMapper) (order : List String) (d o : ID)
    (h : ∀ k l, mapGet m.nodesToWorkloads k = some l → (⟨d⟩ : Request) ∉ l) :
    mapGet (m.TrackWorkload order d o).nodesToWorkloads o.Name =
      some ((mapGet m.nodesToWorkloads o.Name).getD [] ++ [⟨d⟩]) := by
  rw [track_fresh m order d o (fun k ⟨l, hl, hd⟩ => h k l hl hd)]
  simp only [mapGet_mapSet, if_true]

theorem track_appends_witness :
    (∀ k l, mapGet index2.nodesToWorkloads k = some l → (⟨workload3⟩ : Request) ∉ l) ∧
    mapGet (index2.TrackWorkload ["node1"] workload3 node1.Id).nodesToWorkloads node1.Id.Name =
      some ((mapGet index2.nodesToWorkloads node1.Id.Name).getD [] ++ [⟨workload3⟩]) := by
  have h : ∀ k l, mapGet index2.nodesToWorkloads k = some l → (⟨workload3⟩ : Request) ∉ l := by
    intro k l hl hd
    exact not_tracked_of_forall_mem index2 workload3 (by decide) k ⟨l, hl, hd⟩
  exact ⟨h, track_appends index2 ["node1"] workload3 node1.Id h⟩

/-- C13, owner derivation: `NodeIDFromWorkload` returns the identifier whose type is
`NodeV1Alpha1Type` (which `NodeType` aliases), whose tenancy is that of the workload's own
identifier and whose name is the `NodeName` of the workload data; two calls that agree on that
tenancy and that node name return the same identifier, whatever the other fields of the
workload, of its data and whatever the state of the mapper. -/
theorem node_id_from_workload (m : nodeMapper) (GroupName VersionV1Alpha1 : String)
    (workload : Resource) (workloadData : pbcatalog.Workload) :
    m.NodeIDFromWorkload GroupName VersionV1Alpha1 workload workloadData =
      ⟨NodeV1Alpha1Type GroupName VersionV1Alpha1, workload.Id.Tenancy, workloadData.NodeName⟩ ∧
    (m.NodeIDFromWorkload GroupName VersionV1Alpha1 workload workloadData).Type_ =
      NodeType GroupName VersionV1Alpha1 ∧
    (m.NodeIDFromWorkload GroupName VersionV1Alpha1 workload workloadData).Type_.Kind = "Node" ∧
    (∀ (m' : nodeMapper) (workload' : Resource) (workloadData' : pbcatalog.Workload),
      workload'.Id.Tenancy = workload.Id.Tenancy →
      workloadData'.NodeName = workloadData.NodeName →
      m'.NodeIDFromWorkload GroupName VersionV1Alpha1 workload' workloadData' =
        m.NodeIDFromWorkload GroupName VersionV1Alpha1 workload workloadData) := by
  refine ⟨rfl, rfl, rfl, ?_⟩
  intro m' workload' workloadData' ht hn
  simp only [nodeMapper.NodeIDFromWorkload, ht, hn]

theorem node_id_from_workload_witness :
    (⟨workload2, "v7", "g9", ⟨"url", [1, 2]⟩⟩ : Resource).Id.Tenancy = exampleWorkload.Id.Tenancy ∧
    (⟨[⟨"198.18.0.1", [], true⟩], [("http", ⟨80, 1⟩)], "test-node", "id"⟩ :
      pbcatalog.Workload).NodeName = exampleWorkloadData.NodeName ∧
    index2.NodeIDFromWorkload "catalog" "v1alpha1" ⟨workload2, "v7", "g9", ⟨"url", [1, 2]⟩⟩
        ⟨[⟨"198.18.0.1", [], true⟩], [("http", ⟨80, 1⟩)], "test-node", "id"⟩ =
      DefaultNodeMapper.NodeIDFromWorkload "catalog" "v1alpha1" exampleWorkload
        exampleWorkloadData :=
  ⟨rfl, rfl,
    (node_id_from_workload DefaultNodeMapper "catalog" "v1alpha1" exampleWorkload
      exampleWorkloadData).2.2.2 index2 ⟨workload2, "v7", "g9", ⟨"url", [1, 2]⟩⟩
      ⟨[⟨"198.18.0.1", [], true⟩], [("http", ⟨80, 1⟩)], "test-node", "id"⟩ rfl rfl⟩

theorem scenario_states (o1 o2 o3 o4 o5 o6 : List String)
    (h1 : o1.Perm (mapKeys DefaultNodeMapper.nodesToWorkloads))
    (h2 : o2.Perm (mapKeys (scenario1 o1).nodesToWorkloads))
    (h3 : o3.Perm (mapKeys (scenario2 o1 o2).nodesToWorkloads))
    (h4 : o4.Perm (mapKeys (scenario3 o1 o2 o3).nodesToWorkloads))
    (h5 : o5.Perm (mapKeys (scenario4 o1 o2 o3 o4).nodesToWorkloads))
    (h6 : o6.Perm (mapKeys (scenario5 o1 o2 o3 o4 o5).nodesToWorkloads)) :
    scenario4 o1 o2 o3 o4 =
      ⟨[("node1", [⟨workload1⟩, ⟨workload2⟩]), ("node2", [⟨workload3⟩, ⟨workload4⟩])]⟩ ∧
    scenario5 o1 o2 o3 o4 o5 =
      ⟨[("node1", [⟨workload1⟩]), ("node2", [⟨workload3⟩, ⟨workload4⟩, ⟨workload2⟩])]⟩ ∧
    scenario6 o1 o2 o3 o4 o5 o6 =
      ⟨[("node2", [⟨workload3⟩, ⟨workload4⟩, ⟨workload2⟩])]⟩ := by
  have r1 : Reachable (scenario1 o1) := Reachable.track _ o1 _ _ Reachable.init h1
  have r2 : Reachable (scenario2 o1 o2) := Reachable.track _ o2 _ _ r1 h2
  have r3 : Reachable (scenario3 o1 o2 o3) := Reachable.track _ o3 _ _ r2 h3
  have r4 : Reachable (scenario4 o1 o2 o3 o4) := Reachable.track _ o4 _ _ r3 h4
  have r5 : Reachable (scenario5 o1 o2 o3 o4 o5) := Reachable.track _ o5 _ _ r4 h5
  have e1 : scenario1 o1 = ⟨[("node1", [⟨workload1⟩])]⟩ := by
    unfold scenario1
    rw [track_order_irrelevant _ o1 [] _ _ inv_default (covers_of_perm _ _ h1)
      (covers_of_perm _ [] (by decide))]
    decide
  have e2 : scenario2 o1 o2 = ⟨[("node1", [⟨workload1⟩, ⟨workload2⟩])]⟩ := by
    have hc := covers_of_perm _ _ h2
    unfold scenario2 at r2 ⊢
    rw [track_order_irrelevant _ o2 ["node1"] _ _ (inv_of_reachable _ r1) hc
      (by rw [e1]; exact covers_of_perm _ _ (by decide)), e1]
    decide
  have e3 : scenario3 o1 o2 o3 =
      ⟨[("node1", [⟨workload1⟩, ⟨workload2⟩]), ("node2", [⟨workload3⟩])]⟩ := by
    have hc := covers_of_perm _ _ h3
    unfold scenario3 at r3 ⊢
    rw [track_order_irrelevant _ o3 ["node1"] _ _ (inv_of_reachable _ r2) hc
      (by rw [e2]; exact covers_of_perm _ _ (by decide)), e2]
    decide
  have e4 : scenario4 o1 o2 o3 o4 =
      ⟨[("node1", [⟨workload1⟩, ⟨workload2⟩]), ("node2", [⟨workload3⟩, ⟨workload4⟩])]⟩ := by
    have hc := covers_of_perm _ _ h4
    unfold scenario4 at r4 ⊢
    rw [track_order_irrelevant _ o4 ["node1", "node2"] _ _ (inv_of_reachable _ r3) hc
      (by rw [e3]; exact covers_of_perm _ _ (by decide)), e3]
    decide
  have e5 : scenario5 o1 o2 o3 o4 o5 =
      ⟨[("node1", [⟨workload1⟩]), ("node2", [⟨workload3⟩, ⟨workload4⟩, ⟨workload2⟩])]⟩ := by
    have hc := covers_of_perm _ _ h5
    unfold scenario5 at r5 ⊢
    rw [track_order_irrelevant _ o5 ["node1", "node2"] _ _ (inv_of_reachable _ r4) hc
      (by rw [e4]; exact covers_of_perm _ _ (by decide)), e4]
    decide
  have e6 : scenario6 o1 o2 o3 o4 o5 o6 =
      ⟨[("node2", [⟨workload3⟩, ⟨workload4⟩, ⟨workload2⟩])]⟩ := by
    have hc := covers_of_perm _ _ h6
    unfold scenario6
    rw [remove_order_irrelevant _ o6 ["node1", "node2"] _ (inv_of_reachable _ r5) hc
      (by rw [e5]; exact covers_of_perm _ _ (by decide)), e5]
    decide
  exact ⟨e4, e5, e6⟩

/-- C14, the literal scenario of the test: from the empty index and for whatever visiting
orders the scans take, after `TrackWorkload(w1,n1)`, `TrackWorkload(w2,n1)`,
`TrackWorkload(w3,n2)`, `TrackWorkload(w4,n2)` the query for `n1` is the two requests `w1`, `w2`
and the query for `n2` the two requests `w3`, `w4`; after then `TrackWorkload(w2,n2)` the query
for `n1` is `w1` alone and the query for `n2` holds exactly `w2`, `w3`, `w4`; after then
`RemoveWorkloadTracking(w1)` the query for `n1` is empty. -/
theorem literal_scenario (o1 o2 o3 o4 o5 o6 : List String)
    (h1 : o1.Perm (mapKeys DefaultNodeMapper.nodesToWorkloads))
    (h2 : o2.Perm (mapKeys (scenario1 o1).nodesToWorkloads))
    (h3 : o3.Perm (mapKeys (scenario2 o1 o2).nodesToWorkloads))
    (h4 : o4.Perm (mapKeys (scenario3 o1 o2 o3).nodesToWorkloads))
    (h5 : o5.Perm (mapKeys (scenario4 o1 o2 o3 o4).nodesToWorkloads))
    (h6 : o6.Perm (mapKeys (scenario5 o1 o2 o3 o4 o5).nodesToWorkloads)) :
    ((scenario4 o1 o2 o3 o4).MapNodeToWorkloads node1).1 = [⟨workload1⟩, ⟨workload2⟩] ∧
    ((scenario4 o1 o2 o3 o4).MapNodeToWorkloads node2).1 = [⟨workload3⟩, ⟨workload4⟩] ∧
    ((scenario5 o1 o2 o3 o4 o5).MapNodeToWorkloads node1).1 = [⟨workload1⟩] ∧
    ((scenario5 o1 o2 o3 o4 o5).MapNodeToWorkloads node2).1.length = 3 ∧
    (∀ r : Request, r ∈ ((scenario5 o1 o2 o3 o4 o5).MapNodeToWorkloads node2).1 ↔
      r = ⟨workload2⟩ ∨ r = ⟨workload3⟩ ∨ r = ⟨workload4⟩) ∧
    ((scenario6 o1 o2 o3 o4 o5 o6).MapNodeToWorkloads node1).1 = [] := by
  obtain ⟨e4, e5, e6⟩ := scenario_states o1 o2 o3 o4 o5 o6 h1 h2 h3 h4 h5 h6
  rw [e4, e5, e6]
  refine ⟨by decide, by decide, by decide, by decide, ?_, by decide⟩
  intro r
  have hq : ((⟨[("node1", [⟨workload1⟩]),
      ("node2", [⟨workload3⟩, ⟨workload4⟩, ⟨workload2⟩])]⟩ : nodeMapper).MapNodeToWorkloads
      node2).1 = [⟨workload3⟩, ⟨workload4⟩, ⟨workload2⟩] := by decide
  rw [hq]
  simp only [List.mem_cons, List.mem_singleton, List.not_mem_nil, or_false]
  tauto

theorem literal_scenario_witness :
    ((scenario4 [] ["node1"] ["node1"] ["node2", "node1"]).MapNodeToWorkloads node1).1 =
      [⟨workload1⟩, ⟨workload2⟩] ∧
    ((scenario6 [] ["node1"] ["node1"] ["node2", "node1"] ["node2", "node1"]
      ["node2", "node1"]).MapNodeToWorkloads node1).1 = [] :=
  ⟨(literal_scenario [] ["node1"] ["node1"] ["node2", "node1"] ["node2", "node1"]
      ["node2", "node1"] (by decide) (by decide) (by decide) (by decide) (by decide)
      (by decide)).1,
    (literal_scenario [] ["node1"] ["node1"] ["node2", "node1"] ["node2", "node1"]
      ["node2", "node1"] (by decide) (by decide) (by decide) (by decide) (by decide)
      (by decide)).2.2.2.2.2⟩

theorem replay_lookup (calls : List (List String × ID × ID)) (m : nodeMapper)
    (hfresh : ∀ c ∈ calls, ∀ k, ¬ Tracked m k c.2.1)
    (hnd : (calls.map (fun c => c.2.1)).Nodup) (name : String) :
    (mapGet (replay m calls).nodesToWorkloads name).getD [] =
      (mapGet m.nodesToWorkloads name).getD [] ++
        (calls.filter (fun c => decide (c.2.2.Name = name))).map (fun c => ⟨c.2.1⟩) := by
  induction calls generalizing m with
  | nil => simp [replay]
  | cons c rest ih =>
    obtain ⟨order, d, o⟩ := c
    have hd : ∀ k, ¬ Tracked m k d := hfresh (order, d, o) (List.mem_cons_self _ _)
    have hstep := track_fresh m order d o hd
    simp only [List.map_cons, List.nodup_cons, List.mem_map, not_exists, not_and] at hnd
    have hfresh' : ∀ c ∈ rest, ∀ k, ¬ Tracked (m.TrackWorkload order d o) k c.2.1 := by
      intro c hc k ht
      have hne : c.2.1 ≠ d := fun e => hnd.1 c hc e
      have hold : ∀ k, ¬ Tracked m k c.2.1 := hfresh c (List.mem_cons_of_mem _ hc)
      rw [hstep] at ht
      obtain ⟨l, hl, hmem⟩ := ht
      simp only [mapGet_mapSet] at hl
      by_cases hk : k = o.Name
      · simp only [hk, if_true, Option.some.injEq] at hl
        subst hl
        rcases List.mem_append.mp hmem with h1 | h1
        · cases hg : mapGet m.nodesToWorkloads o.Name with
          | none => rw [hg] at h1; simp at h1
          | some l0 =>
            rw [hg] at h1
            exact hold o.Name ⟨l0, hg, by simpa using h1⟩
        · simp only [List.mem_singleton, Request.mk.injEq] at h1
          exact hne h1
      · simp only [hk, if_false] at hl
        exact hold k ⟨l, hl, hmem⟩
    have := ih (m.TrackWorkload order d o) hfresh' hnd.2
    simp only [replay, this]
    rw [hstep]
    simp only [mapGet_mapSet]
    by_cases hk : name = o.Name
    · subst hk
      simp [List.filter_cons]
    · have hk' : ¬ o.Name = name := fun e => hk e.symm
      simp [List.filter_cons, hk, hk']

/-- C15, rebuild by replay: for every listing of (workload ID, node ID) pairs whose workload IDs
are pairwise distinct, and whatever visiting orders the scans take, calling `TrackWorkload` on
each pair in list order from the empty index makes `MapNodeToWorkloads(n)` return, with a nil
error, exactly the requests of the workloads whose node name is the name of `n`, in listing
order. -/
theorem rebuild_by_replay (calls : List (List String × ID × ID))
    (hnd : (calls.map (fun c => c.2.1)).Nodup) (n : Resource) :
    (replay DefaultNodeMapper calls).MapNodeToWorkloads n =
      ((calls.filter (fun c => decide (c.2.2.Name = n.Id.Name))).map (fun c => ⟨c.2.1⟩),
        none) := by
  have h := replay_lookup calls DefaultNodeMapper
    (fun c _ k ⟨l, hl, _⟩ => by simp [DefaultNodeMapper, mapGet] at hl) hnd n.Id.Name
  unfold nodeMapper.MapNodeToWorkloads
  rw [h]
  simp [DefaultNodeMapper, mapGet]

theorem rebuild_by_replay_witness :
    ([([], workload1, node1.Id), (["node1"], workload3, node2.Id),
      (["node2", "node1"], workload2, node1.Id)].map (fun c => c.2.1)).Nodup ∧
    (replay DefaultNodeMapper [([], workload1, node1.Id), (["node1"], workload3, node2.Id),
      (["node2", "node1"], workload2, node1.Id)]).MapNodeToWorkloads node1 =
      (([([], workload1, node1.Id), (["node1"], workload3, node2.Id),
        (["node2", "node1"], workload2, node1.Id)].filter
          (fun c => decide (c.2.2.Name = node1.Id.Name))).map (fun c => ⟨c.2.1⟩), none) :=
  ⟨by decide,
    rebuild_by_replay [([], workload1, node1.Id), (["node1"], workload3, node2.Id),
      (["node2", "node1"], workload2, node1.Id)] (by decide) node1⟩

/-- C17 as stated fails: called with a node identifier whose name is empty, `TrackWorkload`
does not leave the index unchanged, it records the workload under the empty name;
`MapNodeToWorkloads` called with that identifier returns a nil error together with the entry it
looked up under the empty name; and `RemoveWorkloadTracking` called with a workload identifier
whose name is empty changes the index as well. -/
theorem empty_name_counterexample :
    emptyNameNode.Id.Name = "" ∧ emptyNameWorkload.Name = "" ∧
    DefaultNodeMapper.TrackWorkload [] workload1 emptyNameNode.Id ≠ DefaultNodeMapper ∧
    (DefaultNodeMapper.TrackWorkload [] workload1 emptyNameNode.Id).nodesToWorkloads =
      [("", [⟨workload1⟩])] ∧
    (DefaultNodeMapper.TrackWorkload [] workload1 emptyNameNode.Id).MapNodeToWorkloads
      emptyNameNode = ([⟨workload1⟩], none) ∧
    (DefaultNodeMapper.TrackWorkload [] emptyNameWorkload node1.Id).RemoveWorkloadTracking
      ["node1"] emptyNameWorkload ≠
      DefaultNodeMapper.TrackWorkload [] emptyNameWorkload node1.Id := by
  decide

/-- C17 amended, identifiers are not validated: in any index state an identifier whose name is
empty is handled like any other. `MapNodeToWorkloads` for a node whose name is empty returns a
nil error and the list stored under the empty name; after `TrackWorkload(d, o)` with the name of
`o` empty that list holds `d`; and from a reachable state, after `RemoveWorkloadTracking(d)`
with the name of `d` empty no query result holds `d`. -/
theorem empty_name_not_rejected (m : nodeMapper) (order : List String) (d o : ID)
    (res : Resource) (ho : o.Name = "") (hres : res.Id.Name = "") :
    m.MapNodeToWorkloads res = ((mapGet m.nodesToWorkloads "").getD [], none) ∧
    (⟨d⟩ : Request) ∈ ((m.TrackWorkload order d o).MapNodeToWorkloads res).1 ∧
    (Reachable m → order.Perm (mapKeys m.nodesToWorkloads) → d.Name = "" →
      ∀ res' : Resource,
        (⟨d⟩ : Request) ∉ ((m.RemoveWorkloadTracking order d).MapNodeToWorkloads res').1) := by
  refine ⟨by simp only [nodeMapper.MapNodeToWorkloads, hres], ?_, ?_⟩
  · rw [query_mem_iff, hres, ← ho]
    exact tracked_track_self m order d o
  · intro hm hp _ res' hmem
    exact not_tracked_remove m order d (inv_of_reachable m hm) (covers_of_perm m order hp)
      res'.Id.Name ((query_mem_iff _ res' d).mp hmem)

theorem empty_name_not_rejected_witness :
    emptyNameNode.Id.Name = "" ∧
    Reachable index1 ∧ ["node1"].Perm (mapKeys index1.nodesToWorkloads) ∧
    emptyNameWorkload.Name = "" ∧
    index1.MapNodeToWorkloads emptyNameNode =
      ((mapGet index1.nodesToWorkloads "").getD [], none) ∧
    (⟨emptyNameWorkload⟩ : Request) ∈
      ((index1.TrackWorkload ["node1"] emptyNameWorkload emptyNameNode.Id).MapNodeToWorkloads
        emptyNameNode).1 ∧
    (⟨emptyNameWorkload⟩ : Request) ∉
      ((index1.RemoveWorkloadTracking ["node1"] emptyNameWorkload).MapNodeToWorkloads node1).1 :=
  ⟨rfl, reachable_index1, by decide, rfl,
    (empty_name_not_rejected index1 ["node1"] emptyNameWorkload emptyNameNode.Id emptyNameNode
      rfl rfl).1,
    (empty_name_not_rejected index1 ["node1"] emptyNameWorkload emptyNameNode.Id emptyNameNode
      rfl rfl).2.1,
    (empty_name_not_rejected index1 ["node1"] emptyNameWorkload emptyNameNode.Id emptyNameNode
      rfl rfl).2.2 reachable_index1 (by decide) rfl node1⟩

/-! ## Slices by reference: what a write leaves untouched -/

theorem readSlice_getElem? (mem : List (List Request)) (s : Slice) (j : Nat) :
    (readSlice mem s)[j]? = if j < s.len then (mem.getD s.arr [])[s.off + j]? else none := by
  simp [readSlice, List.getElem?_take, List.getElem?_drop]

theorem readSlice_length (mem : List (List Request)) (s : Slice)
    (h : s.off + s.len ≤ (mem.getD s.arr []).length) : (readSlice mem s).length = s.len := by
  simp only [readSlice, List.length_take, List.length_drop]
  omega

theorem getD_storeCell_ne (mem : List (List Request)) (a b p : Nat) (x : Request)
    (h : b ≠ a) : (storeCell mem a p x).getD b [] = mem.getD b [] := by
  simp only [storeCell, List.getD_eq_getElem?_getD]
  rw [List.getElem?_set_ne (fun e => h e.symm)]

theorem getD_storeCell_self (mem : List (List Request)) (a p : Nat) (x : Request)
    (h : a < mem.length) :
    (storeCell mem a p x).getD a [] =
      if p < (mem.getD a []).length then (mem.getD a []).set p x else mem.getD a [] ++ [x] := by
  simp only [storeCell]
  rw [List.getD_eq_getElem?_getD, List.getElem?_set_self h]
  rfl

theorem getElem?_storeCell_self (mem : List (List Request)) (a p j : Nat) (x : Request)
    (hj : j ≠ p) (hlen : j < (mem.getD a []).length) :
    ((storeCell mem a p x).getD a [])[j]? = (mem.getD a [])[j]? := by
  by_cases ha : a < mem.length
  · rw [getD_storeCell_self mem a p x ha]
    split
    · rw [List.getElem?_set_ne (fun e => hj e.symm)]
    · rw [List.getElem?_append_left hlen]
  · have : mem.getD a [] = [] := by
      rw [List.getD_eq_getElem?_getD, List.getElem?_eq_none (by omega)]
      rfl
    rw [this] at hlen
    simp at hlen

theorem length_getD_storeCell (mem : List (List Request)) (a b p : Nat) (x : Request) :
    (mem.getD b []).length ≤ ((storeCell mem a p x).getD b []).length := by
  by_cases hb : b = a
  · subst hb
    by_cases ha : b < mem.length
    · rw [getD_storeCell_self mem b p x ha]
      split <;> simp
    · have : mem.getD b [] = [] := by
        rw [List.getD_eq_getElem?_getD, List.getElem?_eq_none (by omega)]
        rfl
      rw [this]
      simp
  · rw [getD_storeCell_ne mem a b p x hb]

theorem readSlice_storeCell (mem : List (List Request)) (s : Slice) (a p : Nat) (x : Request)
    (hread : s.off + s.len ≤ (mem.getD s.arr []).length)
    (h : s.arr ≠ a ∨ s.off + s.len ≤ p) :
    readSlice (storeCell mem a p x) s = readSlice mem s := by
  apply List.ext_getElem?
  intro j
  rw [readSlice_getElem?, readSlice_getElem?]
  by_cases hj : j < s.len
  · simp only [hj, if_true]
    by_cases ha : s.arr = a
    · rcases h with h | h
      · exact absurd ha h
      · rw [ha] at hread ⊢
        exact getElem?_storeCell_self mem a p (s.off + j) x (by omega) (by omega)
    · rw [getD_storeCell_ne mem a s.arr p x ha]
  · simp only [hj, if_false]

theorem readSlice_storeCells (xs : List Request) (mem : List (List Request)) (s : Slice)
    (a p : Nat) (hread : s.off + s.len ≤ (mem.getD s.arr []).length)
    (h : s.arr ≠ a ∨ s.off + s.len ≤ p) :
    readSlice (storeCells mem a p xs) s = readSlice mem s ∧
      s.off + s.len ≤ ((storeCells mem a p xs).getD s.arr []).length := by
  induction xs generalizing mem p with
  | nil => exact ⟨rfl, hread⟩
  | cons x rest ih =>
    have hstep := readSlice_storeCell mem s a p x hread h
    have hlen := length_getD_storeCell mem a s.arr p x
    have h' : s.arr ≠ a ∨ s.off + s.len ≤ p + 1 := by
      rcases h with h | h
      · exact Or.inl h
      · exact Or.inr (by omega)
    have := ih (storeCell mem a p x) (p + 1) (by omega) h'
    simp only [storeCells]
    exact ⟨this.1.trans hstep, this.2⟩

theorem readSlice_alloc (mem : List (List Request)) (s : Slice) (cells : List Request)
    (hread : s.off + s.len ≤ (mem.getD s.arr []).length) :
    readSlice (mem ++ [cells]) s = readSlice mem s ∧
      s.off + s.len ≤ ((mem ++ [cells]).getD s.arr []).length := by
  by_cases ha : s.arr < mem.length
  · have : (mem ++ [cells]).getD s.arr [] = mem.getD s.arr [] := by
      rw [List.getD_eq_getElem?_getD, List.getD_eq_getElem?_getD, List.getElem?_append_left ha]
    exact ⟨by simp only [readSlice, this], by rw [this]; exact hread⟩
  · have hnil : mem.getD s.arr [] = [] := by
      rw [List.getD_eq_getElem?_getD, List.getElem?_eq_none (by omega)]
      rfl
    rw [hnil] at hread
    simp only [List.length_nil, Nat.le_zero_eq, Nat.add_eq_zero] at hread
    refine ⟨?_, by omega⟩
    simp [readSlice, hread.2]

theorem goAppend_alloc_frame (spare : Nat → Nat) (mem : List (List Request)) (t s : Slice)
    (xs : List Request) (hfull : ¬ t.len + xs.length ≤ t.cap)
    (hread : s.off + s.len ≤ (mem.getD s.arr []).length) :
    readSlice (goAppend spare mem t xs).1 s = readSlice mem s ∧
      s.off + s.len ≤ ((goAppend spare mem t xs).1.getD s.arr []).length := by
  simp only [goAppend, hfull, if_false]
  exact readSlice_alloc mem s _ hread

theorem goAppend_frame (spare : Nat → Nat) (mem : List (List Request)) (t s : Slice)
    (xs : List Request) (hread : s.off + s.len ≤ (mem.getD s.arr []).length)
    (h : s.arr ≠ t.arr ∨ s.off + s.len ≤ t.off + t.len) :
    readSlice (goAppend spare mem t xs).1 s = readSlice mem s ∧
      s.off + s.len ≤ ((goAppend spare mem t xs).1.getD s.arr []).length := by
  by_cases hfit : t.len + xs.length ≤ t.cap
  · simp only [goAppend, hfit, if_true]
    exact readSlice_storeCells xs mem s t.arr (t.off + t.len) hread h
  · exact goAppend_alloc_frame spare mem t s xs hfit hread

theorem readSlice_nilSlice (mem : List (List Request)) : readSlice mem nilSlice = [] := by
  simp [readSlice, nilSlice]

theorem wf_bounds (m : nodeMapperRef) (hwf : WFRef m) (k : String) (s : Slice)
    (hs : mapGet m.nodesToWorkloads k = some s) :
    s.off + s.len ≤ (m.mem.getD s.arr []).length :=
  (hwf.2.1 (k, s) (mem_of_mapGet _ k s hs)).2.2

theorem wf_distinct (m : nodeMapperRef) (hwf : WFRef m) (k1 k2 : String) (s1 s2 : Slice)
    (h1 : mapGet m.nodesToWorkloads k1 = some s1) (h2 : mapGet m.nodesToWorkloads k2 = some s2)
    (hne : k1 ≠ k2) : s1.arr ≠ s2.arr := by
  have hsymm : Symmetric (fun e1 e2 : String × Slice => e1.2.arr ≠ e2.2.arr) :=
    fun _ _ h => fun e => h e.symm
  exact hwf.2.2.forall hsymm (mem_of_mapGet _ k1 s1 h1) (mem_of_mapGet _ k2 s2 h2)
    (fun e => hne (congrArg Prod.fst e))

theorem removeFound_mem (spare : Nat → Nat) (m : nodeMapperRef) (k : String) (w : Slice)
    (idx : Nat) :
    (m.removeFound spare k w idx).mem = m.mem ∨
      (w.len ≠ 1 ∧ idx ≠ w.len - 1 ∧ idx ≠ 0 ∧
        (m.removeFound spare k w idx).mem =
          (goAppend spare m.mem (sliceTo w idx) (readSlice m.mem (sliceFrom w (idx + 1)))).1) := by
  unfold nodeMapperRef.removeFound
  by_cases h1 : w.len = 1
  · simp [h1]
  · by_cases h2 : idx = w.len - 1
    · simp [h1, h2]
    · by_cases h3 : idx = 0
      · subst h3
        simp only [h1, h2, if_false, if_true, true_or]
      · exact Or.inr ⟨h1, h2, h3, by simp only [h1, h2, h3, if_false]⟩

theorem removeScan_mem (spare : Nat → Nat) (m : nodeMapperRef) (d : ID) (order : List String) :
    (m.removeScan spare d order).mem = m.mem ∨
      ∃ k w idx, mapGet m.nodesToWorkloads k = some w ∧
        foundIdx (readSlice m.mem w) d = some idx ∧ w.len ≠ 1 ∧ idx ≠ w.len - 1 ∧ idx ≠ 0 ∧
        (m.removeScan spare d order).mem =
          (goAppend spare m.mem (sliceTo w idx) (readSlice m.mem (sliceFrom w (idx + 1)))).1 := by
  induction order with
  | nil => exact Or.inl rfl
  | cons k rest ih =>
    unfold nodeMapperRef.removeScan
    cases hg : mapGet m.nodesToWorkloads k with
    | none => simpa using ih
    | some w =>
      cases hf : foundIdx (readSlice m.mem w) d with
      | none => simpa [hf] using ih
      | some idx =>
        simp only [hf]
        rcases removeFound_mem spare m k w idx with h | ⟨h1, h2, h3, h4⟩
        · exact Or.inl h
        · exact Or.inr ⟨k, w, idx, hg, hf, h1, h2, h3, h4⟩

theorem readSlice_storeCell_written (mem : List (List Request)) (s : Slice) (i : Nat)
    (x : Request) (hread : s.off + s.len ≤ (mem.getD s.arr []).length) (hi : i < s.len) :
    readSlice (storeCell mem s.arr (s.off + i) x) s = (readSlice mem s).set i x := by
  have hcells : (mem.getD s.arr []).length ≠ 0 := by omega
  have ha : s.arr < mem.length := by
    by_contra hc
    apply hcells
    rw [List.getD_eq_getElem?_getD, List.getElem?_eq_none (by omega)]
    rfl
  apply List.ext_getElem?
  intro j
  rw [readSlice_getElem?, List.getElem?_set, readSlice_getElem?,
    getD_storeCell_self mem s.arr (s.off + i) x ha,
    if_pos (show s.off + i < (mem.getD s.arr []).length by omega), List.getElem?_set,
    readSlice_length mem s hread]
  by_cases hj : j < s.len
  · by_cases hij : i = j
    · subst hij
      simp only [hj, hi, if_true]
      rw [if_pos (show s.off + i < (mem.getD s.arr []).length by omega)]
    · have : ¬ s.off + i = s.off + j := by omega
      simp only [hj, if_true, hij, this, if_false]
  · have hij : ¬ i = j := by omega
    simp only [hj, hij, if_false]

/-! ## Slices by reference: reachable states are well-formed -/

theorem mem_mapSet_of_nodup {V : Type} (m : List (String × V)) (k : String) (v : V)
    (hk : (mapKeys m).Nodup) (e : String × V) (he : e ∈ mapSet m k v) :
    e = (k, v) ∨ (e ∈ m ∧ e.1 ≠ k) := by
  induction m with
  | nil =>
    simp only [mapSet, List.mem_singleton] at he
    exact Or.inl he
  | cons hd rest ih =>
    obtain ⟨a, b⟩ := hd
    simp only [mapKeys, List.map_cons, List.nodup_cons] at hk
    by_cases hak : a = k
    · subst hak
      simp only [mapSet, if_true, List.mem_cons] at he
      rcases he with he | he
      · exact Or.inl he
      · refine Or.inr ⟨List.mem_cons_of_mem _ he, ?_⟩
        intro e1
        exact hk.1 (List.mem_map.mpr ⟨e, he, e1⟩)
    · simp only [mapSet, hak, if_false, List.mem_cons] at he
      rcases he with he | he
      · subst he
        exact Or.inr ⟨List.mem_cons_self _ _, hak⟩
      · rcases ih hk.2 he with h | ⟨h1, h2⟩
        · exact Or.inl h
        · exact Or.inr ⟨List.mem_cons_of_mem _ h1, h2⟩

theorem pairwise_mapSet (m : List (String × Slice)) (k : String) (v : Slice)
    (hk : (mapKeys m).Nodup)
    (hp : m.Pairwise (fun e1 e2 => e1.2.arr ≠ e2.2.arr))
    (hd : ∀ e ∈ m, e.1 ≠ k → e.2.arr ≠ v.arr) :
    (mapSet m k v).Pairwise (fun e1 e2 => e1.2.arr ≠ e2.2.arr) := by
  induction m with
  | nil => simp [mapSet]
  | cons hd' rest ih =>
    obtain ⟨a, b⟩ := hd'
    simp only [mapKeys, List.map_cons, List.nodup_cons] at hk
    rw [List.pairwise_cons] at hp
    by_cases hak : a = k
    · subst hak
      simp only [mapSet, if_true]
      rw [List.pairwise_cons]
      refine ⟨?_, hp.2⟩
      intro e he
      have hne : e.1 ≠ a := fun e1 => hk.1 (List.mem_map.mpr ⟨e, he, e1⟩)
      exact fun e2 => hd e (List.mem_cons_of_mem _ he) hne e2.symm
    · simp only [mapSet, hak, if_false]
      rw [List.pairwise_cons]
      refine ⟨?_, ih hk.2 hp.2 (fun e he => hd e (List.mem_cons_of_mem _ he))⟩
      intro e he
      rcases mem_mapSet_of_nodup rest k v hk.2 e he with h | ⟨h1, _⟩
      · subst h
        exact hd (a, b) (List.mem_cons_self _ _) hak
      · exact hp.1 e h1

theorem length_storeCell (mem : List (List Request)) (a p : Nat) (x : Request) :
    (storeCell mem a p x).length = mem.length := by
  simp [storeCell]

theorem length_storeCells (xs : List Request) (mem : List (List Request)) (a p : Nat) :
    (storeCells mem a p xs).length = mem.length := by
  induction xs generalizing mem p with
  | nil => rfl
  | cons x rest ih => simp only [storeCells, ih, length_storeCell]

theorem length_getD_storeCells (xs : List Request) (mem : List (List Request)) (a b p : Nat) :
    (mem.getD b []).length ≤ ((storeCells mem a p xs).getD b []).length := by
  induction xs generalizing mem p with
  | nil => exact le_refl _
  | cons x rest ih =>
    simp only [storeCells]
    exact le_trans (length_getD_storeCell mem a b p x) (ih _ _)

theorem length_getD_storeCell_written (mem : List (List Request)) (a p : Nat) (x : Request)
    (ha : a < mem.length) (hp : p ≤ (mem.getD a []).length) :
    p + 1 ≤ ((storeCell mem a p x).getD a []).length := by
  rw [getD_storeCell_self mem a p x ha]
  split
  · simp only [List.length_set]; omega
  · simp only [List.length_append, List.length_singleton]; omega

theorem wf_other_arr (m : nodeMapperRef) (hwf : WFRef m) (k : String) (w : Slice)
    (hw : mapGet m.nodesToWorkloads k = some w) :
    ∀ e ∈ m.nodesToWorkloads, e.1 ≠ k → e.2.arr ≠ w.arr := by
  intro e he hne
  have hsymm : Symmetric (fun e1 e2 : String × Slice => e1.2.arr ≠ e2.2.arr) :=
    fun _ _ h => fun e => h e.symm
  exact hwf.2.2.forall hsymm he (mem_of_mapGet _ k w hw) (fun e1 => hne (congrArg Prod.fst e1))

theorem wf_update (m : nodeMapperRef) (hwf : WFRef m) (mem' : List (List Request))
    (k : String) (v : Slice)
    (hframe : ∀ e ∈ m.nodesToWorkloads, e.1 ≠ k →
      e.2.arr < mem'.length ∧ e.2.off + e.2.len ≤ (mem'.getD e.2.arr []).length)
    (hv : v.len ≤ v.cap ∧ v.arr < mem'.length ∧ v.off + v.len ≤ (mem'.getD v.arr []).length)
    (hd : ∀ e ∈ m.nodesToWorkloads, e.1 ≠ k → e.2.arr ≠ v.arr) :
    WFRef ⟨mem', mapSet m.nodesToWorkloads k v⟩ := by
  refine ⟨nodup_mapKeys_mapSet _ k v hwf.1, ?_, pairwise_mapSet _ k v hwf.1 hwf.2.2 hd⟩
  intro e he
  rcases mem_mapSet_of_nodup _ k v hwf.1 e he with h | ⟨h1, h2⟩
  · subst h; exact hv
  · exact ⟨(hwf.2.1 e h1).1, hframe e h1 h2⟩

theorem wf_delete (m : nodeMapperRef) (hwf : WFRef m) (k : String) :
    WFRef ⟨m.mem, mapDelete m.nodesToWorkloads k⟩ := by
  refine ⟨nodup_mapKeys_mapDelete _ k hwf.1, ?_, ?_⟩
  · intro e he
    exact hwf.2.1 e (List.mem_of_mem_filter he)
  · exact List.Pairwise.sublist (List.filter_sublist _) hwf.2.2

theorem wf_removeFound (spare : Nat → Nat) (m : nodeMapperRef) (hwf : WFRef m) (k : String)
    (w : Slice) (idx : Nat) (hw : mapGet m.nodesToWorkloads k = some w) (hidx : idx < w.len) :
    WFRef (m.removeFound spare k w idx) := by
  have hb := hwf.2.1 (k, w) (mem_of_mapGet _ k w hw)
  simp only at hb
  have hother := wf_other_arr m hwf k w hw
  have hsame : ∀ e ∈ m.nodesToWorkloads, e.1 ≠ k →
      e.2.arr < m.mem.length ∧ e.2.off + e.2.len ≤ (m.mem.getD e.2.arr []).length :=
    fun e he _ => (hwf.2.1 e he).2
  unfold nodeMapperRef.removeFound
  by_cases h1 : w.len = 1
  · simp only [h1, if_true]
    exact wf_delete m hwf k
  · by_cases h2 : idx = w.len - 1
    · simp only [h1, h2, if_false, if_true]
      exact wf_update m hwf m.mem k _ hsame
        ⟨by simp only [sliceTo]; omega, hb.2.1, by simp only [sliceTo]; omega⟩ hother
    · by_cases h3 : idx = 0
      · subst h3
        simp only [h1, h2, if_false, if_true]
        exact wf_update m hwf m.mem k _ hsame
          ⟨by simp only [sliceFrom]; omega, hb.2.1, by simp only [sliceFrom]; omega⟩ hother
      · simp only [h1, h2, h3, if_false]
        have hxs : (readSlice m.mem (sliceFrom w (idx + 1))).length = w.len - (idx + 1) :=
          readSlice_length m.mem (sliceFrom w (idx + 1)) (by simp only [sliceFrom]; omega)
        have hfit : (sliceTo w idx).len +
            (readSlice m.mem (sliceFrom w (idx + 1))).length ≤ (sliceTo w idx).cap := by
          rw [hxs]; simp only [sliceTo]; omega
        simp only [goAppend, hfit, if_true]
        refine wf_update m hwf _ k _ ?_ ?_ hother
        · intro e he hne
          rw [length_storeCells]
          exact ⟨(hwf.2.1 e he).2.1,
            le_trans (hwf.2.1 e he).2.2 (length_getD_storeCells _ _ _ _ _)⟩
        · rw [length_storeCells, hxs]
          refine ⟨by simp only [sliceTo]; omega, hb.2.1, ?_⟩
          have hmono := length_getD_storeCells (readSlice m.mem (sliceFrom w (idx + 1))) m.mem
            (sliceTo w idx).arr w.arr ((sliceTo w idx).off + (sliceTo w idx).len)
          simp only [sliceTo] at hmono ⊢
          omega

theorem removeScan_cases (spare : Nat → Nat) (m : nodeMapperRef) (d : ID)
    (order : List String) :
    m.removeScan spare d order = m ∨
      ∃ k w idx, mapGet m.nodesToWorkloads k = some w ∧
        foundIdx (readSlice m.mem w) d = some idx ∧
        m.removeScan spare d order = m.removeFound spare k w idx := by
  induction order with
  | nil => exact Or.inl rfl
  | cons k rest ih =>
    unfold nodeMapperRef.removeScan
    cases hg : mapGet m.nodesToWorkloads k with
    | none => simpa using ih
    | some w =>
      cases hf : foundIdx (readSlice m.mem w) d with
      | none => simpa [hf] using ih
      | some idx => exact Or.inr ⟨k, w, idx, hg, hf, by simp only [hf]⟩

theorem wf_removeScan (spare : Nat → Nat) (m : nodeMapperRef) (hwf : WFRef m) (d : ID)
    (order : List String) : WFRef (m.removeScan spare d order) := by
  rcases removeScan_cases spare m d order with h | ⟨k, w, idx, hw, hf, h⟩
  · rwa [h]
  · rw [h]
    have hlt := (foundIdx_eq_some _ d idx hf).1
    rw [readSlice_length m.mem w (wf_bounds m hwf k w hw)] at hlt
    exact wf_removeFound spare m hwf k w idx hw hlt

theorem get_removeFound_other (spare : Nat → Nat) (m : nodeMapperRef) (k k' : String)
    (w : Slice) (idx : Nat) (hne : k' ≠ k) :
    mapGet (m.removeFound spare k w idx).nodesToWorkloads k' =
      mapGet m.nodesToWorkloads k' := by
  unfold nodeMapperRef.removeFound
  simp only
  split
  · simp only [mapGet_mapDelete, hne, if_false]
  · split
    · simp only [mapGet_mapSet, hne, if_false]
    · split
      · simp only [mapGet_mapSet, hne, if_false]
      · simp only [mapGet_mapSet, hne, if_false]

theorem get_removeScan_untracked (spare : Nat → Nat) (m : nodeMapperRef) (d : ID)
    (order : List String) (k' : String)
    (h : ∀ t, mapGet m.nodesToWorkloads k' = some t → (⟨d⟩ : Request) ∉ readSlice m.mem t) :
    mapGet (m.removeScan spare d order).nodesToWorkloads k' =
      mapGet m.nodesToWorkloads k' := by
  rcases removeScan_cases spare m d order with h1 | ⟨k, w, idx, hw, hf, h1⟩
  · rw [h1]
  · rw [h1]
    apply get_removeFound_other
    intro e
    subst e
    have hin : (⟨d⟩ : Request) ∈ readSlice m.mem w := by
      by_contra hc
      rw [(foundIdx_eq_none _ d).mpr hc] at hf
      cases hf
    exact h w hw hin

theorem getD_alloc_new (mem : List (List Request)) (cells : List Request) :
    (mem ++ [cells]).getD mem.length [] = cells := by
  rw [List.getD_eq_getElem?_getD, List.getElem?_append_right (le_refl _)]
  simp

theorem wf_alloc (spare : Nat → Nat) (m : nodeMapperRef) (hwf : WFRef m) (k : String)
    (t : Slice) (x : Request) (hlen : (readSlice m.mem t).length = t.len) :
    WFRef ⟨m.mem ++ [readSlice m.mem t ++ [x]],
      mapSet m.nodesToWorkloads k
        ⟨m.mem.length, 0, t.len + 1, t.len + 1 + spare (t.len + 1)⟩⟩ := by
  refine wf_update m hwf _ k _ ?_ ?_ ?_
  · intro e he _
    refine ⟨?_, (readSlice_alloc m.mem e.2 _ (hwf.2.1 e he).2.2).2⟩
    have := (hwf.2.1 e he).2.1
    simp only [List.length_append, List.length_singleton]
    omega
  · refine ⟨by simp only; omega, by simp, ?_⟩
    simp only [getD_alloc_new, List.length_append, List.length_singleton, hlen]
    omega
  · intro e he _
    have := (hwf.2.1 e he).2.1
    simp only
    omega

theorem wf_append (spare : Nat → Nat) (m : nodeMapperRef) (hwf : WFRef m) (k : String)
    (t : Slice) (x : Request)
    (ht : mapGet m.nodesToWorkloads k = some t ∨
      (mapGet m.nodesToWorkloads k = none ∧ t = nilSlice)) :
    WFRef ⟨(goAppend spare m.mem t [x]).1,
      mapSet m.nodesToWorkloads k (goAppend spare m.mem t [x]).2⟩ := by
  rcases ht with ht | ⟨_, ht⟩
  · have hb := hwf.2.1 (k, t) (mem_of_mapGet _ k t ht)
    simp only at hb
    by_cases hfit : t.len + 1 ≤ t.cap
    · simp only [goAppend, List.length_singleton, hfit, if_true, storeCells]
      refine wf_update m hwf _ k _ ?_ ?_ (wf_other_arr m hwf k t ht)
      · intro e he _
        rw [length_storeCell]
        exact ⟨(hwf.2.1 e he).2.1,
          le_trans (hwf.2.1 e he).2.2 (length_getD_storeCell _ _ _ _ _)⟩
      · rw [length_storeCell]
        refine ⟨hfit, hb.2.1, ?_⟩
        have := length_getD_storeCell_written m.mem t.arr (t.off + t.len) x hb.2.1 hb.2.2
        simp only
        omega
    · simp only [goAppend, List.length_singleton, hfit, if_false]
      exact wf_alloc spare m hwf k t x (readSlice_length m.mem t hb.2.2)
  · subst ht
    have hfit : ¬ nilSlice.len + 1 ≤ nilSlice.cap := by simp [nilSlice]
    simp only [goAppend, List.length_singleton, hfit, if_false]
    exact wf_alloc spare m hwf k nilSlice x (by rw [readSlice_nilSlice]; rfl)

theorem wf_track (spare : Nat → Nat) (m : nodeMapperRef) (hwf : WFRef m) (order : List String)
    (d o : ID) : WFRef (m.TrackWorkload spare order d o) := by
  unfold nodeMapperRef.TrackWorkload
  simp only
  split
  · exact hwf
  · rename_i hcond
    have hwf1 := wf_removeScan spare m hwf d order
    apply wf_append spare _ hwf1
    cases hg : mapGet m.nodesToWorkloads o.Name with
    | none =>
      refine Or.inr ⟨?_, rfl⟩
      rw [get_removeScan_untracked spare m d order o.Name (fun t ht => by rw [hg] at ht; cases ht),
        hg]
    | some t =>
      refine Or.inl ?_
      rw [hg] at hcond
      simp only [Option.isSome_some, Option.getD_some, Bool.true_and, List.any_eq_true,
        proto.Equal, decide_eq_true_eq, not_exists, not_and] at hcond
      rw [get_removeScan_untracked spare m d order o.Name, hg]
      · rfl
      · intro t' ht' hin
        rw [hg] at ht'
        cases ht'
        exact hcond ⟨d⟩ hin rfl

theorem wf_default : WFRef DefaultNodeMapperRef := by
  unfold WFRef
  decide

theorem wf_of_reachableRef (spare : Nat → Nat) (m : nodeMapperRef)
    (h : ReachableRef spare m) : WFRef m := by
  induction h with
  | init => exact wf_default
  | track m order d o _ _ ih => exact wf_track spare m ih order d o
  | untrack m order d _ _ ih => exact wf_removeScan spare m ih d order

/-! ## Slices by reference: which later calls reach a slice handed out earlier -/

theorem goAppend_mono (spare : Nat → Nat) (mem : List (List Request)) (t : Slice)
    (xs : List Request) (b : Nat) :
    mem.length ≤ (goAppend spare mem t xs).1.length ∧
      (mem.getD b []).length ≤ ((goAppend spare mem t xs).1.getD b []).length := by
  by_cases hfit : t.len + xs.length ≤ t.cap
  · simp only [goAppend, hfit, if_true, length_storeCells]
    exact ⟨le_refl _, length_getD_storeCells _ _ _ _ _⟩
  · simp only [goAppend, hfit, if_false, List.length_append, List.length_singleton]
    refine ⟨by omega, ?_⟩
    by_cases hb : b < mem.length
    · rw [List.getD_eq_getElem?_getD, List.getD_eq_getElem?_getD,
        List.getElem?_append_left hb]
    · have : mem.getD b [] = [] := by
        rw [List.getD_eq_getElem?_getD, List.getElem?_eq_none (by omega)]
        rfl
      rw [this]
      simp

theorem removeScan_mono (spare : Nat → Nat) (m : nodeMapperRef) (d : ID)
    (order : List String) (b : Nat) :
    m.mem.length ≤ (m.removeScan spare d order).mem.length ∧
      (m.mem.getD b []).length ≤ ((m.removeScan spare d order).mem.getD b []).length := by
  rcases removeScan_mem spare m d order with h | ⟨_, w, idx, _, _, _, _, _, h⟩
  · rw [h]; exact ⟨le_refl _, le_refl _⟩
  · rw [h]; exact goAppend_mono spare m.mem _ _ b

theorem shiftsInto_false (mem : List (List Request)) (t s : Slice) (d : ID) (idx : Nat)
    (h : shiftsInto mem t s d = false) (hf : foundIdx (readSlice mem t) d = some idx)
    (h0 : 0 < idx) (h1 : idx + 1 < t.len) : s.off + s.len ≤ t.off + idx := by
  simp only [shiftsInto, hf, decide_eq_false_iff_not] at h
  by_contra hc
  exact h ⟨h0, h1, by omega⟩

theorem removeScan_keeps (spare : Nat → Nat) (m : nodeMapperRef) (hwf : WFRef m)
    (name : String) (s : Slice) (hsnap : SnapshotOf m name s) (order : List String) (d : ID)
    (hno : ∀ t, mapGet m.nodesToWorkloads name = some t → t.arr = s.arr →
      shiftsInto m.mem t s d = false) :
    readSlice (m.removeScan spare d order).mem s = readSlice m.mem s := by
  rcases removeScan_mem spare m d order with h | ⟨k, w, idx, hw, hf, h1, h2, h3, h4⟩
  · rw [h]
  · rw [h4]
    have hlt := (foundIdx_eq_some _ d idx hf).1
    rw [readSlice_length m.mem w (wf_bounds m hwf k w hw)] at hlt
    by_cases harr : s.arr = w.arr
    · have hk : k = name := hsnap.1 (k, w) (mem_of_mapGet _ k w hw) harr.symm
      subst hk
      have := shiftsInto_false m.mem w s d idx (hno w hw harr.symm) hf (by omega) (by omega)
      exact (goAppend_frame spare m.mem (sliceTo w idx) s _ hsnap.2.2 (Or.inr this)).1
    · exact (goAppend_frame spare m.mem (sliceTo w idx) s _ hsnap.2.2 (Or.inl harr)).1

theorem track_keeps (spare : Nat → Nat) (m : nodeMapperRef) (hwf : WFRef m) (name : String)
    (s : Slice) (hsnap : SnapshotOf m name s) (order : List String) (d o : ID)
    (hno : WritesInto m name s (Call.TrackWorkload order d o) = false) :
    readSlice (m.TrackWorkload spare order d o).mem s = readSlice m.mem s := by
  unfold nodeMapperRef.TrackWorkload
  simp only
  split
  · rfl
  · rename_i hcond
    have hrem : readSlice (m.removeScan spare d order).mem s = readSlice m.mem s := by
      apply removeScan_keeps spare m hwf name s hsnap
      intro t ht harr
      by_cases hon : o.Name = name
      · rw [hon, ht] at hcond
        simp only [Option.isSome_some, Option.getD_some, Bool.true_and, List.any_eq_true,
          proto.Equal, decide_eq_true_eq, not_exists, not_and] at hcond
        have hnone : foundIdx (readSlice m.mem t) d = none :=
          (foundIdx_eq_none _ d).2 (fun hin => hcond ⟨d⟩ hin rfl)
        simp only [shiftsInto, hnone]
      · simp only [WritesInto, ht, harr, decide_True, Bool.true_and, hon, if_false] at hno
        exact hno
    have hread1 : s.off + s.len ≤ ((m.removeScan spare d order).mem.getD s.arr []).length :=
      le_trans hsnap.2.2 (removeScan_mono spare m d order s.arr).2
    rw [← hrem]
    cases hg : mapGet m.nodesToWorkloads o.Name with
    | none =>
      simp only [Option.getD_none]
      exact (goAppend_alloc_frame spare _ nilSlice s _ (by simp [nilSlice]) hread1).1
    | some t =>
      simp only [Option.getD_some]
      by_cases harr : s.arr = t.arr
      · have hon : o.Name = name := hsnap.1 (o.Name, t) (mem_of_mapGet _ _ _ hg) harr.symm
        rw [hg] at hcond
        simp only [Option.isSome_some, Option.getD_some, Bool.true_and,
          Bool.not_eq_true] at hcond
        rw [hon] at hg
        simp only [WritesInto, hg, harr.symm, decide_True, Bool.true_and, hon, if_true, hcond,
          Bool.not_false, decide_eq_false_iff_not] at hno
        by_cases hfit : t.len + 1 ≤ t.cap
        · have hle : s.off + s.len ≤ t.off + t.len := by
            by_contra hc
            exact hno ⟨hfit, by omega⟩
          exact (goAppend_frame spare _ t s _ hread1 (Or.inr hle)).1
        · exact (goAppend_alloc_frame spare _ t s _ (by simpa using hfit) hread1).1
      · exact (goAppend_frame spare _ t s _ hread1 (Or.inl harr)).1

theorem arr_removeFound (spare : Nat → Nat) (m : nodeMapperRef) (hwf : WFRef m) (k : String)
    (w : Slice) (idx : Nat) (hw : mapGet m.nodesToWorkloads k = some w) (hidx : idx < w.len) :
    ∀ e ∈ (m.removeFound spare k w idx).nodesToWorkloads,
      e ∈ m.nodesToWorkloads ∨ (e.1 = k ∧ e.2.arr = w.arr) := by
  have hb := hwf.2.1 (k, w) (mem_of_mapGet _ k w hw)
  simp only at hb
  intro e
  unfold nodeMapperRef.removeFound
  by_cases h1 : w.len = 1
  · simp only [h1, if_true]
    intro he
    exact Or.inl (List.mem_of_mem_filter he)
  · by_cases h2 : idx = w.len - 1
    · simp only [h1, h2, if_false, if_true]
      intro he
      rcases mem_mapSet_of_nodup _ k _ hwf.1 e he with h | ⟨h, _⟩
      · subst h; exact Or.inr ⟨rfl, rfl⟩
      · exact Or.inl h
    · by_cases h3 : idx = 0
      · subst h3
        simp only [h1, h2, if_false, if_true]
        intro he
        rcases mem_mapSet_of_nodup _ k _ hwf.1 e he with h | ⟨h, _⟩
        · subst h; exact Or.inr ⟨rfl, rfl⟩
        · exact Or.inl h
      · simp only [h1, h2, h3, if_false]
        have hxs : (readSlice m.mem (sliceFrom w (idx + 1))).length = w.len - (idx + 1) :=
          readSlice_length m.mem (sliceFrom w (idx + 1)) (by simp only [sliceFrom]; omega)
        have hfit : (sliceTo w idx).len +
            (readSlice m.mem (sliceFrom w (idx + 1))).length ≤ (sliceTo w idx).cap := by
          rw [hxs]; simp only [sliceTo]; omega
        simp only [goAppend, hfit, if_true]
        intro he
        rcases mem_mapSet_of_nodup _ k _ hwf.1 e he with h | ⟨h, _⟩
        · subst h; exact Or.inr ⟨rfl, rfl⟩
        · exact Or.inl h

theorem snapshotOf_removeScan (spare : Nat → Nat) (m : nodeMapperRef) (hwf : WFRef m)
    (name : String) (s : Slice) (hsnap : SnapshotOf m name s) (d : ID) (order : List String) :
    SnapshotOf (m.removeScan spare d order) name s := by
  refine ⟨?_, lt_of_lt_of_le hsnap.2.1 (removeScan_mono spare m d order s.arr).1,
    le_trans hsnap.2.2 (removeScan_mono spare m d order s.arr).2⟩
  rcases removeScan_cases spare m d order with h | ⟨k, w, idx, hw, hf, h⟩
  · rw [h]; exact hsnap.1
  · rw [h]
    have hlt := (foundIdx_eq_some _ d idx hf).1
    rw [readSlice_length m.mem w (wf_bounds m hwf k w hw)] at hlt
    intro e he harr
    rcases arr_removeFound spare m hwf k w idx hw hlt e he with h1 | ⟨h1, h2⟩
    · exact hsnap.1 e h1 harr
    · rw [h1]
      exact hsnap.1 (k, w) (mem_of_mapGet _ k w hw) (by rw [← h2]; exact harr)

theorem snapshotOf_track (spare : Nat → Nat) (m : nodeMapperRef) (hwf : WFRef m)
    (name : String) (s : Slice) (hsnap : SnapshotOf m name s) (order : List String)
    (d o : ID) : SnapshotOf (m.TrackWorkload spare order d o) name s := by
  unfold nodeMapperRef.TrackWorkload
  simp only
  split
  · exact hsnap
  · have hwf1 := wf_removeScan spare m hwf d order
    have hs1 := snapshotOf_removeScan spare m hwf name s hsnap d order
    have hmono := fun t => goAppend_mono spare (m.removeScan spare d order).mem t
      [(⟨d⟩ : Request)] s.arr
    refine ⟨?_, lt_of_lt_of_le hs1.2.1 (hmono _).1, le_trans hs1.2.2 (hmono _).2⟩
    intro e he harr
    rcases mem_mapSet_of_nodup _ o.Name _ hwf1.1 e he with h | ⟨h1, _⟩
    · subst h
      have hlt := hs1.2.1
      cases hg : mapGet m.nodesToWorkloads o.Name with
      | none =>
        rw [hg] at harr
        simp [goAppend, nilSlice] at harr
        omega
      | some t =>
        rw [hg] at harr
        by_cases hfit : t.len + 1 ≤ t.cap
        · simp [goAppend, hfit] at harr
          exact hsnap.1 (o.Name, t) (mem_of_mapGet _ _ _ hg) harr
        · simp [goAppend, hfit] at harr
          omega
    · exact hs1.1 e h1 harr

theorem wf_applyRef (spare : Nat → Nat) (m : nodeMapperRef) (hwf : WFRef m) (c : Call) :
    WFRef (c.applyRef spare m) := by
  cases c with
  | TrackWorkload order d o => exact wf_track spare m hwf order d o
  | RemoveWorkloadTracking order d => exact wf_removeScan spare m hwf d order

theorem snapshotOf_applyRef (spare : Nat → Nat) (m : nodeMapperRef) (hwf : WFRef m)
    (name : String) (s : Slice) (hsnap : SnapshotOf m name s) (c : Call) :
    SnapshotOf (c.applyRef spare m) name s := by
  cases c with
  | TrackWorkload order d o => exact snapshotOf_track spare m hwf name s hsnap order d o
  | RemoveWorkloadTracking order d => exact snapshotOf_removeScan spare m hwf name s hsnap d order

theorem applyRef_keeps (spare : Nat → Nat) (m : nodeMapperRef) (hwf : WFRef m)
    (name : String) (s : Slice) (hsnap : SnapshotOf m name s) (c : Call)
    (hno : WritesInto m name s c = false) :
    readSlice (c.applyRef spare m).mem s = readSlice m.mem s := by
  cases c with
  | TrackWorkload order d o => exact track_keeps spare m hwf name s hsnap order d o hno
  | RemoveWorkloadTracking order d =>
    apply removeScan_keeps spare m hwf name s hsnap order d
    intro t ht harr
    simp only [WritesInto, ht, harr, decide_True, Bool.true_and] at hno
    exact hno

theorem run_invariants (spare : Nat → Nat) (name : String) (s : Slice) (calls : List Call) :
    ∀ m : nodeMapperRef, WFRef m → SnapshotOf m name s →
      WFRef (runCallsRef spare m calls) ∧ SnapshotOf (runCallsRef spare m calls) name s := by
  induction calls with
  | nil => intro m hwf hsnap; exact ⟨hwf, hsnap⟩
  | cons c rest ih =>
    intro m hwf hsnap
    exact ih _ (wf_applyRef spare m hwf c) (snapshotOf_applyRef spare m hwf name s hsnap c)

theorem run_keeps (spare : Nat → Nat) (name : String) (s : Slice) (calls : List Call) :
    ∀ m : nodeMapperRef, WFRef m → SnapshotOf m name s →
      NeverWritesInto spare m name s calls →
      readSlice (runCallsRef spare m calls).mem s = readSlice m.mem s := by
  induction calls with
  | nil => intro m _ _ _; rfl
  | cons c rest ih =>
    intro m hwf hsnap hno
    have h := ih _ (wf_applyRef spare m hwf c) (snapshotOf_applyRef spare m hwf name s hsnap c)
      hno.2
    exact h.trans (applyRef_keeps spare m hwf name s hsnap c hno.1)

theorem snapshotOf_query (m : nodeMapperRef) (hwf : WFRef m) (name : String) (s : Slice)
    (hs : mapGet m.nodesToWorkloads name = some s) : SnapshotOf m name s := by
  have hb := hwf.2.1 (name, s) (mem_of_mapGet _ name s hs)
  refine ⟨?_, hb.2.1, hb.2.2⟩
  intro e he harr
  by_contra hne
  exact wf_other_arr m hwf name s hs e he hne harr

theorem readSlice_nil_any (mem : List (List Request)) (s : Slice) (h : s.len = 0) :
    readSlice mem s = [] := by
  simp [readSlice, h]

/-- C16 as stated fails. With `workload1`, `workload2`, `workload3` tracked under `node1`, the
list returned by `MapNodeToWorkloads` reads `workload1, workload2, workload3`; after a later
`RemoveWorkloadTracking(workload2)`, or a later `TrackWorkload(workload2, node2)`, that same
list reads `workload1, workload3, workload3`; after a later `RemoveWorkloadTracking(workload3)`
followed by `TrackWorkload(workload4, node1)` it reads `workload1, workload2, workload4`; and
after the caller writes `workload4` into its position 0 the index itself holds
`workload4, workload2, workload3` for `node1`. -/
theorem query_snapshot_counterexample :
    readSlice indexRef3.mem (indexRef3.MapNodeToWorkloads node1).1 =
      [⟨workload1⟩, ⟨workload2⟩, ⟨workload3⟩] ∧
    readSlice (indexRef3.RemoveWorkloadTracking doublingSpare ["node1"] workload2).mem
      (indexRef3.MapNodeToWorkloads node1).1 = [⟨workload1⟩, ⟨workload3⟩, ⟨workload3⟩] ∧
    readSlice (indexRef3.TrackWorkload doublingSpare ["node1"] workload2 node2.Id).mem
      (indexRef3.MapNodeToWorkloads node1).1 = [⟨workload1⟩, ⟨workload3⟩, ⟨workload3⟩] ∧
    readSlice ((indexRef3.RemoveWorkloadTracking doublingSpare ["node1"] workload3).TrackWorkload
      doublingSpare ["node1"] workload4 node1.Id).mem
      (indexRef3.MapNodeToWorkloads node1).1 = [⟨workload1⟩, ⟨workload2⟩, ⟨workload4⟩] ∧
    indexRef3.contents "node1" = [⟨workload1⟩, ⟨workload2⟩, ⟨workload3⟩] ∧
    (indexRef3.callerWrite (indexRef3.MapNodeToWorkloads node1).1 0 ⟨workload4⟩).contents
      "node1" = [⟨workload4⟩, ⟨workload2⟩, ⟨workload3⟩] := by
  decide

/-- C16 amended, the query result is the index's own slice and not a copy. `MapNodeToWorkloads`
returns, with a nil error, the slice header stored under the node's name, whose elements are
the list the index holds at the time of the query. In every state reachable from the empty
index, and after any later sequence of `TrackWorkload` and `RemoveWorkloadTracking` calls, a
further call leaves the contents of the returned list unchanged unless it writes into the
cells of that list, which only two paths do: a removal of `d` (by `RemoveWorkloadTracking`, or
by a `TrackWorkload` that moves `d` to another node name) from an interior position of that
node's list ahead of the end of the returned list, and a `TrackWorkload` for that same node
name that appends within capacity while that node's list ends ahead of the end of the returned
list. So when no call of the sequence writes into these cells the returned list still reads
what the index held at the time of the query. A caller's write into position `i` of the
returned list is a write into the index's list for that node. -/
theorem query_result_shared (spare : Nat → Nat) (m : nodeMapperRef)
    (hm : ReachableRef spare m) (res : Resource) (calls : List Call) (c : Call) (i : Nat)
    (x : Request) :
    m.MapNodeToWorkloads res = ((mapGet m.nodesToWorkloads res.Id.Name).getD nilSlice, none) ∧
    readSlice m.mem (m.MapNodeToWorkloads res).1 = m.contents res.Id.Name ∧
    (WritesInto (runCallsRef spare m calls) res.Id.Name (m.MapNodeToWorkloads res).1 c = false →
      readSlice (c.applyRef spare (runCallsRef spare m calls)).mem (m.MapNodeToWorkloads res).1 =
        readSlice (runCallsRef spare m calls).mem (m.MapNodeToWorkloads res).1) ∧
    (NeverWritesInto spare m res.Id.Name (m.MapNodeToWorkloads res).1 calls →
      readSlice (runCallsRef spare m calls).mem (m.MapNodeToWorkloads res).1 =
        m.contents res.Id.Name) ∧
    (i < (m.MapNodeToWorkloads res).1.len →
      (m.callerWrite (m.MapNodeToWorkloads res).1 i x).contents res.Id.Name =
        (m.contents res.Id.Name).set i x) := by
  have hwf := wf_of_reachableRef spare m hm
  refine ⟨rfl, rfl, ?_, ?_, ?_⟩
  · intro hno
    simp only [nodeMapperRef.MapNodeToWorkloads] at hno ⊢
    cases hg : mapGet m.nodesToWorkloads res.Id.Name with
    | none =>
      simp only [Option.getD_none, readSlice_nilSlice]
    | some s =>
      rw [hg] at hno
      simp only [Option.getD_some] at hno ⊢
      have hinv := run_invariants spare res.Id.Name s calls m hwf
        (snapshotOf_query m hwf res.Id.Name s hg)
      exact applyRef_keeps spare _ hinv.1 res.Id.Name s hinv.2 c hno
  · intro hno
    simp only [nodeMapperRef.MapNodeToWorkloads, nodeMapperRef.contents] at hno ⊢
    cases hg : mapGet m.nodesToWorkloads res.Id.Name with
    | none =>
      simp only [Option.getD_none, readSlice_nilSlice]
    | some s =>
      rw [hg] at hno
      simp only [Option.getD_some] at hno ⊢
      exact run_keeps spare res.Id.Name s calls m hwf
        (snapshotOf_query m hwf res.Id.Name s hg) hno
  · intro hi
    simp only [nodeMapperRef.MapNodeToWorkloads] at hi ⊢
    cases hg : mapGet m.nodesToWorkloads res.Id.Name with
    | none =>
      rw [hg] at hi
      simp [nilSlice] at hi
    | some s =>
      rw [hg] at hi
      simp only [Option.getD_some] at hi ⊢
      simp only [nodeMapperRef.callerWrite, hi, if_true, nodeMapperRef.contents, hg,
        Option.getD_some]
      exact readSlice_storeCell_written m.mem s i x (wf_bounds m hwf res.Id.Name s hg) hi

theorem query_result_shared_witness :
    ReachableRef doublingSpare indexRef3 ∧
    WritesInto
      (runCallsRef doublingSpare indexRef3
        [Call.RemoveWorkloadTracking ["node1"] workload3,
          Call.TrackWorkload ["node1"] workload4 node2.Id])
      node1.Id.Name (indexRef3.MapNodeToWorkloads node1).1
      (Call.TrackWorkload ["node1", "node2"] workload2 node1.Id) = false ∧
    NeverWritesInto doublingSpare indexRef3 node1.Id.Name (indexRef3.MapNodeToWorkloads node1).1
      [Call.RemoveWorkloadTracking ["node1"] workload3,
        Call.TrackWorkload ["node1"] workload4 node2.Id] ∧
    1 < (indexRef3.MapNodeToWorkloads node1).1.len ∧
    readSlice
        ((Call.TrackWorkload ["node1", "node2"] workload2 node1.Id).applyRef doublingSpare
          (runCallsRef doublingSpare indexRef3
            [Call.RemoveWorkloadTracking ["node1"] workload3,
              Call.TrackWorkload ["node1"] workload4 node2.Id])).mem
        (indexRef3.MapNodeToWorkloads node1).1 =
      readSlice
        (runCallsRef doublingSpare indexRef3
          [Call.RemoveWorkloadTracking ["node1"] workload3,
            Call.TrackWorkload ["node1"] workload4 node2.Id]).mem
        (indexRef3.MapNodeToWorkloads node1).1 ∧
    readSlice
        (runCallsRef doublingSpare indexRef3
          [Call.RemoveWorkloadTracking ["node1"] workload3,
            Call.TrackWorkload ["node1"] workload4 node2.Id]).mem
        (indexRef3.MapNodeToWorkloads node1).1 = indexRef3.contents node1.Id.Name ∧
    (indexRef3.callerWrite (indexRef3.MapNodeToWorkloads node1).1 1 ⟨workload4⟩).contents
        node1.Id.Name = (indexRef3.contents node1.Id.Name).set 1 ⟨workload4⟩ := by
  have hr : ReachableRef doublingSpare indexRef3 :=
    ReachableRef.track _ ["node1"] workload3 node1.Id
      (ReachableRef.track _ ["node1"] workload2 node1.Id
        (ReachableRef.track _ [] workload1 node1.Id ReachableRef.init (by decide))
        (by decide))
      (by decide)
  have hw : WritesInto
      (runCallsRef doublingSpare indexRef3
        [Call.RemoveWorkloadTracking ["node1"] workload3,
          Call.TrackWorkload ["node1"] workload4 node2.Id])
      node1.Id.Name (indexRef3.MapNodeToWorkloads node1).1
      (Call.TrackWorkload ["node1", "node2"] workload2 node1.Id) = false := by decide
  have hn : NeverWritesInto doublingSpare indexRef3 node1.Id.Name
      (indexRef3.MapNodeToWorkloads node1).1
      [Call.RemoveWorkloadTracking ["node1"] workload3,
        Call.TrackWorkload ["node1"] workload4 node2.Id] :=
    ⟨by decide, by decide, trivial⟩
  have h := query_result_shared doublingSpare indexRef3 hr node1
    [Call.RemoveWorkloadTracking ["node1"] workload3,
      Call.TrackWorkload ["node1"] workload4 node2.Id]
    (Call.TrackWorkload ["node1", "node2"] workload2 node1.Id) 1 ⟨workload4⟩
  exact ⟨hr, hw, hn, by decide, h.2.2.1 hw, h.2.2.2.1 hn, h.2.2.2.2 (by decide)⟩

/-! ## What a removal does, in any state -/

theorem removeScan_result (m : List (String × List Request)) (d : ID) (order : List String) :
    removeScan m d order = m ∨
      ∃ k l, mapGet m k = some l ∧ (⟨d⟩ : Request) ∈ l ∧
        removeScan m d order =
          if l.length = 1 then mapDelete m k else mapSet m k (l.erase ⟨d⟩) := by
  induction order with
  | nil => exact Or.inl rfl
  | cons k rest ih =>
    unfold removeScan
    cases hg : mapGet m k with
    | none => simpa using ih
    | some l =>
      cases hf : foundIdx l d with
      | none => simpa [hf] using ih
      | some idx =>
        have hin : (⟨d⟩ : Request) ∈ l := by
          by_contra hc
          rw [(foundIdx_eq_none l d).mpr hc] at hf
          cases hf
        obtain ⟨h1, h2⟩ := foundIdx_eq_some l d idx hf
        exact Or.inr ⟨k, l, hg, hin, by simp only [hf, removeFound_eq m k l idx h1, h2]⟩

theorem eq_singleton_of_length_one (l : List Request) (r : Request) (h1 : l.length = 1)
    (hr : r ∈ l) : l = [r] := by
  match l, h1, hr with
  | [a], _, hr =>
    simp only [List.mem_singleton] at hr
    rw [hr]

theorem filter_erase_self (l : List Request) (r : Request) :
    (l.erase r).filter (fun q => decide (q ≠ r)) = l.filter (fun q => decide (q ≠ r)) := by
  induction l with
  | nil => rfl
  | cons a rest ih =>
    by_cases ha : a = r
    · subst ha
      simp [List.filter_cons]
    · rw [List.erase_cons_tail (by simpa using ha)]
      simp only [List.filter_cons, ha, ne_eq, not_false_eq_true, decide_True, if_true, ih]

theorem get_remove_untouched (m : nodeMapper) (order : List String) (d : ID) (k : String)
    (h : ¬ Tracked m k d) :
    mapGet (m.RemoveWorkloadTracking order d).nodesToWorkloads k =
      mapGet m.nodesToWorkloads k := by
  simp only [nodeMapper.RemoveWorkloadTracking, nodeMapper.removeWorkloadTrackingLocked]
  rcases removeScan_result m.nodesToWorkloads d order with h1 | ⟨k0, l, hl, hd, h1⟩
  · rw [h1]
  · rw [h1]
    have hk : k ≠ k0 := by
      intro e; subst e; exact h ⟨l, hl, hd⟩
    split
    · simp only [mapGet_mapDelete, hk, if_false]
    · simp only [mapGet_mapSet, hk, if_false]

theorem filter_remove (m : nodeMapper) (order : List String) (d : ID) (k : String) :
    ((mapGet (m.RemoveWorkloadTracking order d).nodesToWorkloads k).getD []).filter
        (fun q => decide (q ≠ (⟨d⟩ : Request))) =
      ((mapGet m.nodesToWorkloads k).getD []).filter
        (fun q => decide (q ≠ (⟨d⟩ : Request))) := by
  simp only [nodeMapper.RemoveWorkloadTracking, nodeMapper.removeWorkloadTrackingLocked]
  rcases removeScan_result m.nodesToWorkloads d order with h1 | ⟨k0, l, hl, hd, h1⟩
  · rw [h1]
  · rw [h1]
    by_cases hk : k = k0
    · subst hk
      by_cases hlen : l.length = 1
      · have hl1 := eq_singleton_of_length_one l ⟨d⟩ hlen hd
        simp only [hlen, if_true, mapGet_mapDelete, Option.getD_none, hl, Option.getD_some]
        rw [hl1]
        simp
      · simp only [hlen, if_false, mapGet_mapSet, if_true, Option.getD_some, hl]
        exact filter_erase_self l ⟨d⟩
    · split
      · simp only [mapGet_mapDelete, hk, if_false]
      · simp only [mapGet_mapSet, hk, if_false]

theorem filter_track (m : nodeMapper) (order : List String) (d o : ID) (k : String) :
    ((mapGet (m.TrackWorkload order d o).nodesToWorkloads k).getD []).filter
        (fun q => decide (q ≠ (⟨d⟩ : Request))) =
      ((mapGet m.nodesToWorkloads k).getD []).filter
        (fun q => decide (q ≠ (⟨d⟩ : Request))) := by
  by_cases h : Tracked m o.Name d
  · rw [track_tracked m order d o h]
  · rw [track_untracked m order d o h]
    simp only [mapGet_mapSet]
    by_cases hk : k = o.Name
    · subst hk
      simp [List.filter_append]
    · simp only [hk, if_false]
      exact filter_remove m order d k

theorem tracked_iff_mem_filter (m : nodeMapper) (k : String) (d d' : ID) (hne : d' ≠ d) :
    Tracked m k d' ↔
      (⟨d'⟩ : Request) ∈ ((mapGet m.nodesToWorkloads k).getD []).filter
        (fun q => decide (q ≠ (⟨d⟩ : Request))) := by
  have hne' : (⟨d'⟩ : Request) ≠ ⟨d⟩ := fun e => hne (congrArg Request.ID e)
  unfold Tracked
  cases hg : mapGet m.nodesToWorkloads k with
  | none => simp
  | some l => simp [List.mem_filter, hne']

theorem tracked_remove_iff_of_ne (m : nodeMapper) (order : List String) (d d' : ID)
    (k : String) (hne : d' ≠ d) :
    Tracked (m.RemoveWorkloadTracking order d) k d' ↔ Tracked m k d' := by
  rw [tracked_iff_mem_filter _ k d d' hne, tracked_iff_mem_filter _ k d d' hne,
    filter_remove m order d k]

theorem tracked_track_iff_of_ne (m : nodeMapper) (order : List String) (d d' o : ID)
    (k : String) (hne : d' ≠ d) :
    Tracked (m.TrackWorkload order d o) k d' ↔ Tracked m k d' := by
  rw [tracked_iff_mem_filter _ k d d' hne, tracked_iff_mem_filter _ k d d' hne,
    filter_track m order d o k]

/-! ## Sequences of calls -/

theorem lastCallFor_cons (c : Call) (rest : List Call) (d : ID) :
    lastCallFor (c :: rest) d =
      match lastCallFor rest d with
      | some x => some x
      | none => if c.workloadID = d then some c else none := by
  unfold lastCallFor
  rw [List.reverse_cons, List.find?_append, List.find?_singleton]
  cases List.find? (fun c => decide (c.workloadID = d)) rest.reverse with
  | none => simp
  | some x => simp

theorem inv_apply (c : Call) (m : nodeMapper) (hinv : Inv m)
    (hp : c.order.Perm (mapKeys m.nodesToWorkloads)) : Inv (c.apply m) := by
  cases c with
  | TrackWorkload order w o => exact inv_track m order w o hinv (covers_of_perm m order hp)
  | RemoveWorkloadTracking order w => exact inv_remove m order w hinv (covers_of_perm m order hp)

theorem tracked_runCalls (calls : List Call) (m : nodeMapper) (hinv : Inv m)
    (hv : ValidCalls m calls) (k : String) (d : ID) :
    Tracked (runCalls m calls) k d ↔
      match lastCallFor calls d with
      | some (Call.TrackWorkload _ _ nodeID) => k = nodeID.Name
      | some (Call.RemoveWorkloadTracking _ _) => False
      | none => Tracked m k d := by
  induction calls generalizing m with
  | nil => simp [runCalls, lastCallFor]
  | cons c rest ih =>
    obtain ⟨hp, hv'⟩ := hv
    have hinv' := inv_apply c m hinv hp
    have hrec := ih (c.apply m) hinv' hv'
    simp only [runCalls]
    rw [hrec, lastCallFor_cons]
    cases hlast : lastCallFor rest d with
    | some x => cases x <;> exact Iff.rfl
    | none =>
      simp only
      by_cases hw : c.workloadID = d
      · simp only [hw, if_true]
        cases c with
        | TrackWorkload order w o =>
          simp only [Call.workloadID] at hw
          subst hw
          simp only [Call.apply]
          constructor
          · intro ht
            exact hinv'.single _ _ w ht (tracked_track_self m order w o)
          · intro hk
            rw [hk]
            exact tracked_track_self m order w o
        | RemoveWorkloadTracking order w =>
          simp only [Call.workloadID] at hw
          subst hw
          simp only [Call.apply, iff_false]
          exact not_tracked_remove m order w hinv (covers_of_perm m order hp) k
      · simp only [hw, if_false]
        cases c with
        | TrackWorkload order w o =>
          simp only [Call.workloadID] at hw
          exact tracked_track_iff_of_ne m order w d o k (fun e => hw e.symm)
        | RemoveWorkloadTracking order w =>
          simp only [Call.workloadID] at hw
          exact tracked_remove_iff_of_ne m order w d k (fun e => hw e.symm)

/-! ## The claims, third part -/

/-- C21, the index agrees with the reference map from dependent to owner name in which the last
writer wins: for every finite sequence of `TrackWorkload` and `RemoveWorkloadTracking` calls
applied to the empty index, each scan visiting the node names in some order, workload `d` is in
the list returned by `MapNodeToWorkloads(n)` if and only if the last call of the sequence that
mentions `d` is a `TrackWorkload(d, o)` with the name of `o` equal to the name of `n`. -/
theorem agrees_with_reference_map (calls : List Call) (hv : ValidCalls DefaultNodeMapper calls)
    (d : ID) (n : Resource) :
    ((⟨d⟩ : Request) ∈ ((runCalls DefaultNodeMapper calls).MapNodeToWorkloads n).1 ↔
      referenceOwner calls d = some n.Id.Name) ∧
    ((⟨d⟩ : Request) ∈ ((runCalls DefaultNodeMapper calls).MapNodeToWorkloads n).1 ↔
      ∃ order o, lastCallFor calls d = some (Call.TrackWorkload order d o) ∧
        o.Name = n.Id.Name) := by
  have h := tracked_runCalls calls DefaultNodeMapper inv_default hv n.Id.Name d
  have hlast : ∀ c, lastCallFor calls d = some c → c.workloadID = d := by
    intro c hc
    unfold lastCallFor at hc
    have := List.find?_some hc
    simpa using this
  have hdef : ¬ Tracked DefaultNodeMapper n.Id.Name d := by
    rintro ⟨l, hl, _⟩
    simp [DefaultNodeMapper, mapGet] at hl
  rw [query_mem_iff, h]
  unfold referenceOwner
  cases hc : lastCallFor calls d with
  | none => simp [hdef]
  | some c =>
    have hw := hlast c hc
    cases c with
    | TrackWorkload order w o =>
      simp only [Call.workloadID] at hw
      subst hw
      show (n.Id.Name = o.Name ↔ some o.Name = some n.Id.Name) ∧
        (n.Id.Name = o.Name ↔ ∃ order' o', some (Call.TrackWorkload order w o) =
          some (Call.TrackWorkload order' w o') ∧ o'.Name = n.Id.Name)
      constructor
      · constructor
        · intro e; rw [e]
        · intro e; exact (Option.some.inj e).symm
      · constructor
        · intro e
          exact ⟨order, o, rfl, e.symm⟩
        · rintro ⟨order', o', he, e⟩
          cases he
          exact e.symm
    | RemoveWorkloadTracking order w =>
      show (False ↔ (none : Option String) = some n.Id.Name) ∧
        (False ↔ ∃ order' o', some (Call.RemoveWorkloadTracking order w) =
          some (Call.TrackWorkload order' d o') ∧ o'.Name = n.Id.Name)
      constructor
      · constructor
        · intro e; exact e.elim
        · intro e; cases e
      · constructor
        · intro e; exact e.elim
        · rintro ⟨_, _, he, _⟩
          cases he

theorem agrees_with_reference_map_witness :
    ValidCalls DefaultNodeMapper exampleCalls ∧
    ((⟨workload2⟩ : Request) ∈
        ((runCalls DefaultNodeMapper exampleCalls).MapNodeToWorkloads node2).1 ↔
      referenceOwner exampleCalls workload2 = some node2.Id.Name) ∧
    referenceOwner exampleCalls workload2 = some node2.Id.Name ∧
    referenceOwner exampleCalls workload1 = none := by
  have hv : ValidCalls DefaultNodeMapper exampleCalls := by
    refine ⟨by decide, by decide, by decide, by decide, trivial⟩
  exact ⟨hv, (agrees_with_reference_map exampleCalls hv workload2 node2).1, by decide,
    by decide⟩

/-- C22, the owner key is the name alone: in any index state, for two node resources whose
identifiers have the same name, whatever their tenancy and type, `MapNodeToWorkloads` returns
the same result for both, and after `TrackWorkload(d, o)` for the identifier of one of them `d`
is in the list returned for the other. -/
theorem owner_key_is_name (m : nodeMapper) (res1 res2 : Resource)
    (hname : res1.Id.Name = res2.Id.Name) (order : List String) (d : ID) :
    m.MapNodeToWorkloads res1 = m.MapNodeToWorkloads res2 ∧
    (⟨d⟩ : Request) ∈ ((m.TrackWorkload order d res1.Id).MapNodeToWorkloads res2).1 := by
  refine ⟨by simp only [nodeMapper.MapNodeToWorkloads, hname], ?_⟩
  rw [query_mem_iff, ← hname]
  exact tracked_track_self m order d res1.Id

theorem owner_key_is_name_witness :
    node1.Id.Name = node1Other.Id.Name ∧ node1.Id ≠ node1Other.Id ∧
    index2.MapNodeToWorkloads node1 = index2.MapNodeToWorkloads node1Other ∧
    (⟨workload3⟩ : Request) ∈
      ((index2.TrackWorkload ["node1"] workload3 node1.Id).MapNodeToWorkloads node1Other).1 :=
  ⟨rfl, by decide,
    (owner_key_is_name index2 node1 node1Other rfl ["node1"] workload3).1,
    (owner_key_is_name index2 node1 node1Other rfl ["node1"] workload3).2⟩

/-- C23, `TrackWorkload` touches only its own dependent: in any index state, hence in every
reachable one, and for any visiting order, a workload `d'` other than `d` is in the list of node
name `k` after `TrackWorkload(d, o)` if and only if it was there before, and in every list the
entries other than `d` are the same as before, in the same order. -/
theorem track_touches_only_its_dependent (m : nodeMapper) (order : List String) (d o : ID)
    (k : String) :
    (∀ d', d' ≠ d → (Tracked (m.TrackWorkload order d o) k d' ↔ Tracked m k d')) ∧
    ((mapGet (m.TrackWorkload order d o).nodesToWorkloads k).getD []).filter
        (fun q => decide (q ≠ (⟨d⟩ : Request))) =
      ((mapGet m.nodesToWorkloads k).getD []).filter
        (fun q => decide (q ≠ (⟨d⟩ : Request))) :=
  ⟨fun d' hne => tracked_track_iff_of_ne m order d d' o k hne, filter_track m order d o k⟩

theorem track_touches_only_its_dependent_witness :
    workload1 ≠ workload2 ∧
    (Tracked (index2.TrackWorkload ["node1"] workload2 node2.Id) "node1" workload1 ↔
      Tracked index2 "node1" workload1) ∧
    ((mapGet (index2.TrackWorkload ["node1"] workload2 node2.Id).nodesToWorkloads
        "node1").getD []).filter (fun q => decide (q ≠ (⟨workload2⟩ : Request))) =
      ((mapGet index2.nodesToWorkloads "node1").getD []).filter
        (fun q => decide (q ≠ (⟨workload2⟩ : Request))) :=
  ⟨by decide,
    (track_touches_only_its_dependent index2 ["node1"] workload2 node2.Id "node1").1 workload1
      (by decide),
    (track_touches_only_its_dependent index2 ["node1"] workload2 node2.Id "node1").2⟩

/-- C24, `RemoveWorkloadTracking` touches only its own dependent: in any index state and for any
visiting order, a workload `d'` other than `d` is in the list of node name `k` after
`RemoveWorkloadTracking(d)` if and only if it was there before, and the list of a node name
that did not hold `d` is left identical. -/
theorem untrack_touches_only_its_dependent (m : nodeMapper) (order : List String) (d : ID)
    (k : String) :
    (∀ d', d' ≠ d → (Tracked (m.RemoveWorkloadTracking order d) k d' ↔ Tracked m k d')) ∧
    (¬ Tracked m k d →
      mapGet (m.RemoveWorkloadTracking order d).nodesToWorkloads k =
        mapGet m.nodesToWorkloads k) :=
  ⟨fun d' hne => tracked_remove_iff_of_ne m order d d' k hne,
    get_remove_untouched m order d k⟩

theorem untrack_touches_only_its_dependent_witness :
    workload2 ≠ workload1 ∧
    (Tracked (doubleOwnerIndex.RemoveWorkloadTracking ["node2", "node1"] workload1) "node1"
        workload2 ↔ Tracked doubleOwnerIndex "node1" workload2) ∧
    ¬ Tracked index2 "node2" workload1 ∧
    mapGet (index2.RemoveWorkloadTracking ["node1"] workload1).nodesToWorkloads "node2" =
      mapGet index2.nodesToWorkloads "node2" := by
  have hn : ¬ Tracked index2 "node2" workload1 := by
    rintro ⟨l, hl, _⟩
    have : mapGet index2.nodesToWorkloads "node2" = none := by decide
    rw [this] at hl
    cases hl
  exact ⟨by decide,
    (untrack_touches_only_its_dependent doubleOwnerIndex ["node2", "node1"] workload1
      "node1").1 workload2 (by decide),
    hn, (untrack_touches_only_its_dependent index2 ["node1"] workload1 "node2").2 hn⟩

/-- C25, removal does not depend on the scan order: in any index state with the single-owner
invariant and for every workload `d`, `removeWorkloadTrackingLocked(d)` produces the same state
for every order in which the node names of the map are visited. -/
theorem removal_order_independent (m : nodeMapper)
    (hsingle : ∀ k1 k2 d, Tracked m k1 d → Tracked m k2 d → k1 = k2) (d : ID)
    (order1 order2 : List String) (h1 : order1.Perm (mapKeys m.nodesToWorkloads))
    (h2 : order2.Perm (mapKeys m.nodesToWorkloads)) :
    m.removeWorkloadTrackingLocked order1 d = m.removeWorkloadTrackingLocked order2 d := by
  rcases tracked_or_not m d with hn | ⟨k, l, hl, hd⟩
  · have e1 := remove_untracked m order1 d hn
    have e2 := remove_untracked m order2 d hn
    simp only [nodeMapper.RemoveWorkloadTracking] at e1 e2
    rw [e1, e2]
  · have hu : ∀ (ord : List String), ∀ k' ∈ ord, ∀ l', mapGet m.nodesToWorkloads k' = some l' →
        (⟨d⟩ : Request) ∈ l' → k' = k :=
      fun _ k' _ l' hl' hd' => hsingle k' k d ⟨l', hl', hd'⟩ ⟨l, hl, hd⟩
    have hne : mapGet m.nodesToWorkloads k ≠ none := by rw [hl]; simp
    simp only [nodeMapper.removeWorkloadTrackingLocked,
      removeScan_found m.nodesToWorkloads d order1 k l (covers_of_perm m order1 h1 k hne) hl hd
        (hu order1),
      removeScan_found m.nodesToWorkloads d order2 k l (covers_of_perm m order2 h2 k hne) hl hd
        (hu order2)]

theorem removal_order_independent_witness :
    (∀ k1 k2 d, Tracked (scenario4 [] ["node1"] ["node1"] ["node1", "node2"]) k1 d →
      Tracked (scenario4 [] ["node1"] ["node1"] ["node1", "node2"]) k2 d → k1 = k2) ∧
    ["node1", "node2"].Perm
      (mapKeys (scenario4 [] ["node1"] ["node1"] ["node1", "node2"]).nodesToWorkloads) ∧
    ["node2", "node1"].Perm
      (mapKeys (scenario4 [] ["node1"] ["node1"] ["node1", "node2"]).nodesToWorkloads) ∧
    (scenario4 [] ["node1"] ["node1"] ["node1", "node2"]).removeWorkloadTrackingLocked
        ["node1", "node2"] workload3 =
      (scenario4 [] ["node1"] ["node1"] ["node1", "node2"]).removeWorkloadTrackingLocked
        ["node2", "node1"] workload3 := by
  have hr : Reachable (scenario4 [] ["node1"] ["node1"] ["node1", "node2"]) :=
    Reachable.track _ ["node1", "node2"] workload4 node2.Id
      (Reachable.track _ ["node1"] workload3 node2.Id
        (Reachable.track _ ["node1"] workload2 node1.Id
          (Reachable.track _ [] workload1 node1.Id Reachable.init (by decide)) (by decide))
        (by decide))
      (by decide)
  have hs := (inv_of_reachable _ hr).single
  exact ⟨hs, by decide, by decide,
    removal_order_independent _ hs workload3 ["node1", "node2"] ["node2", "node1"]
      (by decide) (by decide)⟩

theorem removal_order_matters_without_single_owner :
    doubleOwnerIndex.removeWorkloadTrackingLocked ["node1", "node2"] workload1 ≠
      doubleOwnerIndex.removeWorkloadTrackingLocked ["node2", "node1"] workload1 := by
  decide

end workloadhealth

/-! ## Package `types`: the validators -/

namespace types

open pbresource

theorem append_ne_none (err : Option Error) (e : Error) : multierror.Append err e ≠ none := by
  simp [multierror.Append]

theorem validateNodeAddress_eq_none (x : Externals) (addr : pbcatalog.NodeAddress) :
    validateNodeAddress x addr = none ↔
      addr.Host ≠ "" ∧ (x.isValidIPAddress addr.Host = true ∨ x.isValidDNSName addr.Host = true) := by
  unfold validateNodeAddress
  by_cases h : addr.Host = ""
  · simp [h]
  · cases hip : x.isValidIPAddress addr.Host <;> cases hdns : x.isValidDNSName addr.Host <;>
      simp [h]

theorem validateNodeAddresses_eq_none (x : Externals) (addrs : List pbcatalog.NodeAddress)
    (idx : Nat) (err : Option Error) :
    validateNodeAddresses x addrs idx err = none ↔
      err = none ∧ ∀ addr ∈ addrs, validateNodeAddress x addr = none := by
  induction addrs generalizing idx err with
  | nil => simp [validateNodeAddresses]
  | cons addr rest ih =>
    unfold validateNodeAddresses
    cases ha : validateNodeAddress x addr with
    | none =>
      simp only [ih, List.mem_cons, forall_eq_or_imp, ha, true_and]
    | some addrErr =>
      simp only [ih, List.mem_cons, forall_eq_or_imp, ha]
      constructor
      · rintro ⟨h, _⟩
        exact absurd h (append_ne_none _ _)
      · rintro ⟨_, h, _⟩
        cases h

theorem validateEndpointAddresses_eq_none (x : Externals)
    (ports : List (String × pbcatalog.WorkloadPort)) (addrs : List pbcatalog.WorkloadAddress)
    (idx : Nat) (err : Option Error) :
    validateEndpointAddresses x ports addrs idx err = none ↔
      err = none ∧ ∀ addr ∈ addrs, x.validateWorkloadAddress addr ports = none := by
  induction addrs generalizing idx err with
  | nil => simp [validateEndpointAddresses]
  | cons addr rest ih =>
    unfold validateEndpointAddresses
    cases ha : x.validateWorkloadAddress addr ports with
    | none =>
      simp only [ih, List.mem_cons, forall_eq_or_imp, ha, true_and]
    | some addrErr =>
      simp only [ih, List.mem_cons, forall_eq_or_imp, ha]
      constructor
      · rintro ⟨h, _⟩
        exact absurd h (append_ne_none _ _)
      · rintro ⟨_, h, _⟩
        cases h

theorem validateEndpointPorts_eq_none (x : Externals)
    (ports : List (String × pbcatalog.WorkloadPort)) (order : List String)
    (err : Option Error) :
    validateEndpointPorts x ports order err = none ↔
      err = none ∧ ∀ k ∈ order, ∀ port, workloadhealth.mapGet ports k = some port →
        x.validatePortName k = none ∧ 1 ≤ port.Port ∧ port.Port ≤ 65535 := by
  induction order generalizing err with
  | nil => simp [validateEndpointPorts]
  | cons k rest ih =>
    unfold validateEndpointPorts
    cases hg : workloadhealth.mapGet ports k with
    | none =>
      simp only [ih, List.mem_cons, forall_eq_or_imp, hg]
      simp
    | some port =>
      simp only [ih, List.mem_cons, forall_eq_or_imp, hg, Option.some.injEq, forall_eq']
      by_cases hr : port.Port < 1 ∨ port.Port > 65535
      · simp only [hr, if_true]
        constructor
        · rintro ⟨h, _⟩
          exact absurd h (append_ne_none _ _)
        · rintro ⟨_, ⟨_, h1, h2⟩, _⟩
          omega
      · simp only [hr, if_false]
        have hr' : 1 ≤ port.Port ∧ port.Port ≤ 65535 := by omega
        cases hn : x.validatePortName k with
        | none => simp only [hr', and_self, true_and]
        | some portNameErr =>
          simp only
          constructor
          · rintro ⟨h, _⟩
            exact absurd h (append_ne_none _ _)
          · rintro ⟨_, ⟨h, _⟩, _⟩
            cases h

/-- C19, node validation: for every resource whose data parses as a node, `ValidateNode`
returns no error if and only if the node has at least one address and every address has a
non-empty host that is a valid IP address or a valid DNS name. -/
theorem validate_node_ok_iff (x : Externals) (res : Resource) (node : pbcatalog.Node)
    (hparse : x.UnmarshalNode res.Data = Except.ok node) :
    ValidateNode x res = none ↔
      1 ≤ node.Addresses.length ∧
      ∀ addr ∈ node.Addresses,
        addr.Host ≠ "" ∧
          (x.isValidIPAddress addr.Host = true ∨ x.isValidDNSName addr.Host = true) := by
  unfold ValidateNode
  simp only [hparse, validateNodeAddresses_eq_none, validateNodeAddress_eq_none]
  by_cases hlen : node.Addresses.length < 1
  · simp only [hlen, if_true]
    constructor
    · rintro ⟨h, _⟩
      exact absurd h (append_ne_none _ _)
    · rintro ⟨h, _⟩
      omega
  · simp only [hlen, if_false, true_and]
    constructor
    · intro h
      exact ⟨by omega, h⟩
    · rintro ⟨_, h⟩
      exact h

theorem validate_node_ok_iff_witness :
    exampleExternals.UnmarshalNode exampleNodeResource.Data =
      Except.ok ⟨[⟨"198.18.0.1"⟩]⟩ ∧
    (ValidateNode exampleExternals exampleNodeResource = none ↔
      1 ≤ (⟨[⟨"198.18.0.1"⟩]⟩ : pbcatalog.Node).Addresses.length ∧
      ∀ addr ∈ (⟨[⟨"198.18.0.1"⟩]⟩ : pbcatalog.Node).Addresses,
        addr.Host ≠ "" ∧
          (exampleExternals.isValidIPAddress addr.Host = true ∨
            exampleExternals.isValidDNSName addr.Host = true)) :=
  ⟨rfl, validate_node_ok_iff exampleExternals exampleNodeResource ⟨[⟨"198.18.0.1"⟩]⟩ rfl⟩

/-- C20, endpoint validation: for every endpoint and enclosing resource, and whatever order the
map of ports is visited in, `validateEndpoint` returns no error if and only if the target
reference is nil or passes `validateReference` against the workload type and the resource's
tenancy, every address passes `validateWorkloadAddress`, the endpoint has at least one port,
every port name passes `validatePortName`, and every physical port number lies between 1 and
65535 inclusive. -/
theorem validate_endpoint_ok_iff (x : Externals) (portOrder : List String)
    (endpoint : pbcatalog.Endpoint) (res : Resource)
    (hkeys : (workloadhealth.mapKeys endpoint.Ports).Nodup)
    (horder : portOrder.Perm (workloadhealth.mapKeys endpoint.Ports)) :
    validateEndpoint x portOrder endpoint res = none ↔
      (endpoint.TargetRef = none ∨
        ∃ targetRef, endpoint.TargetRef = some targetRef ∧
          x.validateReference x.WorkloadType res.Id.Tenancy targetRef = none) ∧
      (∀ addr ∈ endpoint.Addresses, x.validateWorkloadAddress addr endpoint.Ports = none) ∧
      1 ≤ endpoint.Ports.length ∧
      (∀ e ∈ endpoint.Ports, x.validatePortName e.1 = none) ∧
      (∀ e ∈ endpoint.Ports, 1 ≤ e.2.Port ∧ e.2.Port ≤ 65535) := by
  have hports : (∀ k ∈ portOrder, ∀ port, workloadhealth.mapGet endpoint.Ports k = some port →
        x.validatePortName k = none ∧ 1 ≤ port.Port ∧ port.Port ≤ 65535) ↔
      ((∀ e ∈ endpoint.Ports, x.validatePortName e.1 = none) ∧
        (∀ e ∈ endpoint.Ports, 1 ≤ e.2.Port ∧ e.2.Port ≤ 65535)) := by
    constructor
    · intro h
      have key : ∀ e ∈ endpoint.Ports,
          x.validatePortName e.1 = none ∧ 1 ≤ e.2.Port ∧ e.2.Port ≤ 65535 := by
        intro e he
        have hk : e.1 ∈ portOrder :=
          horder.symm.subset (List.mem_map.mpr ⟨e, he, rfl⟩)
        exact h e.1 hk e.2 (workloadhealth.mapGet_of_mem _ hkeys e.1 e.2 he)
      exact ⟨fun e he => (key e he).1, fun e he => (key e he).2⟩
    · rintro ⟨h1, h2⟩ k _ port hg
      have hmem := workloadhealth.mem_of_mapGet _ k port hg
      exact ⟨h1 (k, port) hmem, h2 (k, port) hmem⟩
  unfold validateEndpoint
  simp only [validateEndpointPorts_eq_none, hports]
  by_cases hlen : endpoint.Ports.length < 1
  · simp only [hlen, if_true]
    constructor
    · rintro ⟨h, _⟩
      exact absurd h (append_ne_none _ _)
    · rintro ⟨_, _, h, _⟩
      omega
  · simp only [hlen, if_false, validateEndpointAddresses_eq_none]
    have hlen' : 1 ≤ endpoint.Ports.length := by omega
    cases ht : endpoint.TargetRef with
    | none => simp [hlen']
    | some targetRef =>
      cases hv : x.validateReference x.WorkloadType res.Id.Tenancy targetRef with
      | none => simp [hlen', hv]
      | some refErr =>
        simp only [hv]
        constructor
        · rintro ⟨⟨h, _⟩, _⟩
          exact absurd h (append_ne_none _ _)
        · rintro ⟨h | ⟨r, hr, hr'⟩, _⟩
          · cases h
          · cases hr
            rw [hv] at hr'
            cases hr'

theorem validate_endpoint_ok_iff_witness :
    (workloadhealth.mapKeys exampleEndpoint.Ports).Nodup ∧
    ["http"].Perm (workloadhealth.mapKeys exampleEndpoint.Ports) ∧
    (validateEndpoint exampleExternals ["http"] exampleEndpoint exampleNodeResource = none ↔
      (exampleEndpoint.TargetRef = none ∨
        ∃ targetRef, exampleEndpoint.TargetRef = some targetRef ∧
          exampleExternals.validateReference exampleExternals.WorkloadType
            exampleNodeResource.Id.Tenancy targetRef = none) ∧
      (∀ addr ∈ exampleEndpoint.Addresses,
        exampleExternals.validateWorkloadAddress addr exampleEndpoint.Ports = none) ∧
      1 ≤ exampleEndpoint.Ports.length ∧
      (∀ e ∈ exampleEndpoint.Ports, exampleExternals.validatePortName e.1 = none) ∧
      (∀ e ∈ exampleEndpoint.Ports, 1 ≤ e.2.Port ∧ e.2.Port ≤ 65535)) :=
  ⟨by decide, by decide,
    validate_endpoint_ok_iff exampleExternals ["http"] exampleEndpoint exampleNodeResource
      (by decide) (by decide)⟩

/-! ## The structure of the accumulated errors -/

theorem validateNodeAddresses_multi (x : Externals) (addrs : List pbcatalog.NodeAddress)
    (idx : Nat) (errs : List Error) :
    validateNodeAddresses x addrs idx (some (Error.multi errs)) =
      some (Error.multi (errs ++ (addrs.enumFrom idx).filterMap (fun ia =>
        (validateNodeAddress x ia.2).map (Error.ErrInvalidListElement "addresses" ia.1)))) := by
  induction addrs generalizing idx errs with
  | nil => simp [validateNodeAddresses]
  | cons addr rest ih =>
    unfold validateNodeAddresses
    cases ha : validateNodeAddress x addr with
    | none =>
      simp only [List.enumFrom_cons, List.filterMap_cons, ha, Option.map_none', ih]
    | some addrErr =>
      have happ : multierror.Append (some (Error.multi errs))
          (Error.ErrInvalidListElement "addresses" idx addrErr) =
          some (Error.multi (errs ++ [Error.ErrInvalidListElement "addresses" idx addrErr])) :=
        rfl
      simp only [happ, ih, List.enumFrom_cons, List.filterMap_cons, ha, Option.map_some',
        List.append_assoc, List.singleton_append]

theorem validateNodeAddresses_none (x : Externals) (addrs : List pbcatalog.NodeAddress)
    (idx : Nat) :
    validateNodeAddresses x addrs idx none =
      match (addrs.enumFrom idx).filterMap (fun ia =>
        (validateNodeAddress x ia.2).map (Error.ErrInvalidListElement "addresses" ia.1)) with
      | [] => none
      | e :: errs => some (Error.multi (e :: errs)) := by
  induction addrs generalizing idx with
  | nil => simp [validateNodeAddresses]
  | cons addr rest ih =>
    unfold validateNodeAddresses
    cases ha : validateNodeAddress x addr with
    | none =>
      simp only [List.enumFrom_cons, List.filterMap_cons, ha, Option.map_none', ih]
    | some addrErr =>
      have happ : multierror.Append none
          (Error.ErrInvalidListElement "addresses" idx addrErr) =
          some (Error.multi [Error.ErrInvalidListElement "addresses" idx addrErr]) := rfl
      simp only [happ, validateNodeAddresses_multi, List.enumFrom_cons, List.filterMap_cons, ha,
        Option.map_some', List.singleton_append]

theorem validateEndpoints_multi (x : Externals) (portOrder : Nat → List String)
    (res : Resource) (endpoints : List pbcatalog.Endpoint) (idx : Nat) (errs : List Error) :
    validateEndpoints x portOrder res endpoints idx (some (Error.multi errs)) =
      some (Error.multi (errs ++ (endpoints.enumFrom idx).filterMap (fun ie =>
        (validateEndpoint x (portOrder ie.1) ie.2 res).map
          (Error.ErrInvalidListElement "endpoints" ie.1)))) := by
  induction endpoints generalizing idx errs with
  | nil => simp [validateEndpoints]
  | cons endpoint rest ih =>
    unfold validateEndpoints
    cases ha : validateEndpoint x (portOrder idx) endpoint res with
    | none =>
      simp only [List.enumFrom_cons, List.filterMap_cons, ha, Option.map_none', ih]
    | some endpointErr =>
      have happ : multierror.Append (some (Error.multi errs))
          (Error.ErrInvalidListElement "endpoints" idx endpointErr) =
          some (Error.multi (errs ++ [Error.ErrInvalidListElement "endpoints" idx endpointErr])) :=
        rfl
      simp only [happ, ih, List.enumFrom_cons, List.filterMap_cons, ha, Option.map_some',
        List.append_assoc, List.singleton_append]

theorem validateEndpoints_none (x : Externals) (portOrder : Nat → List String)
    (res : Resource) (endpoints : List pbcatalog.Endpoint) (idx : Nat) :
    validateEndpoints x portOrder res endpoints idx none =
      match (endpoints.enumFrom idx).filterMap (fun ie =>
        (validateEndpoint x (portOrder ie.1) ie.2 res).map
          (Error.ErrInvalidListElement "endpoints" ie.1)) with
      | [] => none
      | e :: errs => some (Error.multi (e :: errs)) := by
  induction endpoints generalizing idx with
  | nil => simp [validateEndpoints]
  | cons endpoint rest ih =>
    unfold validateEndpoints
    cases ha : validateEndpoint x (portOrder idx) endpoint res with
    | none =>
      simp only [List.enumFrom_cons, List.filterMap_cons, ha, Option.map_none', ih]
    | some endpointErr =>
      have happ : multierror.Append none
          (Error.ErrInvalidListElement "endpoints" idx endpointErr) =
          some (Error.multi [Error.ErrInvalidListElement "endpoints" idx endpointErr]) := rfl
      simp only [happ, validateEndpoints_multi, List.enumFrom_cons, List.filterMap_cons, ha,
        Option.map_some', List.singleton_append]

theorem validateEndpoints_eq_none (x : Externals) (portOrder : Nat → List String)
    (res : Resource) (endpoints : List pbcatalog.Endpoint) (idx : Nat) (err : Option Error) :
    validateEndpoints x portOrder res endpoints idx err = none ↔
      err = none ∧ ∀ ie ∈ endpoints.enumFrom idx,
        validateEndpoint x (portOrder ie.1) ie.2 res = none := by
  induction endpoints generalizing idx err with
  | nil => simp [validateEndpoints]
  | cons endpoint rest ih =>
    unfold validateEndpoints
    cases ha : validateEndpoint x (portOrder idx) endpoint res with
    | none =>
      simp only [ih, List.enumFrom_cons, List.mem_cons, forall_eq_or_imp, ha, true_and]
    | some endpointErr =>
      simp only [ih, List.enumFrom_cons, List.mem_cons, forall_eq_or_imp, ha]
      constructor
      · rintro ⟨h, _⟩
        exact absurd h (append_ne_none _ _)
      · rintro ⟨_, h, _⟩
        cases h

theorem validateNodeAddress_rejects (x : Externals) (addr : pbcatalog.NodeAddress)
    (hne : addr.Host ≠ "") (hip : x.isValidIPAddress addr.Host = false)
    (hdns : x.isValidDNSName addr.Host = false) :
    validateNodeAddress x addr =
      some (Error.ErrInvalidField "host" (Error.ErrInvalidNodeHostFormat addr.Host)) := by
  simp [validateNodeAddress, hne, hip, hdns]

/-! ## The claims on the validators -/

/-- C26 as stated fails: the host `unix:///foo/bar.sock` is not empty and is a valid unix socket
path, and `validateNodeAddress` returns for it the error `ErrInvalidField` on `host` wrapping
`ErrInvalidNodeHostFormat`, since the code asks for an IP address or a DNS name and the host is
neither. -/
theorem unix_socket_host_rejected :
    unixSocketAddress.Host ≠ "" ∧
    isValidUnixSocketPath unixSocketAddress.Host = true ∧
    exampleExternals.isValidIPAddress unixSocketAddress.Host = false ∧
    exampleExternals.isValidDNSName unixSocketAddress.Host = false ∧
    validateNodeAddress exampleExternals unixSocketAddress =
      some (Error.ErrInvalidField "host"
        (Error.ErrInvalidNodeHostFormat "unix:///foo/bar.sock")) :=
  ⟨by decide, by decide, by decide, by decide,
    validateNodeAddress_rejects exampleExternals unixSocketAddress (by decide) (by decide)
      (by decide)⟩

/-- C26 amended, node host kinds: for every non-empty host that is a valid IP address or a valid
DNS name `validateNodeAddress` returns no error; a non-empty host that is neither of the two,
a valid unix socket path included, is rejected with `ErrInvalidField` on `host` wrapping
`ErrInvalidNodeHostFormat` for that host. -/
theorem node_host_kinds (x : Externals) (addr : pbcatalog.NodeAddress)
    (hne : addr.Host ≠ "") :
    ((x.isValidIPAddress addr.Host = true ∨ x.isValidDNSName addr.Host = true) →
      validateNodeAddress x addr = none) ∧
    (x.isValidIPAddress addr.Host = false → x.isValidDNSName addr.Host = false →
      validateNodeAddress x addr =
        some (Error.ErrInvalidField "host" (Error.ErrInvalidNodeHostFormat addr.Host))) :=
  ⟨fun h => (validateNodeAddress_eq_none x addr).mpr ⟨hne, h⟩,
    fun hip hdns => validateNodeAddress_rejects x addr hne hip hdns⟩

theorem node_host_kinds_witness :
    (⟨"foo.com"⟩ : pbcatalog.NodeAddress).Host ≠ "" ∧
    exampleExternals.isValidDNSName (⟨"foo.com"⟩ : pbcatalog.NodeAddress).Host = true ∧
    validateNodeAddress exampleExternals ⟨"foo.com"⟩ = none ∧
    (⟨"198.18.0.1"⟩ : pbcatalog.NodeAddress).Host ≠ "" ∧
    exampleExternals.isValidIPAddress (⟨"198.18.0.1"⟩ : pbcatalog.NodeAddress).Host = true ∧
    validateNodeAddress exampleExternals ⟨"198.18.0.1"⟩ = none ∧
    (⟨"-blarg"⟩ : pbcatalog.NodeAddress).Host ≠ "" ∧
    exampleExternals.isValidIPAddress (⟨"-blarg"⟩ : pbcatalog.NodeAddress).Host = false ∧
    exampleExternals.isValidDNSName (⟨"-blarg"⟩ : pbcatalog.NodeAddress).Host = false ∧
    validateNodeAddress exampleExternals ⟨"-blarg"⟩ =
      some (Error.ErrInvalidField "host" (Error.ErrInvalidNodeHostFormat "-blarg")) :=
  ⟨by decide, by decide,
    (node_host_kinds exampleExternals ⟨"foo.com"⟩ (by decide)).1 (Or.inr (by decide)),
    by decide, by decide,
    (node_host_kinds exampleExternals ⟨"198.18.0.1"⟩ (by decide)).1 (Or.inl (by decide)),
    by decide, by decide, by decide,
    (node_host_kinds exampleExternals ⟨"-blarg"⟩ (by decide)).2 (by decide) (by decide)⟩

/-- C27, the structure of the error of `ValidateNode`: for every resource whose data parses as a
node, when the address list is empty the error holds exactly the one
`ErrInvalidField` on `addresses` wrapping `errEmpty`; otherwise it holds exactly one
`ErrInvalidListElement` on `addresses` for each address that `validateNodeAddress` rejects,
with the index of that address and the error it was rejected with, in ascending order of index,
and the error is nil when no address is rejected. -/
theorem validate_node_error_structure (x : Externals) (res : Resource) (node : pbcatalog.Node)
    (hparse : x.UnmarshalNode res.Data = Except.ok node) :
    (node.Addresses = [] →
      ValidateNode x res =
        some (Error.multi [Error.ErrInvalidField "addresses" Error.errEmpty])) ∧
    (node.Addresses ≠ [] →
      ValidateNode x res =
        match node.Addresses.enum.filterMap (fun ia =>
          (validateNodeAddress x ia.2).map (Error.ErrInvalidListElement "addresses" ia.1)) with
        | [] => none
        | e :: errs => some (Error.multi (e :: errs))) := by
  unfold ValidateNode
  simp only [hparse]
  constructor
  · intro hnil
    rw [hnil]
    rfl
  · intro hne
    have hlen : ¬ node.Addresses.length < 1 := by
      cases hl : node.Addresses with
      | nil => exact absurd hl hne
      | cons a rest => simp
    simp only [hlen, if_false, validateNodeAddresses_none]
    rfl

theorem validate_node_error_structure_witness :
    exampleExternals.UnmarshalNode emptyNodeResource.Data = Except.ok ⟨[]⟩ ∧
    ValidateNode exampleExternals emptyNodeResource =
      some (Error.multi [Error.ErrInvalidField "addresses" Error.errEmpty]) ∧
    exampleExternals.UnmarshalNode exampleNodeResource.Data =
      Except.ok ⟨[⟨"198.18.0.1"⟩]⟩ ∧
    (⟨[⟨"198.18.0.1"⟩]⟩ : pbcatalog.Node).Addresses ≠ [] ∧
    ValidateNode exampleExternals exampleNodeResource =
      match (⟨[⟨"198.18.0.1"⟩]⟩ : pbcatalog.Node).Addresses.enum.filterMap (fun ia =>
        (validateNodeAddress exampleExternals ia.2).map
          (Error.ErrInvalidListElement "addresses" ia.1)) with
      | [] => none
      | e :: errs => some (Error.multi (e :: errs)) :=
  ⟨rfl, (validate_node_error_structure exampleExternals emptyNodeResource ⟨[]⟩ rfl).1 rfl, rfl,
    by decide,
    (validate_node_error_structure exampleExternals exampleNodeResource ⟨[⟨"198.18.0.1"⟩]⟩
      rfl).2 (by decide)⟩

/-- C28, validation of service endpoints: for every resource whose data parses as service
endpoints, `ValidateServiceEndpoints` returns no error if and only if every endpoint passes
`validateEndpoint`, so that an empty list of endpoints is accepted; otherwise its error holds
exactly one `ErrInvalidListElement` on `endpoints` for each endpoint that fails, with the index
of that endpoint and the error of `validateEndpoint`, in ascending order of index. -/
theorem validate_service_endpoints (x : Externals) (portOrder : Nat → List String)
    (res : Resource) (svcEndpoints : pbcatalog.ServiceEndpoints)
    (hparse : x.UnmarshalServiceEndpoints res.Data = Except.ok svcEndpoints) :
    (ValidateServiceEndpoints x portOrder res = none ↔
      ∀ ie ∈ svcEndpoints.Endpoints.enum,
        validateEndpoint x (portOrder ie.1) ie.2 res = none) ∧
    (svcEndpoints.Endpoints = [] → ValidateServiceEndpoints x portOrder res = none) ∧
    ValidateServiceEndpoints x portOrder res =
      match svcEndpoints.Endpoints.enum.filterMap (fun ie =>
        (validateEndpoint x (portOrder ie.1) ie.2 res).map
          (Error.ErrInvalidListElement "endpoints" ie.1)) with
      | [] => none
      | e :: errs => some (Error.multi (e :: errs)) := by
  unfold ValidateServiceEndpoints
  simp only [hparse]
  refine ⟨?_, ?_, ?_⟩
  · rw [validateEndpoints_eq_none]
    simp only [true_and]
    rfl
  · intro hnil
    rw [hnil]
    rfl
  · rw [validateEndpoints_none]
    rfl

theorem validate_service_endpoints_witness :
    exampleEndpointsExternals.UnmarshalServiceEndpoints exampleNodeResource.Data =
      Except.ok ⟨[⟨none, [], [], 0⟩, exampleEndpoint]⟩ ∧
    ValidateServiceEndpoints exampleEndpointsExternals (fun _ => ["http"]) exampleNodeResource =
      some (Error.multi [Error.ErrInvalidListElement "endpoints" 0
        (Error.multi [Error.ErrInvalidField "ports" Error.errEmpty])]) := by
  refine ⟨rfl, ?_⟩
  rw [(validate_service_endpoints exampleEndpointsExternals (fun _ => ["http"])
    exampleNodeResource ⟨[⟨none, [], [], 0⟩, exampleEndpoint]⟩ rfl).2.2]
  rfl

end types

/-! ## The gateway tests -/

namespace gateways

theorem hexEncodeToString_length (p : List Nat) :
    (hexEncodeToString p).length = 2 * p.length := by
  induction p with
  | nil => rfl
  | cons b rest ih =>
    simp only [hexEncodeToString, List.flatMap_cons, List.length_append, List.length_cons,
      List.length_nil] at ih ⊢
    omega

/-- C29 as stated fails: for the prefix `abcdef` and the length 3 `randomName` returns the
prefix itself, whose length is 6 and not 3; and for the negative length -1 it returns the
prefix `gw`, of length 2. -/
theorem random_name_counterexample :
    randomName abcdef 3 exampleRand = abcdef ∧
    (randomName abcdef 3 exampleRand).length = 6 ∧
    (randomName abcdef 3 exampleRand).length ≠ 3 ∧
    randomName gw (-1) exampleRand = gw ∧
    ((randomName gw (-1) exampleRand).length : Int) ≠ -1 := by
  decide

/-- C29 amended, the length of a random name: whatever random bytes are drawn, `randomName`
returns a string that begins with the prefix; with `n1` the requested length, 32 when `n` is 0,
the string has length `n1` when the prefix is at most `n1` long, and a prefix that is at least
`n1` long is returned as it is. -/
theorem random_name_length (pfx : List Nat) (n : Int) (rand : Nat → Nat) :
    (randomName pfx n rand).take pfx.length = pfx ∧
    ((pfx.length : Int) ≤ (if n = 0 then 32 else n) →
      ((randomName pfx n rand).length : Int) = (if n = 0 then 32 else n)) ∧
    ((pfx.length : Int) ≥ (if n = 0 then 32 else n) → randomName pfx n rand = pfx) := by
  unfold randomName
  simp only
  generalize (if n = 0 then (32 : Int) else n) = n1
  by_cases hge : (pfx.length : Int) ≥ n1
  · simp only [hge, if_true, List.take_length, true_and, implies_true, and_true]
    intro hle
    omega
  · simp only [hge, if_false, false_implies, and_true]
    have hlt : pfx.length < n1.toNat := by omega
    have htot : n1.toNat ≤
        (pfx ++ [45] ++ hexEncodeToString ((List.range n1.toNat).map rand)).length := by
      simp only [List.length_append, List.length_singleton, hexEncodeToString_length,
        List.length_map, List.length_range]
      omega
    constructor
    · rw [List.take_take, min_eq_left (le_of_lt hlt), List.append_assoc,
        List.take_left]
    · intro _
      rw [List.length_take, min_eq_left htot]
      omega

theorem random_name_length_witness :
    ((gw.length : Int) ≤ (if (0 : Int) = 0 then 32 else 0)) ∧
    ((randomName gw 0 exampleRand).length : Int) = (if (0 : Int) = 0 then 32 else 0) ∧
    (randomName gw 0 exampleRand).take gw.length = gw ∧
    ((abcdef.length : Int) ≥ (if (3 : Int) = 0 then 32 else 3)) ∧
    randomName abcdef 3 exampleRand = abcdef :=
  ⟨by decide, (random_name_length gw 0 exampleRand).2.1 (by decide),
    (random_name_length gw 0 exampleRand).1, by decide,
    (random_name_length abcdef 3 exampleRand).2.2 (by decide)⟩

end gateways
